import Mathlib

/-!
# argon2password: the PHC hash codec and its verification path

A shallow embedding of `src/argon.go`, `src/argon2password.go`, `src/constants.go`,
`src/errors.go` and `src/random.go`, with the standard-library routines they call
(`bytes.Split`, `bytes.Index`, `strconv.AppendUint`, `encoding/base64`,
`crypto/subtle`) modelled next to them.

Conventions
* a Go `byte` is a `Byte = Fin 256`; a `[]byte` is a `List Byte`; a slice that may be
  `nil` is an `Option (List Byte)` with `none` for `nil`;
* `uint32` / `uint8` / `int` values are `Nat` / `Int`, reduced `% 2 ^ w` at every place
  where the Go code converts or may wrap;
* a function that returns several values returns a structure or tuple with the same
  components; an `error` is an `Option GoError` with `none` for `nil`;
* a run-time panic (index or slice out of range, or `argon2.IDKey` called with no
  iterations, no threads or no output length) is the outer `none` of an `Option`.
-/

namespace Argon2Password

/-! ## Bytes -/

/-- A Go `byte` (`uint8`). -/
abbrev Byte := Fin 256

/-- The conversion `byte(n)` of an unsigned integer: truncation to 8 bits. -/
def Byte.ofNat (n : Nat) : Byte := ⟨n % 256, Nat.mod_lt n (by decide)⟩

/-! ## Errors (`src/errors.go`) -/

/-- The sentinel errors of `src/errors.go`, and the two wrapped errors that the
code builds with `fmt.Errorf("...: %w", err)`. -/
inductive GoError where
  | ErrInvalidHashFormat
  | ErrUnsupportedAlgorithm
  | ErrInvalidVersion
  | ErrInvalidParams
  | ErrInvalidSalt
  | ErrInvalidHash
  | ErrHashTooLarge
  | ErrEmptyPassword
  | ErrNilHash
  | ErrIntegerOverflow
  | ErrEmptyByteSlice
  | ErrInvalidDigit
  | ErrGenerateLength
  | ErrLengthZero
  | ErrInvalidCharset
  | ErrGeneratePassword
  | ErrNegativeLength
  | ErrRandomNumNegativeN
  /-- `fmt.Errorf("Argon2Password: Base64 decode error: %w", base64.CorruptInputError(offset))` -/
  | Base64DecodeError (offset : Nat)
  /-- `fmt.Errorf("argon2Password: Failed to generate random bytes: %w", err)` -/
  | RandomBytesError
  deriving DecidableEq, Repr

open GoError

deriving instance DecidableEq for Except

/-! ## Constants (`src/constants.go`) -/

def ArgonMemory : Nat := 64 * 1024
def ArgonIterations : Nat := 3
def ArgonSaltLength : Nat := 16
def ArgonKeyLength : Nat := 32
def ArgonMaxMemory : Nat := 512 * 1024
def ArgonMaxIterations : Nat := 10
def ArgonMaxParallelism : Nat := 4
def ArgonEncodedPartCount : Nat := 6

/-- The constant `argon2.Version` of `golang.org/x/crypto/argon2` (`0x13`). -/
def argon2Version : Nat := 19

/-- The largest `uint32`, written `^uint32(0)` in the source. -/
def maxUint32 : Nat := 4294967295

/-- The bytes of `"argon2id"`. -/
def argon2idBytes : List Byte := [97, 114, 103, 111, 110, 50, 105, 100]
/-- The bytes of `"v="`. -/
def vEqualsBytes : List Byte := [118, 61]
/-- The bytes of `"m="`. -/
def mEqualsBytes : List Byte := [109, 61]
/-- The bytes of `",t="`. -/
def commaTEqualsBytes : List Byte := [44, 116, 61]
/-- The bytes of `",p="`. -/
def commaPEqualsBytes : List Byte := [44, 112, 61]
/-- The bytes of `"$m="`. -/
def dollarMEqualsBytes : List Byte := [36, 109, 61]
/-- The byte `'$'`. -/
def dollarSignByte : Byte := 36
/-- The bytes of `"$"`. -/
def dollarSignBytes : List Byte := [dollarSignByte]
/-- The bytes of `"$argon2id$v="`. -/
def argonAlgoAndVersionPrefixBytes : List Byte :=
  [36, 97, 114, 103, 111, 110, 50, 105, 100, 36, 118, 61]

/-! ## Standard library: `bytes` -/

/-- Go `bytes.Split(s, sep)` for a one-byte separator `sep = [c]` (the only way the
package calls it): the fields between the occurrences of `c`, one more than the number
of occurrences; the empty input gives one empty field. -/
def bytesSplit (s : List Byte) (c : Byte) : List (List Byte) :=
  match s with
  | [] => [[]]
  | b :: rest =>
    if b = c then [] :: bytesSplit rest c
    else
      match bytesSplit rest c with
      | [] => [[b]]
      | p :: ps => (b :: p) :: ps

/-- Go `bytes.Index(s, sep)`: the index of the first occurrence of `sep` in `s`,
or `-1` when there is none. -/
def bytesIndex (s sep : List Byte) : Int :=
  if sep.isPrefixOf s then 0
  else
    match s with
    | [] => -1
    | _ :: rest =>
      let r := bytesIndex rest sep
      if r < 0 then -1 else r + 1

/-- The Go slice expression `s[lo:hi]` on a slice whose capacity equals its length:
`none` is the run-time panic "slice bounds out of range". -/
def goSlice (s : List Byte) (lo hi : Int) : Option (List Byte) :=
  if 0 ≤ lo ∧ lo ≤ hi ∧ hi ≤ (s.length : Int) then
    some ((s.take hi.toNat).drop lo.toNat)
  else none

/-- The Go index expression `parts[i]`: `none` is the panic "index out of range". -/
def goIndex (parts : List (List Byte)) (i : Nat) : Option (List Byte) :=
  parts.get? i

/-! ## Standard library: `strconv` -/

/-- The decimal digits of `n`, most significant first, pushed in front of `acc`;
`fuel` bounds the number of digits produced. -/
def formatDigits : Nat → Nat → List Byte → List Byte
  | 0, _, acc => acc
  | fuel + 1, n, acc =>
    if n < 10 then Byte.ofNat (48 + n) :: acc
    else formatDigits fuel (n / 10) (Byte.ofNat (48 + n % 10) :: acc)

/-- Go `strconv.AppendUint(dst, n, 10)` (and `strconv.AppendInt` on a non-negative
value): `dst` followed by the minimal decimal rendering of `n`. -/
def appendUint (dst : List Byte) (n : Nat) : List Byte :=
  dst ++ formatDigits (n + 1) n []

/-! ## `parseUint32FromBytes` (`src/argon.go`) -/

/-- The loop of `parseUint32FromBytes`, with the `uint32` accumulator `result`. -/
def parseUint32Loop : List Byte → Nat → Except GoError Nat
  | [], result => .ok result
  | digit :: rest, result =>
    if digit.val < 48 ∨ digit.val > 57 then .error ErrInvalidDigit
    else if result > maxUint32 / 10 then .error ErrIntegerOverflow
    else
      let result10 := (result * 10) % 2 ^ 32
      let digitVal := (digit.val - 48) % 2 ^ 32
      if result10 > maxUint32 - digitVal then .error ErrIntegerOverflow
      else parseUint32Loop rest ((result10 + digitVal) % 2 ^ 32)

/-- Go `parseUint32FromBytes`: a byte slice of decimal digits to a `uint32`. -/
def parseUint32FromBytes (b : List Byte) : Except GoError Nat :=
  if b.length = 0 then .error ErrEmptyByteSlice
  else parseUint32Loop b 0

/-! ## Standard library: `encoding/base64`, the encoding `RawStdEncoding` -/

/-- The alphabet `encodeStd` of `encoding/base64`:
`"ABCDEFGHIJKLMNOPQRSTUVWXYZabcdefghijklmnopqrstuvwxyz0123456789+/"`. -/
def encodeStd : List Byte :=
  [65, 66, 67, 68, 69, 70, 71, 72, 73, 74, 75, 76, 77, 78, 79, 80, 81, 82, 83, 84, 85, 86,
   87, 88, 89, 90, 97, 98, 99, 100, 101, 102, 103, 104, 105, 106, 107, 108, 109, 110, 111,
   112, 113, 114, 115, 116, 117, 118, 119, 120, 121, 122, 48, 49, 50, 51, 52, 53, 54, 55,
   56, 57, 43, 47]

/-- The lookup `enc.encode[i]`, used with `i < 64` only. -/
def encodeChar (i : Nat) : Byte := encodeStd.getD i 0

/-- The table `enc.decodeMap`: the position of a byte in the alphabet, and `0xff` for a
byte outside it (`NewEncoding` fills the table with `0xff` and then stores `i` at
`encoder[i]`). -/
def decodeMap (c : Byte) : Nat :=
  let i := encodeStd.indexOf c
  if i < 64 then i else 255

/-- Go `RawStdEncoding.EncodeToString(src)` / `Encoding.Encode` without padding: three
bytes give four characters, a final block of two bytes gives three characters and a
final block of one byte gives two. -/
def base64Encode : List Byte → List Byte
  | [] => []
  | [a] =>
    let val := a.val <<< 16
    [encodeChar (val >>> 18 &&& 0x3F), encodeChar (val >>> 12 &&& 0x3F)]
  | [a, b] =>
    let val := a.val <<< 16 ||| b.val <<< 8
    [encodeChar (val >>> 18 &&& 0x3F), encodeChar (val >>> 12 &&& 0x3F),
     encodeChar (val >>> 6 &&& 0x3F)]
  | a :: b :: c :: rest =>
    let val := a.val <<< 16 ||| b.val <<< 8 ||| c.val
    encodeChar (val >>> 18 &&& 0x3F) :: encodeChar (val >>> 12 &&& 0x3F) ::
      encodeChar (val >>> 6 &&& 0x3F) :: encodeChar (val &&& 0x3F) ::
      base64Encode rest

/-- The end of `decodeQuantum`: the bytes that a quantum of `dbuf.length` six-bit values
(two, three or four of them, missing ones read as zero) decodes to, `dlen - 1` bytes.
`RawStdEncoding` is not strict: the unused low bits are not checked. -/
def quantumBytes (dbuf : List Nat) : List Byte :=
  let val := dbuf.getD 0 0 <<< 18 ||| dbuf.getD 1 0 <<< 12 ||| dbuf.getD 2 0 <<< 6 |||
    dbuf.getD 3 0
  [Byte.ofNat (val >>> 16), Byte.ofNat (val >>> 8), Byte.ofNat val].take (dbuf.length - 1)

/-- Go `RawStdEncoding.Decode`, as one pass over the input that fuses the loop of
`Decode` with the loop of `decodeQuantum` (the 8-byte and 4-byte fast paths of `Decode`
compute the same bytes as `decodeQuantum` and fall back to it on any byte outside the
alphabet). `si` is the offset of the next input byte and `dbuf` the six-bit values of
the quantum read so far (fewer than four). `'\n'` and `'\r'` are skipped; every other
byte outside the alphabet, `'='` included since there is no padding character, is a
`CorruptInputError`; so is an input that ends one character into a quantum. The result
is the decoded bytes `dst[:n]`, or the offset carried by the `CorruptInputError`. -/
def base64DecodeLoop : List Byte → Nat → List Nat → Except Nat (List Byte)
  | [], si, dbuf =>
    match dbuf with
    | [] => .ok []
    | [_] => .error (si - 1)
    | _ => .ok (quantumBytes dbuf)
  | c :: rest, si, dbuf =>
    let out := decodeMap c
    if out ≠ 255 then
      if dbuf.length = 3 then
        (base64DecodeLoop rest (si + 1) []).map (fun tl => quantumBytes (dbuf ++ [out]) ++ tl)
      else base64DecodeLoop rest (si + 1) (dbuf ++ [out])
    else if c = 10 ∨ c = 13 then base64DecodeLoop rest (si + 1) dbuf
    else .error si

/-- Go `RawStdEncoding.Decode(dst, src)` seen through its results: `.ok out` stands for
`(n, nil)` with `out = dst[:n]`, and `.error off` for `CorruptInputError(off)`. -/
def base64Decode (src : List Byte) : Except Nat (List Byte) :=
  base64DecodeLoop src 0 []

/-- Go `RawStdEncoding.DecodedLen(n)`: the largest number of bytes that `n` characters
of unpadded base64 decode to. -/
def base64DecodedLen (n : Nat) : Nat := n / 4 * 3 + n % 4 * 6 / 8

/-! ## Standard library: `crypto/subtle` -/

/-- Go `subtle.ConstantTimeByteEq(x, y)`: `int((uint32(x ^ y) - 1) >> 31)`. -/
def constantTimeByteEq (x y : Nat) : Nat :=
  (((x ^^^ y) % 2 ^ 32 + 2 ^ 32 - 1) % 2 ^ 32) >>> 31

/-- The loop of `subtle.ConstantTimeCompare`: `v |= x[i] ^ y[i]` over both slices. -/
def constantTimeAcc : List Byte → List Byte → Nat → Nat
  | a :: x, b :: y, v => constantTimeAcc x y (v ||| (a.val ^^^ b.val))
  | _, _, v => v

/-- Go `subtle.ConstantTimeCompare(x, y)`: `1` when the slices have equal contents and
`0` otherwise; slices of different lengths give `0` at once. -/
def constantTimeCompare (x y : List Byte) : Nat :=
  if x.length ≠ y.length then 0
  else constantTimeByteEq (constantTimeAcc x y 0) 0

/-! ## The codec (`src/argon.go`) -/

/-- Go `encodeArgonHashAsBytes`: the PHC text
`$argon2id$v=19$m=<memory>,t=<iterations>,p=<parallelism>$<salt>$<hash>`. -/
def encodeArgonHashAsBytes (hash salt : List Byte) (memory iterations parallelism : Nat) :
    List Byte :=
  let b64Salt := base64Encode salt
  let b64Hash := base64Encode hash
  let encodedHash : List Byte := []
  let encodedHash := encodedHash ++ argonAlgoAndVersionPrefixBytes
  let encodedHash := appendUint encodedHash argon2Version
  let encodedHash := encodedHash ++ dollarMEqualsBytes
  let encodedHash := appendUint encodedHash memory
  let encodedHash := encodedHash ++ commaTEqualsBytes
  let encodedHash := appendUint encodedHash iterations
  let encodedHash := encodedHash ++ commaPEqualsBytes
  let encodedHash := appendUint encodedHash parallelism
  let encodedHash := encodedHash ++ [dollarSignByte]
  let encodedHash := encodedHash ++ b64Salt
  let encodedHash := encodedHash ++ [dollarSignByte]
  let encodedHash := encodedHash ++ b64Hash
  encodedHash

/-- The six results of `decodeArgonHashBytes`:
`(memory, iterations, parallelism, salt, hash, err)`. -/
structure DecodeResult where
  memory : Nat
  iterations : Nat
  parallelism : Nat
  salt : Option (List Byte)
  hash : Option (List Byte)
  err : Option GoError
  deriving DecidableEq, Repr

/-- The statement `return 0, 0, 0, nil, nil, e`. -/
def decodeFail (e : GoError) : DecodeResult := ⟨0, 0, 0, none, none, some e⟩

/-- The part of `decodeArgonHashBytes` that reads the parameter field `parts[3]`, from
`paramBytes := parts[3]` to the two denial-of-service limits: the memory, iterations and
parallelism it returns, or the error it returns with; the outer `none` is a slice
expression out of range. -/
def decodeParams (paramBytes : List Byte) : Option (Except GoError (Nat × Nat × Nat)) :=
  let mPos := bytesIndex paramBytes mEqualsBytes
  let tPos := bytesIndex paramBytes commaTEqualsBytes
  let pPos := bytesIndex paramBytes commaPEqualsBytes
  if mPos ≠ 0 ∨ tPos < 3 ∨ pPos < tPos + 3 then some (.error ErrInvalidParams)
  else
    match goSlice paramBytes 2 tPos with
    | none => none
    | some memoryBytes =>
      match parseUint32FromBytes memoryBytes with
      | .error e => some (.error e)
      | .ok memory =>
        match goSlice paramBytes (tPos + 3) pPos with
        | none => none
        | some iterBytes =>
          match parseUint32FromBytes iterBytes with
          | .error e => some (.error e)
          | .ok iterations =>
            match goSlice paramBytes (pPos + 3) paramBytes.length with
            | none => none
            | some parallelismBytes =>
              match parseUint32FromBytes parallelismBytes with
              | .error e => some (.error e)
              | .ok parallelismUint32 =>
                if parallelismUint32 > 255 then some (.error ErrInvalidParams)
                else
                  let parallelism := parallelismUint32 % 2 ^ 8
                  if memory > ArgonMaxMemory then some (.error ErrInvalidParams)
                  else if iterations > ArgonMaxIterations then some (.error ErrInvalidParams)
                  else some (.ok (memory, iterations, parallelism))

/-- The part of `decodeArgonHashBytes` that decodes one base64 field (written twice in
the source, for `parts[4]` and for `parts[5]`): a buffer of `DecodedLen` bytes is
allocated, `Decode` fills its first `n` bytes, and the buffer is cut to `buf[:n]`; the
outer `none` is that slice expression out of range. -/
def decodeBase64Field (field : List Byte) : Option (Except GoError (List Byte)) :=
  let bufLen := base64DecodedLen field.length
  match base64Decode field with
  | .error off => some (.error (Base64DecodeError off))
  | .ok out => if out.length ≤ bufLen then some (.ok out) else none

/-- Go `decodeArgonHashBytes`. The outer `none` is a run-time panic. -/
def decodeArgonHashBytes (encodedHash : List Byte) : Option DecodeResult :=
  let parts := bytesSplit encodedHash dollarSignByte
  if parts.length ≠ ArgonEncodedPartCount then some (decodeFail ErrInvalidHashFormat)
  else
    match goIndex parts 1 with
    | none => none
    | some algo =>
      if algo ≠ argon2idBytes then some (decodeFail ErrUnsupportedAlgorithm)
      else
        match goIndex parts 2 with
        | none => none
        | some versionBytes =>
          if versionBytes.length < 3 then some (decodeFail ErrInvalidVersion)
          else
            match goSlice versionBytes 0 2 with
            | none => none
            | some versionLabel =>
              if versionLabel ≠ vEqualsBytes then some (decodeFail ErrInvalidVersion)
              else
                match goSlice versionBytes 2 versionBytes.length with
                | none => none
                | some versionDigits =>
                  match parseUint32FromBytes versionDigits with
                  | .error e => some (decodeFail e)
                  | .ok version =>
                    if version ≠ argon2Version then some (decodeFail ErrInvalidVersion)
                    else
                      match goIndex parts 3 with
                      | none => none
                      | some paramBytes =>
                        match decodeParams paramBytes with
                        | none => none
                        | some (.error e) => some (decodeFail e)
                        | some (.ok (memory, iterations, parallelism)) =>
                          match goIndex parts 4 with
                          | none => none
                          | some saltBytes =>
                            match decodeBase64Field saltBytes with
                            | none => none
                            | some (.error e) => some (decodeFail e)
                            | some (.ok salt) =>
                              match goIndex parts 5 with
                              | none => none
                              | some hashBytes =>
                                match decodeBase64Field hashBytes with
                                | none => none
                                | some (.error e) => some (decodeFail e)
                                | some (.ok hash) =>
                                  some ⟨memory, iterations, parallelism, some salt,
                                    some hash, none⟩

/-! ## Hashing and verification (`src/argon.go`, `src/argon2password.go`) -/

/-- The key that the primitive `argon2.IDKey(password, salt, time, memory, threads,
keyLen)` derives when it returns, an external collaborator taken as a parameter; the
arguments on which the call panics instead are those of `argon2IDKey`. -/
abbrev IDKey := List Byte → List Byte → Nat → Nat → Nat → Nat → List Byte

/-- The random source behind `io.ReadFull(cryptrand.Reader, b)`: for a buffer of `n`
bytes it either fills the buffer (`some` of its contents) or fails (`none`). -/
abbrev RandReader := Nat → Option (List Byte)

/-- Go `getArgonParallelism`, with `n = runtime.NumCPU()`. -/
def getArgonParallelism (n : Int) : Nat :=
  if n > (ArgonMaxParallelism : Int) ∧ ArgonMaxParallelism ≠ 0 then ArgonMaxParallelism
  else if ArgonMaxParallelism = 0 then 4
  else (n % 256).toNat

/-- The call `argon2.IDKey(password, salt, time, memory, threads, keyLen)` as the library
`golang.org/x/crypto/argon2` runs it: the call panics (`none`) when `time < 1`, when
`threads < 1` and when `keyLen` is 0, and returns the derived key otherwise. -/
def argon2IDKey (idKey : IDKey) (password salt : List Byte)
    (time memory threads keyLen : Nat) : Option (List Byte) :=
  if time < 1 ∨ threads < 1 ∨ keyLen = 0 then none
  else some (idKey password salt time memory threads keyLen)

/-- Go `generateArgonHash`: `nil` (`some none`) for an empty password or salt, and the
derived key otherwise. The outer `none` is a panic of `argon2.IDKey`. -/
def generateArgonHash (idKey : IDKey) (password salt : List Byte)
    (iterations memory parallelism keyLength : Nat) : Option (Option (List Byte)) :=
  if salt.length = 0 ∨ password.length = 0 then some none
  else
    match argon2IDKey idKey password salt iterations memory parallelism keyLength with
    | none => none
    | some key => some (some key)

/-- Go `generateRandomBytes`. -/
def generateRandomBytes (reader : RandReader) (length : Nat) :
    Option (List Byte) × Option GoError :=
  match reader length with
  | none => (none, some RandomBytesError)
  | some b => (some b, none)

/-- Go `generateSalt`. -/
def generateSalt (reader : RandReader) (length : Nat) : Option (List Byte) × Option GoError :=
  generateRandomBytes reader length

/-- The contents of a slice that may be `nil`: `nil` has no elements. -/
def sliceBytes (s : Option (List Byte)) : List Byte := s.getD []

/-- Go `compareArgonPasswordAndHash`. The outer `none` is a run-time panic: of an index or
slice expression of the decoder, or of `argon2.IDKey` on the decoded parameters. -/
def compareArgonPasswordAndHash (idKey : IDKey) (password encodedHash : List Byte) :
    Option (Bool × Option GoError) :=
  if password.length = 0 then some (false, some ErrEmptyPassword)
  else
    match decodeArgonHashBytes encodedHash with
    | none => none
    | some r =>
      match r.err with
      | some e => some (false, some e)
      | none =>
        let hashLen := (sliceBytes r.hash).length
        if hashLen > maxUint32 then some (false, some ErrHashTooLarge)
        else
          match generateArgonHash idKey password (sliceBytes r.salt) r.iterations r.memory
              r.parallelism (hashLen % 2 ^ 32) with
          | none => none
          | some none => some (false, some ErrInvalidHash)
          | some (some computedHash) =>
            some (decide (constantTimeCompare (sliceBytes r.hash) computedHash = 1), none)

/-- Go `ComparePWBytes`; a `nil` hash is `none`. -/
def ComparePWBytes (idKey : IDKey) (password : List Byte) (hash : Option (List Byte)) :
    Option (Bool × Option GoError) :=
  match hash with
  | none => some (false, some ErrNilHash)
  | some h => compareArgonPasswordAndHash idKey password h

/-- Go `generateHashFromInput`; `numCPU` is the value of `runtime.NumCPU()` from which
the package variable `argonDefaultParallelism` was initialised. The outer `none` is a
panic of `argon2.IDKey`. -/
def generateHashFromInput (idKey : IDKey) (reader : RandReader) (numCPU : Int)
    (password : List Byte) : Option (Option (List Byte) × Option GoError) :=
  let argonDefaultParallelism := getArgonParallelism numCPU
  match generateSalt reader ArgonSaltLength with
  | (_, some _) => some (none, some ErrInvalidHash)
  | (salt, none) =>
    match generateArgonHash idKey password (sliceBytes salt) ArgonIterations ArgonMemory
        argonDefaultParallelism ArgonKeyLength with
    | none => none
    | some none => some (none, some ErrInvalidHash)
    | some (some hash) =>
      let encodedHash := encodeArgonHashAsBytes hash (sliceBytes salt) ArgonMemory
        ArgonIterations argonDefaultParallelism
      if encodedHash.length = 0 then some (none, some ErrInvalidHash)
      else some (some encodedHash, none)

/-- Go `HashPWBytes`. The outer `none` is a panic of `argon2.IDKey`. -/
def HashPWBytes (idKey : IDKey) (reader : RandReader) (numCPU : Int) (password : List Byte) :
    Option (Option (List Byte) × Option GoError) :=
  if password.length = 0 then some (none, some ErrEmptyPassword)
  else
    match generateHashFromInput idKey reader numCPU password with
    | none => none
    | some (_, some err) => some (none, some err)
    | some (hash, none) => some (hash, none)

/-! ## Specification-side notions -/

/-- An ASCII decimal digit, `'0'` to `'9'`. -/
def isDigit (b : Byte) : Prop := 48 ≤ b.val ∧ b.val ≤ 57

instance (b : Byte) : Decidable (isDigit b) := by unfold isDigit; infer_instance

/-- The number that a run of decimal digits denotes (no bound on its size). -/
def digitsValue (b : List Byte) : Nat :=
  b.foldl (fun acc d => acc * 10 + (d.val - 48)) 0

/-- The bytes of an ASCII string literal. -/
def ascii (s : String) : List Byte := s.toList.map (fun c => Byte.ofNat c.toNat)

/-- A sample derivation function: `keyLen` bytes, each the length of the password. -/
def sampleIDKey : IDKey := fun password _ _ _ _ keyLen =>
  List.replicate keyLen (Byte.ofNat password.length)

/-- A sample random source: `n` bytes, all equal to 7. -/
def sampleReader : RandReader := fun n => some (List.replicate n 7)

/-! ## The format-string encoder (`src/argon.go`, `src/constants.go`) -/

/-- An operand of `fmt.Sprintf`: an integer for the verb `%d` or a string for `%s`. -/
inductive FmtArg where
  | int (n : Nat)
  | str (s : List Byte)

/-- Go `fmt.Sprintf(format, args...)` for formats made of literal text and the verbs `%d`
(on a non-negative integer: its minimal decimal rendering) and `%s` (on a string: its
bytes), each verb meeting an operand of its kind, which is how the package uses it. -/
def sprintf : List Byte → List FmtArg → List Byte
  | [], _ => []
  | 37 :: 100 :: rest, FmtArg.int n :: args => appendUint [] n ++ sprintf rest args
  | 37 :: 115 :: rest, FmtArg.str s :: args => s ++ sprintf rest args
  | c :: rest, args => c :: sprintf rest args

/-- The constant `ArgonHashFormat`. -/
def ArgonHashFormat : List Byte := ascii "$argon2id$v=%d$m=%d,t=%d,p=%d$%s$%s"

/-- Go `encodeArgonHash`, the encoder built on the format string. -/
def encodeArgonHash (hash salt : List Byte) (memory iterations parallelism : Nat) :
    List Byte :=
  let b64Salt := base64Encode salt
  let b64Hash := base64Encode hash
  sprintf ArgonHashFormat
    [FmtArg.int argon2Version, FmtArg.int memory, FmtArg.int iterations,
      FmtArg.int parallelism, FmtArg.str b64Salt, FmtArg.str b64Hash]

/-- A digit run without a leading zero: the run `0` itself, or a run that does not start
with `0`. -/
def noLeadingZero (D : List Byte) : Prop := D = [48] ∨ D.head? ≠ some 48

instance (D : List Byte) : Decidable (noLeadingZero D) := by
  unfold noLeadingZero; infer_instance

/-- The minimal decimal notation of `n`, taken from the way numbers are printed: the
characters of `Nat.toDigits 10 n` as bytes. -/
def specDecimal (n : Nat) : List Byte := (Nat.toDigits 10 n).map (fun c => Byte.ofNat c.toNat)

/-- The text `$argon2id$v=19$m=<memory>,t=<iterations>,p=<parallelism>$<b64(salt)>$<b64(digest)>`
of the specification, with the three numbers in minimal decimal notation and the salt
and digest in unpadded standard-alphabet base64. -/
def specEncoding (digest salt : List Byte) (memory iterations parallelism : Nat) : List Byte :=
  ascii "$argon2id$v=19$m=" ++ specDecimal memory ++ ascii ",t=" ++ specDecimal iterations ++
    ascii ",p=" ++ specDecimal parallelism ++ ascii "$" ++ base64Encode salt ++ ascii "$" ++
    base64Encode digest

/-! ## Custom configuration (`src/custom.go`) -/

/-- Go `Config`: the fields are `uint32`, except `Parallelism`, a `uint8`. -/
structure Config where
  Memory : Nat
  Iterations : Nat
  SaltLength : Nat
  KeyLength : Nat
  Parallelism : Nat
  MaxMemory : Nat
  MaxIterations : Nat
  deriving DecidableEq, Repr

/-- The values that the Go types of the fields of a `Config` allow. -/
def Config.wellTyped (c : Config) : Prop :=
  c.Memory ≤ maxUint32 ∧ c.Iterations ≤ maxUint32 ∧ c.SaltLength ≤ maxUint32 ∧
    c.KeyLength ≤ maxUint32 ∧ c.Parallelism ≤ 255 ∧ c.MaxMemory ≤ maxUint32 ∧
    c.MaxIterations ≤ maxUint32

instance (c : Config) : Decidable c.wellTyped := by
  unfold Config.wellTyped; infer_instance

/-- The four `*ConfigError` values of `src/custom.go`. -/
inductive ConfigError where
  | ErrConfigNil
  | ErrConfigNegativeValue
  | ErrConfigMemoryExceedsMax
  | ErrConfigIterationsExceedsMax
  deriving DecidableEq, Repr

/-- A value of the Go interface `error` as the exported functions return it: one of the
errors of `src/errors.go`, a `*ConfigError`, or the error that `generateRandomPassword`
wraps. -/
inductive ErrorValue where
  | plain (e : GoError)
  | config (e : ConfigError)
  /-- `fmt.Errorf("argon2Password: failed to generate random index: %w", err)` -/
  | RandomIndexError
  deriving DecidableEq, Repr

/-- The constant `uint8MaxValue`. -/
def uint8MaxValue : Int := 255

/-- Go `capParallelism`; `numCPU` is the package variable of that name, set from
`runtime.NumCPU()` at start-up. -/
def capParallelism (numCPU : Int) (input : Nat) : Nat :=
  let u8Cpu : Nat := if numCPU > uint8MaxValue then 255 else (numCPU % 256).toNat
  if input = 0 then ArgonMaxParallelism
  else if input > u8Cpu then u8Cpu
  else input

/-- The end of `validateConfig`, from `// Check salt length` on. -/
def validateConfigLengths (config : Config) : Option Config × Option ConfigError :=
  let config :=
    if config.SaltLength = 0 then { config with SaltLength := ArgonSaltLength } else config
  let config :=
    if config.KeyLength = 0 then { config with KeyLength := ArgonKeyLength } else config
  (some config, none)

/-- The part of `validateConfig` from `// Check max iterations` on. -/
def validateConfigIterations (config : Config) : Option Config × Option ConfigError :=
  let config :=
    if config.MaxIterations = 0 then { config with MaxIterations := ArgonMaxIterations }
    else config
  if config.Iterations = 0 then
    validateConfigLengths { config with Iterations := ArgonIterations }
  else if config.Iterations > config.MaxIterations then
    (some config, some ConfigError.ErrConfigIterationsExceedsMax)
  else validateConfigLengths config

/-- Go `validateConfig`. The pointer argument is `none` for `nil`; the first result is
the `Config` behind the pointer when the function returns (it is changed in place, also
on the paths that return an error), the second the returned `*ConfigError`. -/
def validateConfig (numCPU : Int) (config : Option Config) :
    Option Config × Option ConfigError :=
  match config with
  | none => (none, some ConfigError.ErrConfigNil)
  | some config =>
    let config := { config with Parallelism := capParallelism numCPU config.Parallelism }
    let config :=
      if config.MaxMemory = 0 then { config with MaxMemory := ArgonMaxMemory } else config
    let config :=
      if config.Memory = 0 then { config with Memory := ArgonMaxMemory } else config
    if config.Memory = 0 then
      validateConfigIterations { config with Memory := ArgonMemory }
    else if config.Memory > config.MaxMemory then
      (some config, some ConfigError.ErrConfigMemoryExceedsMax)
    else validateConfigIterations config

/-- The configuration that `validateConfig` leaves behind the pointer when it returns
`nil`: every field read off the code, for use in the statements below. -/
def normalisedConfig (numCPU : Int) (c : Config) : Config :=
  { Memory := if c.Memory = 0 then ArgonMaxMemory else c.Memory
    Iterations := if c.Iterations = 0 then ArgonIterations else c.Iterations
    SaltLength := if c.SaltLength = 0 then ArgonSaltLength else c.SaltLength
    KeyLength := if c.KeyLength = 0 then ArgonKeyLength else c.KeyLength
    Parallelism := capParallelism numCPU c.Parallelism
    MaxMemory := if c.MaxMemory = 0 then ArgonMaxMemory else c.MaxMemory
    MaxIterations := if c.MaxIterations = 0 then ArgonMaxIterations else c.MaxIterations }

/-! ## Hashing with a configuration (`src/argon.go`, `src/argon2password.go`) -/

/-- Go `generateHashFromInputCustom`. The outer `none` is a panic of `argon2.IDKey` on the
fields of the configuration. -/
def generateHashFromInputCustom (idKey : IDKey) (reader : RandReader) (password : List Byte)
    (config : Option Config) : Option (Option (List Byte) × Option ErrorValue) :=
  match config with
  | none => some (none, some (ErrorValue.config ConfigError.ErrConfigNil))
  | some config =>
    match generateSalt reader config.SaltLength with
    | (_, some _) => some (none, some (ErrorValue.plain ErrInvalidHash))
    | (salt, none) =>
      match generateArgonHash idKey password (sliceBytes salt) config.Iterations config.Memory
          config.Parallelism config.KeyLength with
      | none => none
      | some none => some (none, some (ErrorValue.plain ErrInvalidHash))
      | some (some hash) =>
        let encodedHash := encodeArgonHashAsBytes hash (sliceBytes salt) config.Memory
          config.Iterations config.Parallelism
        if encodedHash.length = 0 then some (none, some (ErrorValue.plain ErrInvalidHash))
        else some (some encodedHash, none)

/-- Go `HashWithConfig`; a string is the list of its bytes. The outer `none` is a panic of
`argon2.IDKey`. -/
def HashWithConfig (idKey : IDKey) (reader : RandReader) (password : List Byte)
    (config : Option Config) : Option (List Byte × Option ErrorValue) :=
  if config = none then some ([], some (ErrorValue.config ConfigError.ErrConfigNil))
  else if password = [] then some ([], some (ErrorValue.plain ErrEmptyPassword))
  else
    match generateHashFromInputCustom idKey reader password config with
    | none => none
    | some (_, some err) => some ([], some err)
    | some (hash, none) => some (sliceBytes hash, none)

/-- Go `ComparePW`: the conversion `[]byte(hash)` of a string is never `nil`. -/
def ComparePW (idKey : IDKey) (password hash : List Byte) : Option (Bool × Option GoError) :=
  ComparePWBytes idKey password (some hash)

/-! ## Password generation (`src/generate.go`, `src/argon2password.go`) -/

/-- The random source behind `cryptrand.Int(cryptrand.Reader, max)`: the outcome of the
`i`-th draw with bound `max`, a number or a failure (`none`). -/
abbrev RandInt := Nat → Nat → Option Nat

/-- The loop of `generateRandomPassword`: `remaining` iterations are left, `i` is the loop
counter and `password` the bytes written so far. The outer `none` is a panic: of
`cryptrand.Int` on a bound that is not positive, or of the index expression
`charset[index]`. -/
def generateRandomPasswordLoop (rnd : RandInt) (charset : List Byte) :
    Nat → Nat → List Byte → Option (List Byte × Option ErrorValue)
  | 0, _, password => some (password, none)
  | remaining + 1, i, password =>
    if charset.length = 0 then none
    else
      match rnd i charset.length with
      | none => some ([], some ErrorValue.RandomIndexError)
      | some index =>
        match charset.get? index with
        | none => none
        | some ch => generateRandomPasswordLoop rnd charset remaining (i + 1) (password ++ [ch])

/-- Go `generateRandomPassword`; `make([]byte, length)` panics on a negative length. The
buffer is filled from index 0 upwards, so it is built here by appending. -/
def generateRandomPassword (rnd : RandInt) (length : Int) (charset : List Byte) :
    Option (List Byte × Option ErrorValue) :=
  if length < 0 then none
  else generateRandomPasswordLoop rnd charset length.toNat 0 []

/-- Go `generateWithCharset`. -/
def generateWithCharset (rnd : RandInt) (charset : List Byte) (length : Int) :
    Option (List Byte × Option ErrorValue) :=
  generateRandomPassword rnd length charset

/-- Go `GeneratePasswordWithCharset`. -/
def GeneratePasswordWithCharset (rnd : RandInt) (charset : List Byte) (length : Int) :
    Option (List Byte × Option ErrorValue) :=
  if charset = [] then some ([], some (ErrorValue.plain ErrInvalidCharset))
  else if length < 0 then some ([], some (ErrorValue.plain ErrNegativeLength))
  else if length = 0 then some ([], some (ErrorValue.plain ErrLengthZero))
  else generateWithCharset rnd charset length

/-- A sample source of random indices: the `i`-th draw is `i` reduced below the bound. -/
def sampleRandInt : RandInt := fun i max => some (i % max)

/-! ## Standard library: `unicode/utf8` and `range` over a string -/

/-- The rune `utf8.RuneError`, U+FFFD. -/
def RuneError : Nat := 0xFFFD

/-- The tables `first` and `acceptRanges` of `unicode/utf8` on a lead byte that starts a
sequence of more than one byte: the size of the sequence and the lowest and highest second
byte; `none` for every other byte from 0x80 on. -/
def utf8Lead (p0 : Nat) : Option (Nat × Nat × Nat) :=
  if 0xC2 ≤ p0 ∧ p0 ≤ 0xDF then some (2, 0x80, 0xBF)
  else if p0 = 0xE0 then some (3, 0xA0, 0xBF)
  else if 0xE1 ≤ p0 ∧ p0 ≤ 0xEC then some (3, 0x80, 0xBF)
  else if p0 = 0xED then some (3, 0x80, 0x9F)
  else if 0xEE ≤ p0 ∧ p0 ≤ 0xEF then some (3, 0x80, 0xBF)
  else if p0 = 0xF0 then some (4, 0x90, 0xBF)
  else if 0xF1 ≤ p0 ∧ p0 ≤ 0xF3 then some (4, 0x80, 0xBF)
  else if p0 = 0xF4 then some (4, 0x80, 0x8F)
  else none

/-- A continuation byte outside `0x80..0xBF`. -/
def notContinuation (b : Byte) : Prop := b.val < 0x80 ∨ 0xBF < b.val

instance (b : Byte) : Decidable (notContinuation b) := by
  unfold notContinuation; infer_instance

/-- Go `utf8.DecodeRuneInString`: the first rune of `s` and its width in bytes; a byte
sequence that is not valid UTF-8 gives `(RuneError, 1)` and the empty string
`(RuneError, 0)`. -/
def decodeRune : List Byte → Nat × Nat
  | [] => (RuneError, 0)
  | p0 :: rest =>
    if p0.val < 0x80 then (p0.val, 1)
    else
      match utf8Lead p0.val with
      | none => (RuneError, 1)
      | some (sz, lo, hi) =>
        if rest.length + 1 < sz then (RuneError, 1)
        else
          match rest with
          | [] => (RuneError, 1)
          | b1 :: rest1 =>
            if b1.val < lo ∨ hi < b1.val then (RuneError, 1)
            else if sz ≤ 2 then (((p0.val &&& 0x1F) <<< 6) ||| (b1.val &&& 0x3F), 2)
            else
              match rest1 with
              | [] => (RuneError, 1)
              | b2 :: rest2 =>
                if notContinuation b2 then (RuneError, 1)
                else if sz ≤ 3 then
                  (((p0.val &&& 0x0F) <<< 12) ||| ((b1.val &&& 0x3F) <<< 6) |||
                    (b2.val &&& 0x3F), 3)
                else
                  match rest2 with
                  | [] => (RuneError, 1)
                  | b3 :: _ =>
                    if notContinuation b3 then (RuneError, 1)
                    else
                      (((p0.val &&& 0x07) <<< 18) ||| ((b1.val &&& 0x3F) <<< 12) |||
                        ((b2.val &&& 0x3F) <<< 6) ||| (b3.val &&& 0x3F), 4)

/-- The runes that `for _, c := range s` yields, one per iteration; `fuel` bounds the
number of iterations, and the length of `s` is enough. -/
def rangeRunes : Nat → List Byte → List Nat
  | 0, _ => []
  | fuel + 1, s =>
    match s with
    | [] => []
    | _ :: _ => (decodeRune s).1 :: rangeRunes fuel (s.drop (decodeRune s).2)

/-- The runes of a Go string, in the order in which `range` yields them. -/
def runes (s : List Byte) : List Nat := rangeRunes s.length s

/-- The helper `containsRune(s, r)` of `generate_test.go`. -/
def containsRune (s : List Byte) (r : Nat) : Bool := (runes s).contains r

/-! ## Password validation (`src/validate_password.go`) -/

def lowercaseLetters : List Byte := ascii "abcdefghijklmnopqrstuvwxyz"
def uppercaseLetters : List Byte := ascii "ABCDEFGHIJKLMNOPQRSTUVWXYZ"
def numbers : List Byte := ascii "0123456789"
def passwordMinLength : Nat := 8
def passwordMaxLength : Nat := 129

/-- Go `strings.ContainsAny(s, chars)` for a `chars` of ASCII characters: some byte of `s`
is one of `chars`. An ASCII byte of a Go string is always a rune of its own, whatever
surrounds it, so the search by runes finds exactly the bytes. -/
def stringsContainsAny (s chars : List Byte) : Bool := s.any (fun b => chars.contains b)

/-- The class `[[:punct:]]` of Go regular expressions: the ASCII characters from `!` to
`/`, from `:` to `@`, from `[` to the backquote and from the opening brace to `~`. -/
def isPunct (b : Byte) : Bool :=
  (33 ≤ b.val && b.val ≤ 47) || (58 ≤ b.val && b.val ≤ 64) || (91 ≤ b.val && b.val ≤ 96) ||
    (123 ≤ b.val && b.val ≤ 126)

/-- The call `specialCharRegex.MatchString(s)` for the expression
`(?:[[:punct:]]|_)`, which matches one ASCII character: some byte of `s` is in the class
or is the underscore. -/
def specialCharRegexMatchString (s : List Byte) : Bool := s.any (fun b => isPunct b || b.val == 95)

/-- Go `IsValid`. -/
def IsValid (password : List Byte) : Bool :=
  if password.length < passwordMinLength ∨ password.length > passwordMaxLength then false
  else
    let hasLowercase := stringsContainsAny password lowercaseLetters
    let hasUppercase := stringsContainsAny password uppercaseLetters
    let hasNumber := stringsContainsAny password numbers
    let hasSpecialChar := specialCharRegexMatchString password
    hasLowercase && hasUppercase && hasNumber && hasSpecialChar

/-! ## Error values and the methods of `ConfigError` (`src/custom.go`) -/

/-- The struct `ConfigError`, a value with the message `m`. -/
structure ConfigErrorValue where
  m : List Byte
  deriving DecidableEq, Repr

/-- The value that each of the four `*ConfigError` variables points to, as `newConfigError`
builds it. -/
def ConfigError.deref : ConfigError → ConfigErrorValue
  | ConfigError.ErrConfigNil => ⟨ascii "config is nil"⟩
  | ConfigError.ErrConfigNegativeValue => ⟨ascii "value is negative"⟩
  | ConfigError.ErrConfigMemoryExceedsMax =>
    ⟨ascii "memory exceeds max memory defined in the config"⟩
  | ConfigError.ErrConfigIterationsExceedsMax =>
    ⟨ascii "iterations exceeds max iterations defined in the config"⟩

/-- A value of the Go interface `error` other than `nil`, up to what `==` and the method
set can tell apart. -/
inductive ErrorObject where
  /-- dynamic type `*ConfigError`: one of the four variables of `custom.go` -/
  | configPointer (p : ConfigError)
  /-- dynamic type `ConfigError`: a struct value, which is what a method with the receiver
  `(e ConfigError)` holds and passes on -/
  | configStruct (e : ConfigErrorValue)
  /-- any other error, such as the values of `errors.go`: `id` is its identity and
  `comparable` tells whether its dynamic type is comparable; it has no method `Is` or
  `Unwrap` of this package -/
  | other (id : Nat) (comparable : Bool)
  deriving DecidableEq, Repr

/-- What `reflectlite.TypeOf(target).Comparable()` gives: pointers and the struct
`ConfigError` are comparable. -/
def ErrorObject.comparable : ErrorObject → Bool
  | ErrorObject.configPointer _ => true
  | ErrorObject.configStruct _ => true
  | ErrorObject.other _ c => c

/-- The receiver on which the methods `Is` and `Unwrap` of an error run, when it has them:
both `ConfigError` and `*ConfigError` have the methods declared on `ConfigError`, and a
pointer is dereferenced for the call. -/
def ErrorObject.receiver : ErrorObject → Option ConfigErrorValue
  | ErrorObject.configPointer p => some p.deref
  | ErrorObject.configStruct e => some e
  | ErrorObject.other _ _ => none

/-- Go `errors.Unwrap(err)`: calls the method `Unwrap` of `err` when there is one, and
returns `nil` otherwise. `unwrapMethod` is the method of `ConfigError`; its result `none`
stands for a call that has not returned. -/
def errorsUnwrap (unwrapMethod : ConfigErrorValue → Option (Option ErrorObject))
    (err : Option ErrorObject) : Option (Option ErrorObject) :=
  match err with
  | none => some none
  | some x =>
    match x.receiver with
    | none => some none
    | some e => unwrapMethod e

/-- The loop of `errors.is`: compare, ask the method `Is`, unwrap, repeat. `fuel` bounds
the number of iterations; `none` stands for a call that has not returned. -/
def errorsIsLoop (isMethod : ConfigErrorValue → Option ErrorObject → Option Bool)
    (unwrapMethod : ConfigErrorValue → Option (Option ErrorObject))
    (target : ErrorObject) (targetComparable : Bool) : Nat → ErrorObject → Option Bool
  | 0, _ => none
  | fuel + 1, err =>
    if targetComparable = true ∧ err = target then some true
    else
      match err.receiver with
      | none => some false
      | some e =>
        match isMethod e (some target) with
        | none => none
        | some true => some true
        | some false =>
          match unwrapMethod e with
          | none => none
          | some none => some false
          | some (some next) =>
            errorsIsLoop isMethod unwrapMethod target targetComparable fuel next

/-- Go `errors.Is(err, target)`. -/
def errorsIs (isMethod : ConfigErrorValue → Option ErrorObject → Option Bool)
    (unwrapMethod : ConfigErrorValue → Option (Option ErrorObject)) (fuel : Nat)
    (err target : Option ErrorObject) : Option Bool :=
  match err, target with
  | some x, some t => errorsIsLoop isMethod unwrapMethod t t.comparable fuel x
  | _, _ => some (decide (err = target))

/-- Go `ConfigError.Unwrap`: `return errors.Unwrap(e)`. `fuel` bounds the depth of the
calls, and `none` says that the call has not returned within it. -/
def ConfigError.Unwrap : Nat → ConfigErrorValue → Option (Option ErrorObject)
  | 0, _ => none
  | fuel + 1, e => errorsUnwrap (ConfigError.Unwrap fuel) (some (ErrorObject.configStruct e))

/-- Go `ConfigError.Is`: `return errors.Is(e, target)`. `fuel` bounds the depth of the
calls, and `none` says that the call has not returned within it. -/
def ConfigError.Is : Nat → ConfigErrorValue → Option ErrorObject → Option Bool
  | 0, _, _ => none
  | fuel + 1, e, target =>
    errorsIs (ConfigError.Is fuel) (ConfigError.Unwrap fuel) fuel
      (some (ErrorObject.configStruct e)) target

/-- The call `errors.Is(err, target)` of a client of the package, with the methods of
`ConfigError` behind it. -/
def errorsIsCall (fuel : Nat) (err target : Option ErrorObject) : Option Bool :=
  errorsIs (ConfigError.Is fuel) (ConfigError.Unwrap fuel) fuel err target

/-- Go `IsConfigError`. -/
def IsConfigError (_err : Option ErrorObject) : Bool := false

/-! ## Specification-side notions for password validation -/

/-- An ASCII lowercase letter. -/
def isLowercase (b : Byte) : Prop := 97 ≤ b.val ∧ b.val ≤ 122

instance (b : Byte) : Decidable (isLowercase b) := by unfold isLowercase; infer_instance

/-- An ASCII uppercase letter. -/
def isUppercase (b : Byte) : Prop := 65 ≤ b.val ∧ b.val ≤ 90

instance (b : Byte) : Decidable (isUppercase b) := by unfold isUppercase; infer_instance

/-- A special character: an ASCII punctuation character, the underscore among them. -/
def isSpecial (b : Byte) : Prop :=
  (33 ≤ b.val ∧ b.val ≤ 47) ∨ (58 ≤ b.val ∧ b.val ≤ 64) ∨ (91 ≤ b.val ∧ b.val ≤ 96) ∨
    (123 ≤ b.val ∧ b.val ≤ 126)

instance (b : Byte) : Decidable (isSpecial b) := by unfold isSpecial; infer_instance

/-- The requirements that the comment on `IsValid` documents: "Length over 8, at least 1
number, 1 uppercase, 1 lowercase, 1 special character". -/
def documentedRequirements (password : List Byte) : Prop :=
  8 < password.length ∧ (∃ b ∈ password, isDigit b) ∧ (∃ b ∈ password, isUppercase b) ∧
    (∃ b ∈ password, isLowercase b) ∧ (∃ b ∈ password, isSpecial b)

instance (password : List Byte) : Decidable (documentedRequirements password) := by
  unfold documentedRequirements; infer_instance

/-! # Lemmas -/

/-! ## The decimal parser -/

/-- The value of a digit run read after an accumulator `acc`. -/
theorem foldl_digits_ge (b : List Byte) (acc : Nat) :
    acc ≤ b.foldl (fun a d => a * 10 + (d.val - 48)) acc := by
  induction b generalizing acc with
  | nil => simp
  | cons d rest ih =>
    simp only [List.foldl_cons]
    exact le_trans (by omega) (ih _)

theorem parseUint32Loop_digits (b : List Byte) (acc : Nat) (hd : ∀ d ∈ b, isDigit d)
    (hacc : acc ≤ maxUint32) :
    parseUint32Loop b acc =
      if b.foldl (fun a d => a * 10 + (d.val - 48)) acc ≤ maxUint32
      then .ok (b.foldl (fun a d => a * 10 + (d.val - 48)) acc)
      else .error ErrIntegerOverflow := by
  induction b generalizing acc with
  | nil => simp [parseUint32Loop, hacc]
  | cons d rest ih =>
    have hdd : isDigit d := hd d (List.mem_cons_self _ _)
    have hrest : ∀ x ∈ rest, isDigit x := fun x hx => hd x (List.mem_cons_of_mem _ hx)
    unfold isDigit at hdd
    have hge := foldl_digits_ge rest (acc * 10 + (d.val - 48))
    simp only [maxUint32] at hacc ⊢
    simp only [parseUint32Loop, List.foldl_cons, maxUint32]
    rw [if_neg (by omega)]
    by_cases h1 : acc > 4294967295 / 10
    · rw [if_pos h1, if_neg (by omega)]
    · rw [if_neg h1]
      have e1 : acc * 10 % 2 ^ 32 = acc * 10 := Nat.mod_eq_of_lt (by omega)
      have e2 : (d.val - 48) % 2 ^ 32 = d.val - 48 := Nat.mod_eq_of_lt (by omega)
      simp only [e1, e2]
      by_cases h2 : acc * 10 > 4294967295 - (d.val - 48)
      · rw [if_pos h2, if_neg (by omega)]
      · rw [if_neg h2]
        have e3 : (acc * 10 + (d.val - 48)) % 2 ^ 32 = acc * 10 + (d.val - 48) :=
          Nat.mod_eq_of_lt (by omega)
        rw [e3]
        have := ih (acc * 10 + (d.val - 48)) hrest (by simp only [maxUint32]; omega)
        simpa only [maxUint32] using this

theorem parseUint32Loop_ok_digits (b : List Byte) (acc v : Nat)
    (h : parseUint32Loop b acc = .ok v) : ∀ d ∈ b, isDigit d := by
  induction b generalizing acc with
  | nil => simp
  | cons d rest ih =>
    simp only [parseUint32Loop] at h
    split at h
    · cases h
    · rename_i hdig
      split at h
      · cases h
      · split at h
        · cases h
        · intro x hx
          rcases List.mem_cons.1 hx with rfl | hx
          · unfold isDigit; omega
          · exact ih _ h x hx

theorem parseUint32FromBytes_digits (b : List Byte) (hne : b ≠ []) (hd : ∀ d ∈ b, isDigit d) :
    parseUint32FromBytes b =
      if digitsValue b ≤ maxUint32 then .ok (digitsValue b) else .error ErrIntegerOverflow := by
  unfold parseUint32FromBytes digitsValue
  rw [if_neg (by simpa using hne)]
  exact parseUint32Loop_digits b 0 hd (by simp [maxUint32])

theorem parseUint32FromBytes_ok (b : List Byte) (v : Nat) (h : parseUint32FromBytes b = .ok v) :
    b ≠ [] ∧ (∀ d ∈ b, isDigit d) ∧ v = digitsValue b ∧ v ≤ maxUint32 := by
  have hne : b ≠ [] := by
    rintro rfl
    simp [parseUint32FromBytes] at h
  have hd : ∀ d ∈ b, isDigit d := by
    unfold parseUint32FromBytes at h
    rw [if_neg (by simpa using hne)] at h
    exact parseUint32Loop_ok_digits b 0 v h
  rw [parseUint32FromBytes_digits b hne hd] at h
  split at h
  · rename_i hle
    cases h
    exact ⟨hne, hd, rfl, hle⟩
  · cases h

/-! ## The decimal rendering -/

theorem formatDigits_acc (fuel n : Nat) (acc : List Byte) :
    formatDigits fuel n acc = formatDigits fuel n [] ++ acc := by
  induction fuel generalizing n acc with
  | zero => simp [formatDigits]
  | succ k ih =>
    simp only [formatDigits]
    split
    · simp
    · rw [ih (n / 10) (_ :: acc), ih (n / 10) [_]]
      simp

theorem Byte.ofNat_val (n : Nat) : (Byte.ofNat n).val = n % 256 := rfl

theorem formatDigits_spec (fuel n : Nat) (h : n < fuel) :
    formatDigits fuel n [] ≠ [] ∧ (∀ d ∈ formatDigits fuel n [], isDigit d) ∧
      digitsValue (formatDigits fuel n []) = n := by
  induction fuel generalizing n with
  | zero => omega
  | succ k ih =>
    simp only [formatDigits]
    split
    · rename_i hlt
      refine ⟨by simp, ?_, ?_⟩
      · intro d hd
        simp only [List.mem_singleton] at hd
        subst hd
        unfold isDigit
        rw [Byte.ofNat_val]
        omega
      · simp only [digitsValue, List.foldl_cons, List.foldl_nil, Byte.ofNat_val]
        omega
    · rename_i hge
      rw [formatDigits_acc]
      obtain ⟨h1, h2, h3⟩ := ih (n / 10) (by omega)
      refine ⟨by simp, ?_, ?_⟩
      · intro d hd
        rcases List.mem_append.1 hd with hd | hd
        · exact h2 d hd
        · simp only [List.mem_singleton] at hd
          subst hd
          unfold isDigit
          rw [Byte.ofNat_val]
          omega
      · unfold digitsValue at h3 ⊢
        rw [List.foldl_append, h3]
        simp only [List.foldl_cons, List.foldl_nil, Byte.ofNat_val]
        omega

theorem parseUint32FromBytes_appendUint (n : Nat) (h : n ≤ maxUint32) :
    parseUint32FromBytes (appendUint [] n) = .ok n := by
  obtain ⟨h1, h2, h3⟩ := formatDigits_spec (n + 1) n (by omega)
  unfold appendUint
  rw [List.nil_append, parseUint32FromBytes_digits _ h1 h2, h3, if_pos h]

/-! ## `bytes.Split` -/

theorem bytesSplit_ne_nil (s : List Byte) (c : Byte) : bytesSplit s c ≠ [] := by
  induction s with
  | nil => simp [bytesSplit]
  | cons b rest ih =>
    simp only [bytesSplit]
    split
    · simp
    · split <;> simp

theorem bytesSplit_of_not_mem (a : List Byte) (c : Byte) (h : c ∉ a) : bytesSplit a c = [a] := by
  induction a with
  | nil => simp [bytesSplit]
  | cons b rest ih =>
    have hb : b ≠ c := fun e => h (e ▸ List.mem_cons_self _ _)
    have hr : c ∉ rest := fun e => h (List.mem_cons_of_mem _ e)
    simp only [bytesSplit, if_neg hb, ih hr]

theorem bytesSplit_append (a rest : List Byte) (c : Byte) (h : c ∉ a) :
    bytesSplit (a ++ c :: rest) c = a :: bytesSplit rest c := by
  induction a with
  | nil => simp [bytesSplit]
  | cons b a ih =>
    have hb : b ≠ c := fun e => h (e ▸ List.mem_cons_self _ _)
    have hr : c ∉ a := fun e => h (List.mem_cons_of_mem _ e)
    rw [List.cons_append]
    simp only [bytesSplit, if_neg hb]
    rw [ih hr]

/-- Splitting loses nothing: the fields joined by the separator are the input. -/
theorem bytesSplit_join (s : List Byte) (c : Byte) :
    List.intercalate [c] (bytesSplit s c) = s := by
  induction s with
  | nil => simp [bytesSplit, List.intercalate]
  | cons b rest ih =>
    simp only [bytesSplit]
    split
    · rename_i hb
      subst hb
      rcases hsp : bytesSplit rest b with _ | ⟨p, ps⟩
      · exact absurd hsp (bytesSplit_ne_nil _ _)
      · rw [hsp] at ih
        rw [← ih]
        simp [List.intercalate, List.intersperse]
    · rcases hsp : bytesSplit rest c with _ | ⟨p, ps⟩
      · exact absurd hsp (bytesSplit_ne_nil _ _)
      · rw [hsp] at ih
        rw [← ih]
        cases ps <;> simp [List.intercalate, List.intersperse]

theorem bytesSplit_not_mem (s : List Byte) (c : Byte) : ∀ p ∈ bytesSplit s c, c ∉ p := by
  induction s with
  | nil => simp [bytesSplit]
  | cons b rest ih =>
    simp only [bytesSplit]
    split
    · intro p hp
      rcases List.mem_cons.1 hp with rfl | hp
      · simp
      · exact ih p hp
    · rename_i hb
      rcases hsp : bytesSplit rest c with _ | ⟨q, qs⟩
      · exact absurd hsp (bytesSplit_ne_nil _ _)
      · rw [hsp] at ih
        intro p hp
        rcases List.mem_cons.1 hp with rfl | hp
        · intro hm
          rcases List.mem_cons.1 hm with e | hm
          · exact hb e.symm
          · exact ih q (List.mem_cons_self _ _) hm
        · exact ih p (List.mem_cons_of_mem _ hp)

/-! ## `bytes.Index` -/

theorem bytesIndex_ge (s sep : List Byte) : -1 ≤ bytesIndex s sep := by
  induction s with
  | nil => unfold bytesIndex; split <;> simp
  | cons b rest ih =>
    unfold bytesIndex
    split
    · simp
    · simp only
      split <;> omega

theorem bytesIndex_spec (s sep : List Byte) (h : 0 ≤ bytesIndex s sep) :
    sep.isPrefixOf (s.drop (bytesIndex s sep).toNat) = true ∧
      (bytesIndex s sep).toNat + sep.length ≤ s.length := by
  induction s with
  | nil =>
    unfold bytesIndex at h ⊢
    split
    · rename_i hp
      cases sep with
      | nil => simp
      | cons x xs => simp [List.isPrefixOf] at hp
    · rename_i hp
      rw [if_neg hp] at h
      simp at h
  | cons b rest ih =>
    unfold bytesIndex at h ⊢
    split
    · rename_i hp
      refine ⟨by simpa using hp, ?_⟩
      have := (List.isPrefixOf_iff_prefix.1 hp).length_le
      simpa using this
    · rename_i hp
      rw [if_neg hp] at h
      simp only at h ⊢
      split
      · rename_i hneg
        rw [if_pos hneg] at h
        omega
      · rename_i hneg
        have h0 : 0 ≤ bytesIndex rest sep := by omega
        obtain ⟨h1, h2⟩ := ih h0
        have e : (bytesIndex rest sep + 1).toNat = (bytesIndex rest sep).toNat + 1 := by omega
        rw [e]
        refine ⟨by simpa using h1, ?_⟩
        simp only [List.length_cons]
        omega

theorem bytesIndex_self_append (sep b : List Byte) : bytesIndex (sep ++ b) sep = 0 := by
  unfold bytesIndex
  rw [if_pos]
  exact List.isPrefixOf_iff_prefix.2 (List.prefix_append _ _)

theorem bytesIndex_append_of_head_not_mem (a r : List Byte) (h : Byte) (t : List Byte)
    (hn : h ∉ a) :
    bytesIndex (a ++ r) (h :: t) =
      if bytesIndex r (h :: t) < 0 then -1 else (a.length : Int) + bytesIndex r (h :: t) := by
  induction a with
  | nil =>
    simp only [List.nil_append, List.length_nil, Nat.cast_zero, zero_add]
    have := bytesIndex_ge r (h :: t)
    split <;> omega
  | cons b a ih =>
    have hb : h ≠ b := fun e => hn (e ▸ List.mem_cons_self _ _)
    have hr : h ∉ a := fun e => hn (List.mem_cons_of_mem _ e)
    rw [List.cons_append]
    conv_lhs => unfold bytesIndex
    have hp : List.isPrefixOf (h :: t) (b :: (a ++ r)) = false := by
      simp [List.isPrefixOf, hb]
    rw [hp]
    simp only [Bool.false_eq_true, if_false, ih hr]
    have := bytesIndex_ge r (h :: t)
    simp only [List.length_cons, Nat.cast_add, Nat.cast_one]
    split
    · simp
    · rw [if_neg (by omega)]
      omega

/-! ## Bit operations as arithmetic -/

theorem and_63 (x : Nat) : x &&& 0x3F = x % 64 := Nat.and_pow_two_sub_one_eq_mod x 6

theorem shl_or (x y k : Nat) (h : y < 2 ^ k) : x <<< k ||| y = x * 2 ^ k + y := by
  rw [Nat.shiftLeft_eq, Nat.mul_comm, ← Nat.mul_add_lt_is_or h]

theorem pack3 (a b c : Nat) (hb : b < 256) (hc : c < 256) :
    a <<< 16 ||| b <<< 8 ||| c = a * 65536 + b * 256 + c := by
  have e1 : a <<< 16 ||| b <<< 8 = a * 65536 + b * 256 := by
    rw [shl_or a (b <<< 8) 16 (by rw [Nat.shiftLeft_eq]; omega), Nat.shiftLeft_eq]
    norm_num
  have e2 : a * 65536 + b * 256 = (a * 256 + b) <<< 8 := by
    rw [Nat.shiftLeft_eq]; omega
  rw [e1, e2, shl_or _ c 8 (by omega)]
  omega

theorem pack4 (d0 d1 d2 d3 : Nat) (h1 : d1 < 64) (h2 : d2 < 64) (h3 : d3 < 64) :
    d0 <<< 18 ||| d1 <<< 12 ||| d2 <<< 6 ||| d3 = d0 * 262144 + d1 * 4096 + d2 * 64 + d3 := by
  have e1 : d0 <<< 18 ||| d1 <<< 12 = d0 * 262144 + d1 * 4096 := by
    rw [shl_or d0 (d1 <<< 12) 18 (by rw [Nat.shiftLeft_eq]; omega), Nat.shiftLeft_eq]
    norm_num
  have e2 : d0 * 262144 + d1 * 4096 = (d0 * 64 + d1) <<< 12 := by
    rw [Nat.shiftLeft_eq]; omega
  have e3 : (d0 * 64 + d1) <<< 12 ||| d2 <<< 6 = (d0 * 64 + d1) * 4096 + d2 * 64 := by
    rw [shl_or _ (d2 <<< 6) 12 (by rw [Nat.shiftLeft_eq]; omega), Nat.shiftLeft_eq]
    norm_num
  have e4 : (d0 * 64 + d1) * 4096 + d2 * 64 = ((d0 * 64 + d1) * 64 + d2) <<< 6 := by
    rw [Nat.shiftLeft_eq]; omega
  rw [e1, e2, e3, e4, shl_or _ d3 6 (by omega)]
  omega

/-! ## The base64 alphabet -/

set_option maxRecDepth 100000 in
theorem decodeMap_encodeChar_lt : ∀ i, i < 64 → decodeMap (encodeChar i) = i := by decide

set_option maxRecDepth 100000 in
theorem encodeChar_ne_dollar_lt : ∀ i, i < 64 → encodeChar i ≠ dollarSignByte := by decide

theorem decodeMap_encodeChar (x : Nat) : decodeMap (encodeChar (x % 64)) = x % 64 :=
  decodeMap_encodeChar_lt _ (Nat.mod_lt _ (by decide))

theorem decodeMap_lt_or (c : Byte) : decodeMap c < 64 ∨ decodeMap c = 255 := by
  unfold decodeMap
  simp only
  split
  · left; assumption
  · right; rfl

/-! ## One step of the decoder -/

theorem base64DecodeLoop_valid (c : Byte) (rest : List Byte) (si : Nat) (dbuf : List Nat)
    (hc : decodeMap c ≠ 255) (hl : dbuf.length ≠ 3) :
    base64DecodeLoop (c :: rest) si dbuf =
      base64DecodeLoop rest (si + 1) (dbuf ++ [decodeMap c]) := by
  simp only [base64DecodeLoop, ne_eq, hc, not_false_eq_true, if_true, hl, if_false]

theorem base64DecodeLoop_valid_last (c : Byte) (rest : List Byte) (si : Nat) (dbuf : List Nat)
    (hc : decodeMap c ≠ 255) (hl : dbuf.length = 3) :
    base64DecodeLoop (c :: rest) si dbuf =
      (base64DecodeLoop rest (si + 1) []).map
        (fun tl => quantumBytes (dbuf ++ [decodeMap c]) ++ tl) := by
  simp only [base64DecodeLoop, ne_eq, hc, not_false_eq_true, if_true, hl]

theorem base64DecodeLoop_enc (x : Nat) (rest : List Byte) (si : Nat) (dbuf : List Nat)
    (hl : dbuf.length ≠ 3) :
    base64DecodeLoop (encodeChar (x % 64) :: rest) si dbuf =
      base64DecodeLoop rest (si + 1) (dbuf ++ [x % 64]) := by
  rw [base64DecodeLoop_valid _ _ _ _ (by rw [decodeMap_encodeChar]; omega) hl,
    decodeMap_encodeChar]

theorem base64DecodeLoop_enc_last (x : Nat) (rest : List Byte) (si : Nat) (dbuf : List Nat)
    (hl : dbuf.length = 3) :
    base64DecodeLoop (encodeChar (x % 64) :: rest) si dbuf =
      (base64DecodeLoop rest (si + 1) []).map
        (fun tl => quantumBytes (dbuf ++ [x % 64]) ++ tl) := by
  rw [base64DecodeLoop_valid_last _ _ _ _ (by rw [decodeMap_encodeChar]; omega) hl,
    decodeMap_encodeChar]

/-! ## Decoding an encoding -/

theorem Byte.ofNat_eq (a : Byte) (n : Nat) (h : n % 256 = a.val) : Byte.ofNat n = a :=
  Fin.ext h

theorem base64DecodeLoop_encode (bs : List Byte) (si : Nat) :
    base64DecodeLoop (base64Encode bs) si [] = .ok bs := by
  induction bs using base64Encode.induct generalizing si with
  | case1 => simp [base64Encode, base64DecodeLoop]
  | case2 a =>
    have ha := a.isLt
    simp only [base64Encode, and_63, Nat.shiftLeft_eq, Nat.shiftRight_eq_div_pow]
    rw [base64DecodeLoop_enc _ _ _ _ (by simp), base64DecodeLoop_enc _ _ _ _ (by simp)]
    simp only [List.nil_append, List.cons_append, base64DecodeLoop, quantumBytes, List.getD_cons_zero,
      List.getD_cons_succ, List.getD_nil, List.length_cons, List.length_nil]
    rw [pack4 _ _ 0 0 (Nat.mod_lt _ (by decide)) (by decide) (by decide)]
    simp only [Nat.shiftRight_eq_div_pow]
    simp only [List.take, Except.ok.injEq, List.cons.injEq, and_true]
    apply Byte.ofNat_eq
    omega
  | case3 a b =>
    have ha := a.isLt
    have hb := b.isLt
    simp only [base64Encode, and_63, Nat.shiftRight_eq_div_pow]
    rw [base64DecodeLoop_enc _ _ _ _ (by simp), base64DecodeLoop_enc _ _ _ _ (by simp),
      base64DecodeLoop_enc _ _ _ _ (by simp)]
    simp only [List.nil_append, List.cons_append, base64DecodeLoop, quantumBytes, List.getD_cons_zero,
      List.getD_cons_succ, List.getD_nil, List.length_cons, List.length_nil]
    rw [pack4 _ _ _ 0 (Nat.mod_lt _ (by decide)) (Nat.mod_lt _ (by decide)) (by decide)]
    have e : a.val <<< 16 ||| b.val <<< 8 = a.val * 65536 + b.val * 256 := by
      have := pack3 a.val b.val 0 hb (by decide)
      simpa using this
    rw [e]
    simp only [Nat.shiftRight_eq_div_pow]
    simp only [List.take, Except.ok.injEq, List.cons.injEq, and_true]
    constructor <;> apply Byte.ofNat_eq <;> omega
  | case4 a b c rest ih =>
    have ha := a.isLt
    have hb := b.isLt
    have hc := c.isLt
    simp only [base64Encode, and_63, Nat.shiftRight_eq_div_pow]
    rw [base64DecodeLoop_enc _ _ _ _ (by simp), base64DecodeLoop_enc _ _ _ _ (by simp),
      base64DecodeLoop_enc _ _ _ _ (by simp), base64DecodeLoop_enc_last _ _ _ _ (by simp), ih]
    simp only [List.nil_append, List.cons_append, quantumBytes, List.getD_cons_zero,
      List.getD_cons_succ, List.getD_nil, List.length_cons, List.length_nil, Except.map]
    rw [pack4 _ _ _ _ (Nat.mod_lt _ (by decide)) (Nat.mod_lt _ (by decide))
      (Nat.mod_lt _ (by decide)), pack3 _ _ _ hb hc]
    simp only [Nat.shiftRight_eq_div_pow]
    simp only [List.take, Except.ok.injEq, List.cons.injEq, List.cons_append, List.nil_append,
      and_true]
    refine ⟨?_, ?_, ?_⟩ <;> apply Byte.ofNat_eq <;> omega

theorem base64Decode_encode (bs : List Byte) : base64Decode (base64Encode bs) = .ok bs :=
  base64DecodeLoop_encode bs 0

theorem base64Encode_no_dollar (bs : List Byte) : dollarSignByte ∉ base64Encode bs := by
  have key : ∀ x : Nat, dollarSignByte ≠ encodeChar (x % 64) := fun x =>
    (encodeChar_ne_dollar_lt _ (Nat.mod_lt _ (by decide))).symm
  induction bs using base64Encode.induct with
  | case1 => simp [base64Encode]
  | case2 a => simp [base64Encode, and_63, key, -Nat.reducePow]
  | case3 a b => simp [base64Encode, and_63, key]
  | case4 a b c rest ih => simp [base64Encode, and_63, key, ih]

/-! ## The size of a decoding -/

theorem quantumBytes_length (dbuf : List Nat) :
    (quantumBytes dbuf).length = min (dbuf.length - 1) 3 := by
  simp [quantumBytes, List.length_take]

theorem base64DecodeLoop_length (src : List Byte) (si : Nat) (dbuf : List Nat)
    (out : List Byte) (hl : dbuf.length < 4) (h : base64DecodeLoop src si dbuf = .ok out) :
    out.length ≤ base64DecodedLen (dbuf.length + src.length) := by
  induction src generalizing si dbuf out with
  | nil =>
    unfold base64DecodeLoop at h
    split at h
    · cases h; simp
    · cases h
    · cases h
      rw [quantumBytes_length]
      simp only [List.length_nil, Nat.add_zero, base64DecodedLen]
      omega
  | cons c rest ih =>
    simp only [base64DecodeLoop] at h
    simp only [List.length_cons, base64DecodedLen] at ih ⊢
    split at h
    · split at h
      · rename_i h3
        cases hr : base64DecodeLoop rest (si + 1) [] with
        | error e => rw [hr] at h; cases h
        | ok tl =>
          rw [hr] at h
          simp only [Except.map, Except.ok.injEq] at h
          subst h
          have := ih (si + 1) [] tl (by simp) hr
          simp only [List.length_nil] at this
          rw [List.length_append, quantumBytes_length]
          simp only [List.length_append, List.length_singleton]
          omega
      · rename_i h3
        have := ih (si + 1) (dbuf ++ [decodeMap c]) out (by simp; omega) h
        simp only [List.length_append, List.length_singleton] at this
        omega
    · split at h
      · have := ih (si + 1) dbuf out hl h
        omega
      · cases h

theorem base64Decode_length (src out : List Byte) (h : base64Decode src = .ok out) :
    out.length ≤ base64DecodedLen src.length := by
  have := base64DecodeLoop_length src 0 [] out (by simp) h
  simpa using this

theorem decodeBase64Field_isSome (field : List Byte) : decodeBase64Field field ≠ none := by
  unfold decodeBase64Field
  simp only
  cases h : base64Decode field with
  | error e => simp
  | ok out => simp [base64Decode_length field out h]

theorem decodeBase64Field_ok (field out : List Byte) :
    decodeBase64Field field = some (.ok out) ↔ base64Decode field = .ok out := by
  unfold decodeBase64Field
  simp only
  cases h : base64Decode field with
  | error e => simp
  | ok o => simp [base64Decode_length field o h]

/-! ## `subtle.ConstantTimeCompare` -/

theorem nat_or_eq_zero (a b : Nat) : a ||| b = 0 ↔ a = 0 ∧ b = 0 := by
  constructor
  · intro h
    have key : ∀ i, a.testBit i = false ∧ b.testBit i = false := by
      intro i
      have := congrArg (fun n => n.testBit i) h
      simpa [Nat.testBit_or] using this
    exact ⟨Nat.eq_of_testBit_eq (fun i => by simp [(key i).1]),
      Nat.eq_of_testBit_eq (fun i => by simp [(key i).2])⟩
  · rintro ⟨rfl, rfl⟩
    rfl

theorem constantTimeAcc_eq_zero (x y : List Byte) (v : Nat) (hlen : x.length = y.length) :
    constantTimeAcc x y v = 0 ↔ v = 0 ∧ x = y := by
  induction x generalizing y v with
  | nil =>
    cases y with
    | nil => simp [constantTimeAcc]
    | cons b y => simp at hlen
  | cons a x ih =>
    cases y with
    | nil => simp at hlen
    | cons b y =>
      simp only [List.length_cons, add_left_inj] at hlen
      simp only [constantTimeAcc, ih y _ hlen, List.cons.injEq]
      rw [nat_or_eq_zero, Nat.xor_eq_zero, Fin.val_inj]
      tauto

theorem constantTimeAcc_lt (x y : List Byte) (v : Nat) (hv : v < 256) :
    constantTimeAcc x y v < 256 := by
  induction x generalizing y v with
  | nil => cases y <;> simpa [constantTimeAcc] using hv
  | cons a x ih =>
    cases y with
    | nil => simpa [constantTimeAcc] using hv
    | cons b y =>
      simp only [constantTimeAcc]
      apply ih
      have h1 : a.val ^^^ b.val < 2 ^ 8 := Nat.xor_lt_two_pow a.isLt b.isLt
      exact Nat.or_lt_two_pow (n := 8) hv h1

theorem constantTimeCompare_eq_one (x y : List Byte) : constantTimeCompare x y = 1 ↔ x = y := by
  unfold constantTimeCompare
  split
  · rename_i hlen
    simp only [ne_eq] at hlen
    constructor
    · intro h; cases h
    · rintro rfl; exact absurd rfl hlen
  · rename_i hlen
    simp only [ne_eq, not_not] at hlen
    have hlt := constantTimeAcc_lt x y 0 (by decide)
    have hz := constantTimeAcc_eq_zero x y 0 hlen
    simp only [true_and] at hz
    rw [← hz]
    unfold constantTimeByteEq
    rw [Nat.xor_zero, Nat.shiftRight_eq_div_pow]
    constructor
    · intro h
      by_contra hne
      omega
    · intro h
      rw [h]
      decide

/-! ## Slices -/

theorem goSlice_mid (A B C : List Byte) :
    goSlice (A ++ B ++ C) (A.length : Int) ((A.length : Int) + (B.length : Int)) = some B := by
  unfold goSlice
  rw [if_pos]
  · have e1 : ((A.length : Int) + (B.length : Int)).toNat = (A ++ B).length := by
      simp only [List.length_append]; omega
    have e2 : ((A.length : Int)).toNat = A.length := by omega
    rw [e1, e2, List.take_left, List.drop_left]
  · simp only [List.length_append, Nat.cast_add]
    omega

theorem goSlice_tail (A B : List Byte) (n : Int) (hn : n = ((A ++ B).length : Int)) :
    goSlice (A ++ B) (A.length : Int) n = some B := by
  have := goSlice_mid A B []
  simp only [List.append_nil] at this
  rw [hn]
  simpa using this

theorem isDigit_ne_comma (D : List Byte) (hD : ∀ d ∈ D, isDigit d) : (44 : Byte) ∉ D := by
  intro h
  exact absurd (hD _ h) (by decide)

theorem isDigit_ne_dollar (D : List Byte) (hD : ∀ d ∈ D, isDigit d) : dollarSignByte ∉ D := by
  intro h
  exact absurd (hD _ h) (by decide)

/-! ## The parameter field -/

theorem decodeParams_wellformed (D1 D2 D3 : List Byte)
    (h1 : D1 ≠ []) (hd1 : ∀ d ∈ D1, isDigit d)
    (h2 : D2 ≠ []) (hd2 : ∀ d ∈ D2, isDigit d)
    (h3 : D3 ≠ []) (hd3 : ∀ d ∈ D3, isDigit d) :
    decodeParams (mEqualsBytes ++ D1 ++ commaTEqualsBytes ++ D2 ++ commaPEqualsBytes ++ D3) =
      some (if digitsValue D1 > maxUint32 then .error ErrIntegerOverflow
        else if digitsValue D2 > maxUint32 then .error ErrIntegerOverflow
        else if digitsValue D3 > maxUint32 then .error ErrIntegerOverflow
        else if digitsValue D3 > 255 then .error ErrInvalidParams
        else if digitsValue D1 > ArgonMaxMemory then .error ErrInvalidParams
        else if digitsValue D2 > ArgonMaxIterations then .error ErrInvalidParams
        else .ok (digitsValue D1, digitsValue D2, digitsValue D3)) := by
  have c1 := isDigit_ne_comma D1 hd1
  have c2 := isDigit_ne_comma D2 hd2
  have l1 : 0 < D1.length := List.length_pos.2 h1
  -- the three positions
  have hm : bytesIndex (mEqualsBytes ++ D1 ++ commaTEqualsBytes ++ D2 ++ commaPEqualsBytes ++ D3)
      mEqualsBytes = 0 := by
    simp only [List.append_assoc]
    exact bytesIndex_self_append _ _
  have ht : bytesIndex (mEqualsBytes ++ D1 ++ commaTEqualsBytes ++ D2 ++ commaPEqualsBytes ++ D3)
      commaTEqualsBytes = ((2 + D1.length : Nat) : Int) := by
    have e : mEqualsBytes ++ D1 ++ commaTEqualsBytes ++ D2 ++ commaPEqualsBytes ++ D3
        = (mEqualsBytes ++ D1) ++ (commaTEqualsBytes ++ (D2 ++ commaPEqualsBytes ++ D3)) := by
      simp only [List.append_assoc]
    rw [e]
    unfold commaTEqualsBytes
    rw [bytesIndex_append_of_head_not_mem _ _ 44 [116, 61]
      (by simp [mEqualsBytes, c1]), bytesIndex_self_append]
    simp [mEqualsBytes]
    omega
  have hp : bytesIndex (mEqualsBytes ++ D1 ++ commaTEqualsBytes ++ D2 ++ commaPEqualsBytes ++ D3)
      commaPEqualsBytes = ((2 + D1.length + 3 + D2.length : Nat) : Int) := by
    have e : mEqualsBytes ++ D1 ++ commaTEqualsBytes ++ D2 ++ commaPEqualsBytes ++ D3
        = (mEqualsBytes ++ D1) ++ (44 :: (([116, 61] ++ D2) ++ (commaPEqualsBytes ++ D3))) := by
      simp only [List.append_assoc, commaTEqualsBytes, List.cons_append, List.nil_append]
    have inner : bytesIndex (44 :: (([116, 61] ++ D2) ++ (commaPEqualsBytes ++ D3)))
        commaPEqualsBytes = ((3 + D2.length : Nat) : Int) := by
      conv_lhs => unfold bytesIndex
      have hpre : List.isPrefixOf commaPEqualsBytes
          (44 :: (([116, 61] ++ D2) ++ (commaPEqualsBytes ++ D3))) = false := by
        simp [commaPEqualsBytes, List.isPrefixOf]
      rw [hpre]
      simp only [Bool.false_eq_true, if_false]
      have hin : bytesIndex (([116, 61] ++ D2) ++ (commaPEqualsBytes ++ D3)) commaPEqualsBytes
          = ((2 + D2.length : Nat) : Int) := by
        unfold commaPEqualsBytes
        rw [bytesIndex_append_of_head_not_mem _ _ 44 [112, 61] (by simp [c2]),
          bytesIndex_self_append]
        simp
        omega
      rw [hin, if_neg (by omega)]
      push_cast
      omega
    rw [e]
    have := bytesIndex_append_of_head_not_mem (mEqualsBytes ++ D1)
      (44 :: (([116, 61] ++ D2) ++ (commaPEqualsBytes ++ D3))) 44 [112, 61]
      (by simp [mEqualsBytes, c1])
    unfold commaPEqualsBytes at inner this ⊢
    rw [this, inner, if_neg (by omega)]
    simp [mEqualsBytes]
    omega
  -- the three slices
  have s1 : goSlice (mEqualsBytes ++ D1 ++ commaTEqualsBytes ++ D2 ++ commaPEqualsBytes ++ D3) 2
      ((2 + D1.length : Nat) : Int) = some D1 := by
    have := goSlice_mid mEqualsBytes D1 (commaTEqualsBytes ++ D2 ++ commaPEqualsBytes ++ D3)
    simp only [List.append_assoc] at this ⊢
    simpa [mEqualsBytes] using this
  have s2 : goSlice (mEqualsBytes ++ D1 ++ commaTEqualsBytes ++ D2 ++ commaPEqualsBytes ++ D3)
      (((2 + D1.length : Nat) : Int) + 3) ((2 + D1.length + 3 + D2.length : Nat) : Int)
      = some D2 := by
    have := goSlice_mid (mEqualsBytes ++ D1 ++ commaTEqualsBytes) D2 (commaPEqualsBytes ++ D3)
    simp only [List.append_assoc] at this ⊢
    simp only [List.length_append, mEqualsBytes, commaTEqualsBytes, List.length_cons,
      List.length_nil] at this
    rw [← this]
    congr 1
  have s3 : goSlice (mEqualsBytes ++ D1 ++ commaTEqualsBytes ++ D2 ++ commaPEqualsBytes ++ D3)
      (((2 + D1.length + 3 + D2.length : Nat) : Int) + 3)
      ((mEqualsBytes ++ D1 ++ commaTEqualsBytes ++ D2 ++ commaPEqualsBytes ++ D3).length : Int)
      = some D3 := by
    have := goSlice_tail (mEqualsBytes ++ D1 ++ commaTEqualsBytes ++ D2 ++ commaPEqualsBytes) D3
      _ rfl
    rw [← this]
    congr 1
    simp only [List.length_append, mEqualsBytes, commaTEqualsBytes, commaPEqualsBytes,
      List.length_cons, List.length_nil]
    push_cast
    omega
  unfold decodeParams
  simp only [hm, ht, hp]
  rw [if_neg (by omega)]
  simp only [s1, s2, s3, parseUint32FromBytes_digits _ h1 hd1, parseUint32FromBytes_digits _ h2 hd2,
    parseUint32FromBytes_digits _ h3 hd3]
  by_cases v1 : digitsValue D1 ≤ maxUint32
  · by_cases v2 : digitsValue D2 ≤ maxUint32
    · by_cases v3 : digitsValue D3 ≤ maxUint32
      · simp only [v1, v2, v3, if_true, gt_iff_lt, not_lt.2 v1, not_lt.2 v2, not_lt.2 v3, if_false]
        by_cases v4 : 255 < digitsValue D3
        · simp [v4]
        · have e : digitsValue D3 % 2 ^ 8 = digitsValue D3 := Nat.mod_eq_of_lt (by omega)
          simp only [v4, if_false, e]
          split <;> [rfl; (split <;> rfl)]
      · simp [v1, v2, v3, not_lt.2 v1, not_lt.2 v2, not_le.1 v3]
    · simp [v1, v2, not_lt.2 v1, not_le.1 v2]
  · simp [v1, not_le.1 v1]

theorem drop_eq_of_isPrefixOf (P sep : List Byte) (k : Nat)
    (h : sep.isPrefixOf (P.drop k) = true) : P.drop k = sep ++ P.drop (k + sep.length) := by
  obtain ⟨t, ht⟩ := List.isPrefixOf_iff_prefix.1 h
  have : t = (P.drop k).drop sep.length := by
    rw [← ht, List.drop_left]
  rw [List.drop_drop] at this
  rw [← ht, this]

theorem drop_eq_segment (P : List Byte) (a b : Nat) (hab : a ≤ b) :
    P.drop a = (P.take b).drop a ++ P.drop b := by
  conv_lhs => rw [← List.take_append_drop b P]
  rw [List.drop_append_eq_append_drop]
  congr 1
  have : a - (P.take b).length = 0 ∨ P.drop b = [] := by
    by_cases hb : b ≤ P.length
    · left
      rw [List.length_take]
      omega
    · right
      exact List.drop_eq_nil_of_le (by omega)
  rcases this with h | h
  · rw [h, List.drop_zero]
  · rw [h, List.drop_nil]

/-- When the three position checks pass, the three slice expressions are in range and
cut the field into `m=` D1 `,t=` D2 `,p=` D3. -/
theorem decodeParams_slices (P : List Byte)
    (hchk : ¬ (bytesIndex P mEqualsBytes ≠ 0 ∨ bytesIndex P commaTEqualsBytes < 3 ∨
      bytesIndex P commaPEqualsBytes < bytesIndex P commaTEqualsBytes + 3)) :
    ∃ D1 D2 D3, goSlice P 2 (bytesIndex P commaTEqualsBytes) = some D1 ∧
      goSlice P (bytesIndex P commaTEqualsBytes + 3) (bytesIndex P commaPEqualsBytes) = some D2 ∧
      goSlice P (bytesIndex P commaPEqualsBytes + 3) P.length = some D3 ∧
      P = mEqualsBytes ++ D1 ++ commaTEqualsBytes ++ D2 ++ commaPEqualsBytes ++ D3 := by
  simp only [not_or, not_lt, ne_eq, not_not] at hchk
  obtain ⟨hm, ht, hp⟩ := hchk
  obtain ⟨m1, _⟩ := bytesIndex_spec P mEqualsBytes (by omega)
  obtain ⟨t1, t2⟩ := bytesIndex_spec P commaTEqualsBytes (by omega)
  obtain ⟨p1, p2⟩ := bytesIndex_spec P commaPEqualsBytes (by omega)
  generalize hi : bytesIndex P commaTEqualsBytes = ti at *
  generalize hj : bytesIndex P commaPEqualsBytes = pj at *
  obtain ⟨i, rfl⟩ := Int.eq_ofNat_of_zero_le (by omega : 0 ≤ ti)
  obtain ⟨j, rfl⟩ := Int.eq_ofNat_of_zero_le (by omega : 0 ≤ pj)
  rw [hm] at m1
  simp only [Int.toNat_ofNat, Int.toNat_zero, List.drop_zero] at m1 t1 t2 p1 p2
  have lt : commaTEqualsBytes.length = 3 := rfl
  have lp : commaPEqualsBytes.length = 3 := rfl
  have lm : mEqualsBytes.length = 2 := rfl
  rw [lt] at t2
  rw [lp] at p2
  have hi3 : 3 ≤ i := by omega
  have hj3 : i + 3 ≤ j := by omega
  refine ⟨(P.take i).drop 2, (P.take j).drop (i + 3), P.drop (j + 3), ?_, ?_, ?_, ?_⟩
  · unfold goSlice
    rw [if_pos (by omega)]
    simp
  · unfold goSlice
    rw [if_pos (by omega)]
    have : ((i : Int) + 3).toNat = i + 3 := by omega
    simp [this]
  · unfold goSlice
    rw [if_pos (by omega)]
    have e : ((j : Int) + 3).toNat = j + 3 := by omega
    simp [e]
  · have e0 := drop_eq_of_isPrefixOf P mEqualsBytes 0 (by simpa using m1)
    have e1 := drop_eq_segment P 2 i (by omega)
    have e2 := drop_eq_of_isPrefixOf P commaTEqualsBytes i t1
    have e3 := drop_eq_segment P (i + 3) j hj3
    have e4 := drop_eq_of_isPrefixOf P commaPEqualsBytes j p1
    rw [lt] at e2
    rw [lp] at e4
    rw [lm, Nat.zero_add, List.drop_zero] at e0
    simp only [List.append_assoc]
    rw [← e4, ← e3, ← e2, ← e1, ← e0]

theorem decodeParams_ne_none (P : List Byte) : decodeParams P ≠ none := by
  unfold decodeParams
  simp only
  split
  · simp
  · rename_i hchk
    obtain ⟨D1, D2, D3, s1, s2, s3, -⟩ := decodeParams_slices P hchk
    simp only [s1, s2, s3]
    cases parseUint32FromBytes D1 <;> simp only [ne_eq, reduceCtorEq, not_false_eq_true]
    cases parseUint32FromBytes D2 <;> simp only [ne_eq, reduceCtorEq, not_false_eq_true]
    cases parseUint32FromBytes D3 <;> simp only [ne_eq, reduceCtorEq, not_false_eq_true]
    split
    · simp
    · split
      · simp
      · split <;> simp

/-- A parameter field that is accepted has the form `m=` D1 `,t=` D2 `,p=` D3 with three
non-empty digit runs whose values are the results and respect the limits. -/
theorem decodeParams_ok (P : List Byte) (m t p : Nat) (h : decodeParams P = some (.ok (m, t, p))) :
    ∃ D1 D2 D3, P = mEqualsBytes ++ D1 ++ commaTEqualsBytes ++ D2 ++ commaPEqualsBytes ++ D3 ∧
      D1 ≠ [] ∧ (∀ d ∈ D1, isDigit d) ∧ D2 ≠ [] ∧ (∀ d ∈ D2, isDigit d) ∧
      D3 ≠ [] ∧ (∀ d ∈ D3, isDigit d) ∧
      m = digitsValue D1 ∧ t = digitsValue D2 ∧ p = digitsValue D3 ∧
      m ≤ ArgonMaxMemory ∧ t ≤ ArgonMaxIterations ∧ p ≤ 255 := by
  unfold decodeParams at h
  simp only at h
  split at h
  · cases h
  · rename_i hchk
    obtain ⟨D1, D2, D3, s1, s2, s3, hP⟩ := decodeParams_slices P hchk
    simp only [s1, s2, s3] at h
    cases q1 : parseUint32FromBytes D1 with
    | error e => rw [q1] at h; cases h
    | ok v1 =>
      cases q2 : parseUint32FromBytes D2 with
      | error e => rw [q1, q2] at h; cases h
      | ok v2 =>
        cases q3 : parseUint32FromBytes D3 with
        | error e => rw [q1, q2, q3] at h; cases h
        | ok v3 =>
          rw [q1, q2, q3] at h
          simp only at h
          obtain ⟨a1, b1, c1, _⟩ := parseUint32FromBytes_ok D1 v1 q1
          obtain ⟨a2, b2, c2, _⟩ := parseUint32FromBytes_ok D2 v2 q2
          obtain ⟨a3, b3, c3, _⟩ := parseUint32FromBytes_ok D3 v3 q3
          split at h
          · cases h
          · rename_i hp255
            split at h
            · cases h
            · rename_i hmem
              split at h
              · cases h
              · rename_i hit
                simp only [Option.some.injEq, Except.ok.injEq, Prod.mk.injEq] at h
                obtain ⟨rfl, rfl, rfl⟩ := h
                have e : v3 % 2 ^ 8 = v3 := Nat.mod_eq_of_lt (by omega)
                rw [e]
                exact ⟨D1, D2, D3, hP, a1, b1, a2, b2, a3, b3, c1, c2, c3, by omega, by omega,
                  by omega⟩

/-! ## `decodeArgonHashBytes` on its six fields -/

theorem goSlice_version_label (V : List Byte) : goSlice (vEqualsBytes ++ V) 0 2 = some vEqualsBytes := by
  have := goSlice_mid [] vEqualsBytes V
  simpa [vEqualsBytes] using this

theorem goSlice_version_digits (V : List Byte) :
    goSlice (vEqualsBytes ++ V) 2 ((vEqualsBytes ++ V).length : Int) = some V := by
  have := goSlice_tail vEqualsBytes V _ rfl
  simpa [vEqualsBytes] using this

/-- The run of `decodeArgonHashBytes` on an input with six fields, the tag `argon2id` and
an accepted version field: what is left is the parameter field and the two base64
fields. -/
theorem decode_fields (s f0 f1 f2 f3 f4 f5 V : List Byte)
    (hsplit : bytesSplit s dollarSignByte = [f0, f1, f2, f3, f4, f5])
    (htag : f1 = argon2idBytes) (hver : f2 = vEqualsBytes ++ V)
    (hV : parseUint32FromBytes V = .ok argon2Version) :
    decodeArgonHashBytes s =
      match decodeParams f3 with
      | none => none
      | some (.error e) => some (decodeFail e)
      | some (.ok (memory, iterations, parallelism)) =>
        match decodeBase64Field f4 with
        | none => none
        | some (.error e) => some (decodeFail e)
        | some (.ok salt) =>
          match decodeBase64Field f5 with
          | none => none
          | some (.error e) => some (decodeFail e)
          | some (.ok hash) =>
            some ⟨memory, iterations, parallelism, some salt, some hash, none⟩ := by
  have hVne : V ≠ [] := (parseUint32FromBytes_ok V _ hV).1
  have hlen : ¬ (vEqualsBytes ++ V).length < 3 := by
    have := List.length_pos.2 hVne
    simp [vEqualsBytes]
    omega
  subst htag hver
  unfold decodeArgonHashBytes
  simp only [hsplit, goIndex, List.length_cons, List.length_nil, ArgonEncodedPartCount]
  simp only [List.get?_cons_succ, List.get?_cons_zero, ne_eq, not_true_eq_false, if_false, hlen,
    goSlice_version_label, goSlice_version_digits, hV, Nat.reduceAdd]

theorem length_eq_six (parts : List (List Byte)) (h : parts.length = 6) :
    ∃ f0 f1 f2 f3 f4 f5, parts = [f0, f1, f2, f3, f4, f5] := by
  match parts, h with
  | [f0, f1, f2, f3, f4, f5], _ => exact ⟨f0, f1, f2, f3, f4, f5, rfl⟩

/-- Every run of `decodeArgonHashBytes` either returns early with an error, or has
passed the field count, the tag and the version. -/
theorem decode_cases (s : List Byte) :
    (∃ e, decodeArgonHashBytes s = some (decodeFail e)) ∨
    (∃ f0 f1 f2 f3 f4 f5 V, bytesSplit s dollarSignByte = [f0, f1, f2, f3, f4, f5] ∧
      f1 = argon2idBytes ∧ f2 = vEqualsBytes ++ V ∧
      parseUint32FromBytes V = .ok argon2Version) := by
  by_cases hlen : (bytesSplit s dollarSignByte).length = 6
  · obtain ⟨f0, f1, f2, f3, f4, f5, hsplit⟩ := length_eq_six _ hlen
    by_cases htag : f1 = argon2idBytes
    · by_cases hl2 : f2.length < 3
      · left
        refine ⟨ErrInvalidVersion, ?_⟩
        unfold decodeArgonHashBytes
        simp [hsplit, goIndex, ArgonEncodedPartCount, htag, hl2]
      · have hs1 : goSlice f2 0 2 = some (f2.take 2) := by
          unfold goSlice
          rw [if_pos (by omega)]
          simp
        have hs2 : goSlice f2 2 (f2.length : Int) = some (f2.drop 2) := by
          unfold goSlice
          rw [if_pos (by omega)]
          simp
        by_cases hlab : f2.take 2 = vEqualsBytes
        · cases hV : parseUint32FromBytes (f2.drop 2) with
          | error e =>
            left
            refine ⟨e, ?_⟩
            unfold decodeArgonHashBytes
            simp [hsplit, goIndex, ArgonEncodedPartCount, htag, hl2, hs1, hs2, hlab, hV]
          | ok v =>
            by_cases hv : v = argon2Version
            · right
              refine ⟨f0, f1, f2, f3, f4, f5, f2.drop 2, hsplit, htag, ?_, hv ▸ hV⟩
              rw [← hlab, List.take_append_drop]
            · left
              refine ⟨ErrInvalidVersion, ?_⟩
              unfold decodeArgonHashBytes
              simp [hsplit, goIndex, ArgonEncodedPartCount, htag, hl2, hs1, hs2, hlab, hV, hv]
        · left
          refine ⟨ErrInvalidVersion, ?_⟩
          unfold decodeArgonHashBytes
          simp [hsplit, goIndex, ArgonEncodedPartCount, htag, hl2, hs1, hlab]
    · left
      refine ⟨ErrUnsupportedAlgorithm, ?_⟩
      unfold decodeArgonHashBytes
      simp [hsplit, goIndex, ArgonEncodedPartCount, htag]
  · left
    refine ⟨ErrInvalidHashFormat, ?_⟩
    unfold decodeArgonHashBytes
    simp [ArgonEncodedPartCount, hlen]

/-- The shape of every successful run: six fields, the tag, an accepted version, an
accepted parameter field and two fields that decode as base64. -/
theorem decode_success (s : List Byte) (r : DecodeResult)
    (h : decodeArgonHashBytes s = some r) (herr : r.err = none) :
    ∃ f0 f1 f2 f3 f4 f5 V m t p salt hash,
      bytesSplit s dollarSignByte = [f0, f1, f2, f3, f4, f5] ∧
      f1 = argon2idBytes ∧ f2 = vEqualsBytes ++ V ∧
      parseUint32FromBytes V = .ok argon2Version ∧
      decodeParams f3 = some (.ok (m, t, p)) ∧
      base64Decode f4 = .ok salt ∧ base64Decode f5 = .ok hash ∧
      r = ⟨m, t, p, some salt, some hash, none⟩ := by
  rcases decode_cases s with ⟨e, he⟩ | ⟨f0, f1, f2, f3, f4, f5, V, hsplit, htag, hver, hV⟩
  · rw [he] at h
    cases h
    simp [decodeFail] at herr
  · rw [decode_fields s f0 f1 f2 f3 f4 f5 V hsplit htag hver hV] at h
    split at h
    · cases h
    · cases h; simp [decodeFail] at herr
    · rename_i m t p hpar
      split at h
      · cases h
      · cases h; simp [decodeFail] at herr
      · rename_i salt hsalt
        split at h
        · cases h
        · cases h; simp [decodeFail] at herr
        · rename_i hash hhash
          cases h
          exact ⟨f0, f1, f2, f3, f4, f5, V, m, t, p, salt, hash, hsplit, htag, hver, hV, hpar,
            (decodeBase64Field_ok _ _).1 hsalt, (decodeBase64Field_ok _ _).1 hhash, rfl⟩

/-- Every run that returns an error returns it next to five zero values. -/
theorem decode_failure (s : List Byte) (r : DecodeResult) (e : GoError)
    (h : decodeArgonHashBytes s = some r) (herr : r.err = some e) : r = decodeFail e := by
  rcases decode_cases s with ⟨e', he⟩ | ⟨f0, f1, f2, f3, f4, f5, V, hsplit, htag, hver, hV⟩
  · rw [he] at h
    cases h
    simp only [decodeFail, Option.some.injEq] at herr
    rw [herr]
  · rw [decode_fields s f0 f1 f2 f3 f4 f5 V hsplit htag hver hV] at h
    have key : ∀ e', r = decodeFail e' → r = decodeFail e := by
      intro e' he'
      rw [he'] at herr
      simp only [decodeFail, Option.some.injEq] at herr
      rw [he', herr]
    split at h
    · cases h
    · cases h; exact key _ rfl
    · split at h
      · cases h
      · cases h; exact key _ rfl
      · split at h
        · cases h
        · cases h; exact key _ rfl
        · cases h
          cases herr

theorem decode_ne_none (s : List Byte) : decodeArgonHashBytes s ≠ none := by
  rcases decode_cases s with ⟨e, he⟩ | ⟨f0, f1, f2, f3, f4, f5, V, hsplit, htag, hver, hV⟩
  · rw [he]; simp
  · rw [decode_fields s f0 f1 f2 f3 f4 f5 V hsplit htag hver hV]
    have hp := decodeParams_ne_none f3
    have h4 := decodeBase64Field_isSome f4
    have h5 := decodeBase64Field_isSome f5
    split
    · rename_i hn; exact absurd hn hp
    · simp
    · split
      · rename_i hn; exact absurd hn h4
      · simp
      · split
        · rename_i hn; exact absurd hn h5
        · simp
        · simp

/-! ## The encoder -/

/-- The parameter field that the encoder writes. -/
theorem encode_eq (hash salt : List Byte) (memory iterations parallelism : Nat) :
    encodeArgonHashAsBytes hash salt memory iterations parallelism =
      [] ++ dollarSignByte :: (argon2idBytes ++ dollarSignByte ::
        ((vEqualsBytes ++ appendUint [] argon2Version) ++ dollarSignByte ::
          ((mEqualsBytes ++ appendUint [] memory ++ commaTEqualsBytes ++
              appendUint [] iterations ++ commaPEqualsBytes ++ appendUint [] parallelism) ++
            dollarSignByte :: (base64Encode salt ++ dollarSignByte :: base64Encode hash)))) := by
  simp only [encodeArgonHashAsBytes, appendUint, argonAlgoAndVersionPrefixBytes, dollarMEqualsBytes,
    argon2idBytes, vEqualsBytes, mEqualsBytes, dollarSignByte, List.append_assoc, List.nil_append,
    List.cons_append]

theorem appendUint_digits (n : Nat) :
    appendUint [] n ≠ [] ∧ (∀ d ∈ appendUint [] n, isDigit d) ∧ digitsValue (appendUint [] n) = n := by
  unfold appendUint
  rw [List.nil_append]
  exact formatDigits_spec (n + 1) n (by omega)

theorem bytesSplit_encode (hash salt : List Byte) (memory iterations parallelism : Nat) :
    bytesSplit (encodeArgonHashAsBytes hash salt memory iterations parallelism) dollarSignByte =
      [[], argon2idBytes, vEqualsBytes ++ appendUint [] argon2Version,
        mEqualsBytes ++ appendUint [] memory ++ commaTEqualsBytes ++
          appendUint [] iterations ++ commaPEqualsBytes ++ appendUint [] parallelism,
        base64Encode salt, base64Encode hash] := by
  have dv := isDigit_ne_dollar _ (appendUint_digits argon2Version).2.1
  have dm := isDigit_ne_dollar _ (appendUint_digits memory).2.1
  have dt := isDigit_ne_dollar _ (appendUint_digits iterations).2.1
  have dp := isDigit_ne_dollar _ (appendUint_digits parallelism).2.1
  have k1 : dollarSignByte ∉ argon2idBytes := by decide
  have k2 : dollarSignByte ∉ vEqualsBytes := by decide
  have k3 : dollarSignByte ∉ mEqualsBytes := by decide
  have k4 : dollarSignByte ∉ commaTEqualsBytes := by decide
  have k5 : dollarSignByte ∉ commaPEqualsBytes := by decide
  rw [encode_eq, bytesSplit_append _ _ _ (by simp), bytesSplit_append _ _ _ k1,
    bytesSplit_append _ _ _ (by simp [k2, dv]),
    bytesSplit_append _ _ _ (by simp [k3, k4, k5, dm, dt, dp]),
    bytesSplit_append _ _ _ (base64Encode_no_dollar salt),
    bytesSplit_of_not_mem _ _ (base64Encode_no_dollar hash)]

theorem decode_encode (digest salt : List Byte) (memory iterations parallelism : Nat)
    (hm : memory ≤ ArgonMaxMemory) (ht : iterations ≤ ArgonMaxIterations)
    (hp : parallelism ≤ 255) :
    decodeArgonHashBytes (encodeArgonHashAsBytes digest salt memory iterations parallelism) =
      some ⟨memory, iterations, parallelism, some salt, some digest, none⟩ := by
  obtain ⟨m1, m2, m3⟩ := appendUint_digits memory
  obtain ⟨t1, t2, t3⟩ := appendUint_digits iterations
  obtain ⟨p1, p2, p3⟩ := appendUint_digits parallelism
  have hV : parseUint32FromBytes (appendUint [] argon2Version) = .ok argon2Version :=
    parseUint32FromBytes_appendUint _ (by decide)
  rw [decode_fields _ _ _ _ _ _ _ _ (bytesSplit_encode digest salt memory iterations parallelism)
    rfl rfl hV, decodeParams_wellformed _ _ _ m1 m2 t1 t2 p1 p2, m3, t3, p3]
  have e1 : decodeBase64Field (base64Encode salt) = some (.ok salt) :=
    (decodeBase64Field_ok _ _).2 (base64Decode_encode salt)
  have e2 : decodeBase64Field (base64Encode digest) = some (.ok digest) :=
    (decodeBase64Field_ok _ _).2 (base64Decode_encode digest)
  simp only [ArgonMaxMemory, ArgonMaxIterations, maxUint32] at hm ht ⊢
  rw [if_neg (by omega), if_neg (by omega), if_neg (by omega), if_neg (by omega),
    if_neg (by omega), if_neg (by omega)]
  simp only [e1, e2]

/-! ## Verification -/

theorem getArgonParallelism_le (n : Int) : getArgonParallelism n ≤ 255 := by
  unfold getArgonParallelism ArgonMaxParallelism
  split
  · decide
  · split
    · decide
    · omega

theorem encode_length_ne_zero (hash salt : List Byte) (memory iterations parallelism : Nat) :
    (encodeArgonHashAsBytes hash salt memory iterations parallelism).length ≠ 0 := by
  rw [encode_eq]
  simp

theorem getArgonParallelism_pos (n : Int) (h : 1 ≤ n) : 1 ≤ getArgonParallelism n := by
  unfold getArgonParallelism ArgonMaxParallelism
  split
  · decide
  · split
    · decide
    · omega

/-- The call of the primitive returns on a non-empty password and salt when the iterations,
the parallelism and the key length are all positive. -/
theorem generateArgonHash_ok (idKey : IDKey) (password salt : List Byte) (t m p k : Nat)
    (hpw : password ≠ []) (hs : salt ≠ []) (ht : 1 ≤ t) (hp : 1 ≤ p) (hk : k ≠ 0) :
    generateArgonHash idKey password salt t m p k = some (some (idKey password salt t m p k)) := by
  have h1 : ¬ (salt.length = 0 ∨ password.length = 0) := by
    simp only [List.length_eq_zero]
    exact fun h => h.elim hs hpw
  have h2 : ¬ (t < 1 ∨ p < 1 ∨ k = 0) := by omega
  simp only [generateArgonHash, argon2IDKey, if_neg h1, if_neg h2]

/-- A key comes back only from a call on a non-empty password and salt with positive
iterations, parallelism and key length. -/
theorem generateArgonHash_some (idKey : IDKey) (password salt key : List Byte) (t m p k : Nat)
    (h : generateArgonHash idKey password salt t m p k = some (some key)) :
    key = idKey password salt t m p k ∧ password ≠ [] ∧ salt ≠ [] ∧ 1 ≤ t ∧ 1 ≤ p ∧ k ≠ 0 := by
  unfold generateArgonHash argon2IDKey at h
  by_cases h1 : salt.length = 0 ∨ password.length = 0
  · rw [if_pos h1] at h
    cases h
  · rw [if_neg h1] at h
    by_cases h2 : t < 1 ∨ p < 1 ∨ k = 0
    · rw [if_pos h2] at h
      cases h
    · rw [if_neg h2] at h
      simp only [Option.some.injEq] at h
      simp only [List.length_eq_zero, not_or] at h1
      exact ⟨h.symm, h1.2, h1.1, by omega, by omega, by omega⟩

/-- The call of the primitive panics on a non-empty password and salt when the iterations,
the parallelism or the key length is 0. -/
theorem generateArgonHash_panic (idKey : IDKey) (password salt : List Byte) (t m p k : Nat)
    (hpw : password ≠ []) (hs : salt ≠ []) (h : t = 0 ∨ p = 0 ∨ k = 0) :
    generateArgonHash idKey password salt t m p k = none := by
  have h1 : ¬ (salt.length = 0 ∨ password.length = 0) := by
    simp only [List.length_eq_zero]
    exact fun h => h.elim hs hpw
  have h2 : t < 1 ∨ p < 1 ∨ k = 0 := by omega
  simp only [generateArgonHash, argon2IDKey, if_neg h1, if_pos h2]

/-- The run of `compareArgonPasswordAndHash` after a successful decoding. -/
theorem compare_of_decode (idKey : IDKey) (password enc : List Byte) (r : DecodeResult)
    (hpw : password ≠ []) (hdec : decodeArgonHashBytes enc = some r) (herr : r.err = none) :
    compareArgonPasswordAndHash idKey password enc =
      if (sliceBytes r.hash).length > maxUint32 then some (false, some ErrHashTooLarge)
      else
        match generateArgonHash idKey password (sliceBytes r.salt) r.iterations r.memory
            r.parallelism ((sliceBytes r.hash).length % 2 ^ 32) with
        | none => none
        | some none => some (false, some ErrInvalidHash)
        | some (some computedHash) =>
          some (decide (constantTimeCompare (sliceBytes r.hash) computedHash = 1), none) := by
  unfold compareArgonPasswordAndHash
  rw [if_neg (by simpa using hpw), hdec]
  simp only [herr]

theorem compare_of_decode_error (idKey : IDKey) (password enc : List Byte) (r : DecodeResult)
    (e : GoError) (hpw : password ≠ []) (hdec : decodeArgonHashBytes enc = some r)
    (herr : r.err = some e) :
    compareArgonPasswordAndHash idKey password enc = some (false, some e) := by
  unfold compareArgonPasswordAndHash
  rw [if_neg (by simpa using hpw), hdec]
  simp only [herr]

theorem compare_error_false (idKey : IDKey) (password enc : List Byte) (b : Bool) (e : GoError)
    (h : compareArgonPasswordAndHash idKey password enc = some (b, some e)) : b = false := by
  unfold compareArgonPasswordAndHash at h
  split at h
  · cases h; rfl
  · split at h
    · cases h
    · split at h
      · cases h; rfl
      · simp only at h
        split at h
        · cases h; rfl
        · split at h
          · cases h
          · cases h; rfl
          · cases h

/-! ## Early returns of `decodeArgonHashBytes` -/

theorem bytesSplit_length (s : List Byte) (c : Byte) :
    (bytesSplit s c).length = s.count c + 1 := by
  induction s with
  | nil => simp [bytesSplit]
  | cons b rest ih =>
    simp only [bytesSplit]
    split
    · rename_i hb
      subst hb
      simp [ih]
    · rename_i hb
      rcases hsp : bytesSplit rest c with _ | ⟨p, ps⟩
      · exact absurd hsp (bytesSplit_ne_nil _ _)
      · rw [hsp] at ih
        rw [List.count_cons_of_ne (fun e => hb e.symm)]
        simpa using ih

theorem decode_of_count_ne (s : List Byte) (h : (bytesSplit s dollarSignByte).length ≠ 6) :
    decodeArgonHashBytes s = some (decodeFail ErrInvalidHashFormat) := by
  unfold decodeArgonHashBytes
  simp [ArgonEncodedPartCount, h]

theorem decode_of_tag_ne (s f0 f1 f2 f3 f4 f5 : List Byte)
    (hsplit : bytesSplit s dollarSignByte = [f0, f1, f2, f3, f4, f5])
    (htag : f1 ≠ argon2idBytes) :
    decodeArgonHashBytes s = some (decodeFail ErrUnsupportedAlgorithm) := by
  unfold decodeArgonHashBytes
  simp [hsplit, goIndex, ArgonEncodedPartCount, htag]

/-- The run of `decodeArgonHashBytes` up to the version comparison, on an input with six
fields, the tag `argon2id` and a version field `v=` V with V not empty. -/
theorem decode_of_version (s f0 f3 f4 f5 V : List Byte)
    (hsplit : bytesSplit s dollarSignByte =
      [f0, argon2idBytes, vEqualsBytes ++ V, f3, f4, f5])
    (hV : V ≠ []) :
    (∀ e, parseUint32FromBytes V = .error e → decodeArgonHashBytes s = some (decodeFail e)) ∧
    (∀ v, parseUint32FromBytes V = .ok v → v ≠ argon2Version →
      decodeArgonHashBytes s = some (decodeFail ErrInvalidVersion)) := by
  have hlen : ¬ (vEqualsBytes ++ V).length < 3 := by
    have := List.length_pos.2 hV
    simp [vEqualsBytes]
    omega
  constructor
  · intro e he
    unfold decodeArgonHashBytes
    simp only [hsplit, goIndex, List.length_cons, List.length_nil, ArgonEncodedPartCount]
    simp only [List.get?_cons_succ, List.get?_cons_zero, ne_eq, not_true_eq_false, if_false,
      hlen, goSlice_version_label, goSlice_version_digits, he, Nat.reduceAdd]
  · intro v hv hne
    unfold decodeArgonHashBytes
    simp only [hsplit, goIndex, List.length_cons, List.length_nil, ArgonEncodedPartCount]
    simp only [List.get?_cons_succ, List.get?_cons_zero, ne_eq, not_true_eq_false, if_false,
      hlen, goSlice_version_label, goSlice_version_digits, hv, Nat.reduceAdd, hne,
      not_false_eq_true, if_true]

/-! ## The decimal parser on inputs with a byte that is not a digit -/

theorem parseUint32Loop_append (D l : List Byte) (acc : Nat) :
    parseUint32Loop (D ++ l) acc =
      match parseUint32Loop D acc with
      | .ok v => parseUint32Loop l v
      | .error e => .error e := by
  induction D generalizing acc with
  | nil => simp [parseUint32Loop]
  | cons d rest ih =>
    simp only [List.cons_append, parseUint32Loop]
    split
    · rfl
    · split
      · rfl
      · split
        · rfl
        · exact ih _

theorem parseUint32FromBytes_nondigit (D rest : List Byte) (x : Byte)
    (hD : ∀ d ∈ D, isDigit d) (hx : ¬ isDigit x) :
    parseUint32FromBytes (D ++ x :: rest) =
      if digitsValue D ≤ maxUint32 then .error ErrInvalidDigit
      else .error ErrIntegerOverflow := by
  have hx2 : x.val < 48 ∨ x.val > 57 := by
    unfold isDigit at hx
    omega
  unfold parseUint32FromBytes
  rw [if_neg (by simp), parseUint32Loop_append,
    parseUint32Loop_digits D 0 hD (by simp [maxUint32])]
  unfold digitsValue
  split
  · rename_i v hv
    split at hv
    · rename_i hle
      rw [if_pos hle]
      simp only [parseUint32Loop, hx2, if_true]
    · cases hv
  · rename_i e hv
    split at hv
    · cases hv
    · rename_i hle
      rw [if_neg hle]
      cases hv
      rfl

/-! ## Minimal decimal notation -/

theorem formatDigits_fuel (n : Nat) :
    ∀ fuel acc, n < fuel → formatDigits fuel n acc = formatDigits (n + 1) n acc := by
  induction n using Nat.strong_induction_on with
  | _ n ih =>
    intro fuel acc hf
    obtain ⟨f, rfl⟩ : ∃ f, fuel = f + 1 := ⟨fuel - 1, by omega⟩
    simp only [formatDigits]
    split
    · rfl
    · rename_i hge
      rw [ih (n / 10) (by omega) f _ (by omega), ih (n / 10) (by omega) n _ (by omega)]

theorem appendUint_lt_ten (n : Nat) (h : n < 10) : appendUint [] n = [Byte.ofNat (48 + n)] := by
  simp [appendUint, formatDigits, h]

theorem appendUint_ge_ten (n : Nat) (h : 10 ≤ n) :
    appendUint [] n = appendUint [] (n / 10) ++ [Byte.ofNat (48 + n % 10)] := by
  have e : formatDigits (n + 1) n [] = formatDigits n (n / 10) [Byte.ofNat (48 + n % 10)] := by
    simp only [formatDigits, if_neg (not_lt.2 h)]
  unfold appendUint
  rw [List.nil_append, List.nil_append, e, formatDigits_acc,
    formatDigits_fuel (n / 10) n [] (by omega)]

theorem digitsValue_append_singleton (D : List Byte) (d : Byte) :
    digitsValue (D ++ [d]) = digitsValue D * 10 + (d.val - 48) := by
  simp [digitsValue, List.foldl_append]

theorem digitsValue_pos (D : List Byte) (hne : D ≠ []) (hd : ∀ d ∈ D, isDigit d)
    (hz : D.head? ≠ some 48) : 1 ≤ digitsValue D := by
  cases D with
  | nil => exact absurd rfl hne
  | cons h t =>
    have hh := hd h (List.mem_cons_self _ _)
    unfold isDigit at hh
    have hne48 : h.val ≠ 48 := by
      intro e
      apply hz
      simp only [List.head?_cons, Option.some.injEq]
      exact Fin.ext e
    have := foldl_digits_ge t (0 * 10 + (h.val - 48))
    simp only [digitsValue, List.foldl_cons]
    omega

/-- A digit run without a leading zero is the minimal decimal rendering of its value. -/
theorem appendUint_digitsValue (D : List Byte) (hne : D ≠ []) (hd : ∀ d ∈ D, isDigit d)
    (hz : noLeadingZero D) : appendUint [] (digitsValue D) = D := by
  induction D using List.reverseRecOn with
  | nil => exact absurd rfl hne
  | append_singleton D' d ih =>
    have hdd := hd d (by simp)
    unfold isDigit at hdd
    have hD' : ∀ x ∈ D', isDigit x := fun x hx => hd x (by simp [hx])
    have hbyte : Byte.ofNat (48 + (d.val - 48)) = d := by
      apply Byte.ofNat_eq
      have := d.isLt
      omega
    rw [digitsValue_append_singleton]
    by_cases hD'e : D' = []
    · subst hD'e
      have : digitsValue ([] : List Byte) = 0 := rfl
      rw [this, appendUint_lt_ten _ (by omega)]
      simp only [Nat.zero_mul, Nat.zero_add, List.nil_append, hbyte]
    · have hhead : (D' ++ [d]).head? = D'.head? := by
        cases D' with
        | nil => exact absurd rfl hD'e
        | cons a l => rfl
      have hz' : D'.head? ≠ some 48 := by
        rcases hz with h1 | h2
        · have hl := congrArg List.length h1
          have := List.length_pos.2 hD'e
          rw [List.length_append] at hl
          simp only [List.length_singleton] at hl
          omega
        · rwa [hhead] at h2
      have hpos := digitsValue_pos D' hD'e hD' hz'
      rw [appendUint_ge_ten _ (by omega)]
      have e1 : (digitsValue D' * 10 + (d.val - 48)) / 10 = digitsValue D' := by omega
      have e2 : (digitsValue D' * 10 + (d.val - 48)) % 10 = d.val - 48 := by omega
      rw [e1, e2, ih hD'e hD' (Or.inr hz'), hbyte]

theorem appendUint_noLeadingZero (n : Nat) : noLeadingZero (appendUint [] n) := by
  obtain ⟨hne, hd, hv⟩ := appendUint_digits n
  by_cases h0 : n = 0
  · subst h0
    left
    decide
  · right
    intro hhead
    induction n using Nat.strong_induction_on with
    | _ n ih =>
      by_cases h10 : n < 10
      · rw [appendUint_lt_ten n h10] at hhead
        simp only [List.head?_cons, Option.some.injEq] at hhead
        have := congrArg Fin.val hhead
        rw [Byte.ofNat_val] at this
        have e : ((48 : Byte) : Nat) = 48 := rfl
        omega
      · rw [appendUint_ge_ten n (by omega)] at hhead
        obtain ⟨hne', hd', hv'⟩ := appendUint_digits (n / 10)
        have hhead' : (appendUint [] (n / 10) ++ [Byte.ofNat (48 + n % 10)]).head? =
            (appendUint [] (n / 10)).head? := by
          cases hq : appendUint [] (n / 10) with
          | nil => exact absurd hq hne'
          | cons a l => rfl
        rw [hhead'] at hhead
        exact ih (n / 10) (by omega) hne' hd' hv' (by omega) hhead

/-! ## The printed decimal notation -/

theorem digitChar_byte : ∀ d, d < 10 → Byte.ofNat (Nat.digitChar d).toNat = Byte.ofNat (48 + d) := by
  decide

theorem toDigitsCore_map (fuel n : Nat) (ds : List Char) :
    (Nat.toDigitsCore 10 fuel n ds).map (fun c => Byte.ofNat c.toNat) =
      formatDigits fuel n (ds.map (fun c => Byte.ofNat c.toNat)) := by
  induction fuel generalizing n ds with
  | zero => simp [Nat.toDigitsCore, formatDigits]
  | succ f ih =>
    simp only [Nat.toDigitsCore, formatDigits]
    have hmod : n % 10 < 10 := Nat.mod_lt _ (by decide)
    by_cases h : n < 10
    · have e : n / 10 = 0 := by omega
      have e2 : n % 10 = n := by omega
      rw [if_pos e, if_pos h]
      simp only [List.map_cons, e2, digitChar_byte _ h]
    · have e : ¬ n / 10 = 0 := by omega
      rw [if_neg e, if_neg h, ih]
      simp only [List.map_cons, digitChar_byte _ hmod]

theorem specDecimal_eq (n : Nat) : specDecimal n = appendUint [] n := by
  unfold specDecimal appendUint Nat.toDigits
  rw [toDigitsCore_map]
  simp

/-! ## The two encoders -/

theorem ArgonHashFormat_eq : ArgonHashFormat =
    [36, 97, 114, 103, 111, 110, 50, 105, 100, 36, 118, 61, 37, 100, 36, 109, 61, 37, 100, 44,
      116, 61, 37, 100, 44, 112, 61, 37, 100, 36, 37, 115, 36, 37, 115] := by
  decide

theorem encodeArgonHash_eq (hash salt : List Byte) (memory iterations parallelism : Nat) :
    encodeArgonHash hash salt memory iterations parallelism =
      encodeArgonHashAsBytes hash salt memory iterations parallelism := by
  rw [encode_eq]
  unfold encodeArgonHash
  rw [ArgonHashFormat_eq]
  simp only [sprintf, argon2idBytes, vEqualsBytes, mEqualsBytes, commaTEqualsBytes,
    commaPEqualsBytes, dollarSignByte, List.append_assoc, List.nil_append, List.cons_append,
    List.append_nil]

theorem specEncoding_eq (digest salt : List Byte) (memory iterations parallelism : Nat) :
    specEncoding digest salt memory iterations parallelism =
      encodeArgonHashAsBytes digest salt memory iterations parallelism := by
  have a1 : ascii "$argon2id$v=19$m=" =
      [36, 97, 114, 103, 111, 110, 50, 105, 100, 36, 118, 61, 49, 57, 36, 109, 61] := by decide
  have a2 : ascii ",t=" = [44, 116, 61] := by decide
  have a3 : ascii ",p=" = [44, 112, 61] := by decide
  have a4 : ascii "$" = [36] := by decide
  have v : appendUint [] argon2Version = [49, 57] := by decide
  rw [encode_eq, v]
  unfold specEncoding
  rw [a1, a2, a3, a4, specDecimal_eq, specDecimal_eq, specDecimal_eq]
  simp only [argon2idBytes, vEqualsBytes, mEqualsBytes, commaTEqualsBytes,
    commaPEqualsBytes, dollarSignByte, List.append_assoc, List.nil_append, List.cons_append]

/-! ## Canonical encodings -/

set_option maxRecDepth 100000 in
theorem encodeChar_mem_lt : ∀ i, i < 64 → encodeChar i ∈ encodeStd := by decide

theorem base64Encode_alphabet (bs : List Byte) : ∀ c ∈ base64Encode bs, c ∈ encodeStd := by
  have key : ∀ x : Nat, encodeChar (x % 64) ∈ encodeStd := fun x =>
    encodeChar_mem_lt _ (Nat.mod_lt _ (by decide))
  induction bs using base64Encode.induct with
  | case1 => simp [base64Encode]
  | case2 a =>
    intro c hc
    simp only [base64Encode, and_63, List.mem_cons, List.mem_singleton, List.not_mem_nil,
      or_false] at hc
    rcases hc with rfl | rfl <;> exact key _
  | case3 a b =>
    intro c hc
    simp only [base64Encode, and_63, List.mem_cons, List.mem_singleton, List.not_mem_nil,
      or_false] at hc
    rcases hc with rfl | rfl | rfl <;> exact key _
  | case4 a b c rest ih =>
    intro x hx
    simp only [base64Encode, and_63, List.mem_cons] at hx
    rcases hx with rfl | rfl | rfl | rfl | hx
    · exact key _
    · exact key _
    · exact key _
    · exact key _
    · exact ih x hx

/-- The text of an input in canonical form, split into its six fields. -/
theorem bytesSplit_canonical (V D1 D2 D3 S H : List Byte)
    (hV : ∀ d ∈ V, isDigit d) (h1 : ∀ d ∈ D1, isDigit d) (h2 : ∀ d ∈ D2, isDigit d)
    (h3 : ∀ d ∈ D3, isDigit d) (hS : dollarSignByte ∉ S) (hH : dollarSignByte ∉ H) :
    bytesSplit (argonAlgoAndVersionPrefixBytes ++ V ++ dollarMEqualsBytes ++ D1 ++
      commaTEqualsBytes ++ D2 ++ commaPEqualsBytes ++ D3 ++ [dollarSignByte] ++ S ++
      [dollarSignByte] ++ H) dollarSignByte =
      [[], argon2idBytes, vEqualsBytes ++ V,
        mEqualsBytes ++ D1 ++ commaTEqualsBytes ++ D2 ++ commaPEqualsBytes ++ D3, S, H] := by
  have dv := isDigit_ne_dollar _ hV
  have dm := isDigit_ne_dollar _ h1
  have dt := isDigit_ne_dollar _ h2
  have dp := isDigit_ne_dollar _ h3
  have k1 : dollarSignByte ∉ argon2idBytes := by decide
  have k2 : dollarSignByte ∉ vEqualsBytes := by decide
  have k3 : dollarSignByte ∉ mEqualsBytes := by decide
  have k4 : dollarSignByte ∉ commaTEqualsBytes := by decide
  have k5 : dollarSignByte ∉ commaPEqualsBytes := by decide
  have e : argonAlgoAndVersionPrefixBytes ++ V ++ dollarMEqualsBytes ++ D1 ++
      commaTEqualsBytes ++ D2 ++ commaPEqualsBytes ++ D3 ++ [dollarSignByte] ++ S ++
      [dollarSignByte] ++ H =
      [] ++ dollarSignByte :: (argon2idBytes ++ dollarSignByte ::
        ((vEqualsBytes ++ V) ++ dollarSignByte ::
          ((mEqualsBytes ++ D1 ++ commaTEqualsBytes ++ D2 ++ commaPEqualsBytes ++ D3) ++
            dollarSignByte :: (S ++ dollarSignByte :: H)))) := by
    simp only [argonAlgoAndVersionPrefixBytes, dollarMEqualsBytes, argon2idBytes, vEqualsBytes,
      mEqualsBytes, dollarSignByte, List.append_assoc, List.nil_append, List.cons_append]
  rw [e, bytesSplit_append _ _ _ (by simp), bytesSplit_append _ _ _ k1,
    bytesSplit_append _ _ _ (by simp [k2, dv]),
    bytesSplit_append _ _ _ (by simp [k3, k4, k5, dm, dt, dp]),
    bytesSplit_append _ _ _ hS, bytesSplit_of_not_mem _ _ hH]

theorem encode_eq_canonical (hash salt : List Byte) (memory iterations parallelism : Nat) :
    encodeArgonHashAsBytes hash salt memory iterations parallelism =
      argonAlgoAndVersionPrefixBytes ++ appendUint [] argon2Version ++ dollarMEqualsBytes ++
        appendUint [] memory ++ commaTEqualsBytes ++ appendUint [] iterations ++
        commaPEqualsBytes ++ appendUint [] parallelism ++ [dollarSignByte] ++
        base64Encode salt ++ [dollarSignByte] ++ base64Encode hash := by
  simp only [encodeArgonHashAsBytes, appendUint, List.append_assoc, List.nil_append,
    List.cons_append]

/-- Re-encoding the results of a successful decoding of an input in canonical form gives
the input back. -/
theorem reencode_of_canonical (s : List Byte) (r : DecodeResult)
    (h : decodeArgonHashBytes s = some r) (herr : r.err = none)
    (V D1 D2 D3 : List Byte)
    (nV : V ≠ []) (dV : ∀ d ∈ V, isDigit d) (zV : noLeadingZero V)
    (n1 : D1 ≠ []) (d1 : ∀ d ∈ D1, isDigit d) (z1 : noLeadingZero D1)
    (n2 : D2 ≠ []) (d2 : ∀ d ∈ D2, isDigit d) (z2 : noLeadingZero D2)
    (n3 : D3 ≠ []) (d3 : ∀ d ∈ D3, isDigit d) (z3 : noLeadingZero D3)
    (hs : s = argonAlgoAndVersionPrefixBytes ++ V ++ dollarMEqualsBytes ++ D1 ++
      commaTEqualsBytes ++ D2 ++ commaPEqualsBytes ++ D3 ++ [dollarSignByte] ++
      base64Encode (sliceBytes r.salt) ++ [dollarSignByte] ++
      base64Encode (sliceBytes r.hash)) :
    encodeArgonHashAsBytes (sliceBytes r.hash) (sliceBytes r.salt) r.memory r.iterations
      r.parallelism = s := by
  have hsplit := bytesSplit_canonical V D1 D2 D3 (base64Encode (sliceBytes r.salt))
    (base64Encode (sliceBytes r.hash)) dV d1 d2 d3 (base64Encode_no_dollar _)
    (base64Encode_no_dollar _)
  rw [← hs] at hsplit
  obtain ⟨g0, g1, g2, g3, g4, g5, W, m, t, p, sl, hsh, hsp, -, hg2, hW, -, -, -, hr⟩ :=
    decode_success s r h herr
  rw [hsplit] at hsp
  simp only [List.cons.injEq, and_true] at hsp
  obtain ⟨-, -, hv2, -, -, -⟩ := hsp
  rw [hg2] at hv2
  have hVW : V = W := List.append_cancel_left hv2
  subst hVW
  have hval : digitsValue V = argon2Version := by
    obtain ⟨-, -, hv, -⟩ := parseUint32FromBytes_ok V _ hW
    exact hv.symm
  have hdec := decode_fields s _ _ _ _ _ _ V hsplit rfl rfl hW
  rw [decodeParams_wellformed D1 D2 D3 n1 d1 n2 d2 n3 d3] at hdec
  rw [h] at hdec
  have eV := appendUint_digitsValue V nV dV zV
  have e1 := appendUint_digitsValue D1 n1 d1 z1
  have e2 := appendUint_digitsValue D2 n2 d2 z2
  have e3 := appendUint_digitsValue D3 n3 d3 z3
  rw [hval] at eV
  have hfields : r.memory = digitsValue D1 ∧ r.iterations = digitsValue D2 ∧
      r.parallelism = digitsValue D3 := by
    split at hdec
    · cases hdec
    · rename_i e he
      cases hdec
      simp [decodeFail] at herr
    · rename_i mm tt pp hpar
      have hok : (Except.ok (mm, tt, pp) : Except GoError (Nat × Nat × Nat)) =
          .ok (digitsValue D1, digitsValue D2, digitsValue D3) := by
        have hp2 := Option.some.inj hpar
        split at hp2
        · cases hp2
        · split at hp2
          · cases hp2
          · split at hp2
            · cases hp2
            · split at hp2
              · cases hp2
              · split at hp2
                · cases hp2
                · split at hp2
                  · cases hp2
                  · exact hp2.symm
      simp only [Except.ok.injEq, Prod.mk.injEq] at hok
      obtain ⟨rfl, rfl, rfl⟩ := hok
      split at hdec
      · cases hdec
      · cases hdec
        simp [decodeFail] at herr
      · split at hdec
        · cases hdec
        · cases hdec
          simp [decodeFail] at herr
        · cases hdec
          exact ⟨rfl, rfl, rfl⟩
  obtain ⟨hm, ht, hp⟩ := hfields
  rw [encode_eq_canonical, hm, ht, hp, eV, e1, e2, e3]
  exact hs.symm

/-! ## Base64 text made of alphabet characters only -/

set_option maxRecDepth 100000 in
theorem decodeMap_of_mem : ∀ c ∈ encodeStd, decodeMap c ≠ 255 := by decide

theorem base64DecodeLoop_alphabet (l : List Byte) (si : Nat) (dbuf : List Nat)
    (hl : ∀ c ∈ l, decodeMap c ≠ 255) (hd : dbuf.length < 4) :
    ((dbuf.length + l.length) % 4 = 1 → ∃ off, base64DecodeLoop l si dbuf = .error off) ∧
    ((dbuf.length + l.length) % 4 ≠ 1 → ∃ out, base64DecodeLoop l si dbuf = .ok out) := by
  induction l generalizing si dbuf with
  | nil =>
    match dbuf, hd with
    | [], _ => simp [base64DecodeLoop]
    | [a], _ => simp [base64DecodeLoop]
    | [a, b], _ => simp [base64DecodeLoop]
    | [a, b, c], _ => simp [base64DecodeLoop]
  | cons c rest ih =>
    have hc := hl c (List.mem_cons_self _ _)
    have hrest : ∀ x ∈ rest, decodeMap x ≠ 255 := fun x hx => hl x (List.mem_cons_of_mem _ hx)
    by_cases h3 : dbuf.length = 3
    · rw [base64DecodeLoop_valid_last c rest si dbuf hc h3]
      obtain ⟨i1, i2⟩ := ih (si + 1) [] hrest (by simp)
      simp only [List.length_nil, Nat.zero_add] at i1 i2
      simp only [List.length_cons, h3]
      constructor
      · intro h
        obtain ⟨off, ho⟩ := i1 (by omega)
        exact ⟨off, by rw [ho]; rfl⟩
      · intro h
        obtain ⟨out, ho⟩ := i2 (by omega)
        exact ⟨_, by rw [ho]; rfl⟩
    · rw [base64DecodeLoop_valid c rest si dbuf hc h3]
      obtain ⟨i1, i2⟩ := ih (si + 1) (dbuf ++ [decodeMap c]) hrest (by simp; omega)
      simp only [List.length_append, List.length_singleton] at i1 i2
      simp only [List.length_cons]
      constructor
      · intro h
        exact i1 (by omega)
      · intro h
        exact i2 (by omega)

theorem decodeBase64Field_alphabet (l : List Byte) (hl : ∀ c ∈ l, c ∈ encodeStd) :
    (l.length % 4 = 1 → ∃ off, decodeBase64Field l = some (.error (Base64DecodeError off))) ∧
    (l.length % 4 ≠ 1 → ∃ out, decodeBase64Field l = some (.ok out)) := by
  obtain ⟨i1, i2⟩ := base64DecodeLoop_alphabet l 0 []
    (fun c hc => decodeMap_of_mem c (hl c hc)) (by simp)
  simp only [List.length_nil, Nat.zero_add] at i1 i2
  constructor
  · intro h
    obtain ⟨off, ho⟩ := i1 h
    refine ⟨off, ?_⟩
    unfold decodeBase64Field base64Decode
    simp only [ho]
  · intro h
    obtain ⟨out, ho⟩ := i2 h
    exact ⟨out, (decodeBase64Field_ok l out).2 ho⟩

/-! ## Prefixes of an encoding -/

/-- An encoding is a head with four `$`, one more `$`, and the digest field; whatever
stands in place of the digest field, the head gives the first five fields. -/
theorem encode_head (hash salt : List Byte) (memory iterations parallelism : Nat) :
    ∃ Hd : List Byte,
      encodeArgonHashAsBytes hash salt memory iterations parallelism =
        Hd ++ dollarSignByte :: base64Encode hash ∧
      Hd.count dollarSignByte = 4 ∧
      ∀ H : List Byte, dollarSignByte ∉ H →
        bytesSplit (Hd ++ dollarSignByte :: H) dollarSignByte =
          [[], argon2idBytes, vEqualsBytes ++ appendUint [] argon2Version,
            mEqualsBytes ++ appendUint [] memory ++ commaTEqualsBytes ++
              appendUint [] iterations ++ commaPEqualsBytes ++ appendUint [] parallelism,
            base64Encode salt, H] := by
  have hsp : ∀ H : List Byte, dollarSignByte ∉ H →
      bytesSplit ((argonAlgoAndVersionPrefixBytes ++ appendUint [] argon2Version ++
        dollarMEqualsBytes ++ appendUint [] memory ++ commaTEqualsBytes ++
        appendUint [] iterations ++ commaPEqualsBytes ++ appendUint [] parallelism ++
        [dollarSignByte] ++ base64Encode salt) ++ dollarSignByte :: H) dollarSignByte =
        [[], argon2idBytes, vEqualsBytes ++ appendUint [] argon2Version,
          mEqualsBytes ++ appendUint [] memory ++ commaTEqualsBytes ++
            appendUint [] iterations ++ commaPEqualsBytes ++ appendUint [] parallelism,
          base64Encode salt, H] := by
    intro H hH
    have := bytesSplit_canonical (appendUint [] argon2Version) (appendUint [] memory)
      (appendUint [] iterations) (appendUint [] parallelism) (base64Encode salt) H
      (appendUint_digits _).2.1 (appendUint_digits _).2.1 (appendUint_digits _).2.1
      (appendUint_digits _).2.1 (base64Encode_no_dollar salt) hH
    rw [← this]
    simp only [List.append_assoc, List.cons_append, List.nil_append]
  refine ⟨_, ?_, ?_, hsp⟩
  · rw [encode_eq_canonical]
    simp only [List.append_assoc, List.cons_append, List.nil_append]
  · have hl := congrArg List.length (hsp [] (by simp))
    rw [bytesSplit_length, List.count_append] at hl
    simp only [List.count_cons_self, List.count_nil, List.length_cons, List.length_nil] at hl
    omega

theorem take_head (Hd B : List Byte) (c : Byte) (n : Nat) (h : n ≤ Hd.length) :
    (Hd ++ c :: B).take n = Hd.take n :=
  List.take_append_of_le_length h

theorem take_tail (Hd B : List Byte) (c : Byte) (n : Nat) (h : Hd.length < n) :
    (Hd ++ c :: B).take n = Hd ++ c :: B.take (n - Hd.length - 1) := by
  rw [List.take_append_eq_append_take, List.take_of_length_le (by omega)]
  congr 1
  obtain ⟨k, hk⟩ : ∃ k, n - Hd.length = k + 1 := ⟨n - Hd.length - 1, by omega⟩
  rw [hk, List.take_succ_cons]
  simp

/-- A prefix that ends before the last `$` of an encoding has at most four `$`. -/
theorem decode_take_head (hash salt : List Byte) (memory iterations parallelism n : Nat)
    (hn : n + (base64Encode hash).length <
      (encodeArgonHashAsBytes hash salt memory iterations parallelism).length) :
    decodeArgonHashBytes
      ((encodeArgonHashAsBytes hash salt memory iterations parallelism).take n) =
      some (decodeFail ErrInvalidHashFormat) := by
  obtain ⟨Hd, he, hc, -⟩ := encode_head hash salt memory iterations parallelism
  rw [he] at hn ⊢
  simp only [List.length_append, List.length_cons] at hn
  rw [take_head _ _ _ _ (by omega)]
  apply decode_of_count_ne
  rw [bytesSplit_length]
  have hle := (List.take_sublist n Hd).count_le dollarSignByte
  omega

/-- A prefix that keeps the last `$` of an encoding and some characters of the digest
field decodes like the encoding, up to the digest field. -/
theorem decode_take_tail (hash salt : List Byte) (memory iterations parallelism n : Nat)
    (hm : memory ≤ ArgonMaxMemory) (ht : iterations ≤ ArgonMaxIterations)
    (hp : parallelism ≤ 255)
    (hn : (encodeArgonHashAsBytes hash salt memory iterations parallelism).length ≤
      n + (base64Encode hash).length) :
    decodeArgonHashBytes
      ((encodeArgonHashAsBytes hash salt memory iterations parallelism).take n) =
      match decodeBase64Field ((base64Encode hash).take
        (n + (base64Encode hash).length -
          (encodeArgonHashAsBytes hash salt memory iterations parallelism).length)) with
      | none => none
      | some (.error e) => some (decodeFail e)
      | some (.ok digest) =>
        some ⟨memory, iterations, parallelism, some salt, some digest, none⟩ := by
  obtain ⟨m1, m2, m3⟩ := appendUint_digits memory
  obtain ⟨t1, t2, t3⟩ := appendUint_digits iterations
  obtain ⟨p1, p2, p3⟩ := appendUint_digits parallelism
  have hV : parseUint32FromBytes (appendUint [] argon2Version) = .ok argon2Version :=
    parseUint32FromBytes_appendUint _ (by decide)
  obtain ⟨Hd, he, -, hsp⟩ := encode_head hash salt memory iterations parallelism
  rw [he] at hn ⊢
  simp only [List.length_append, List.length_cons] at hn ⊢
  rw [take_tail _ _ _ _ (by omega)]
  have hidx : n + (base64Encode hash).length - (Hd.length + ((base64Encode hash).length + 1)) =
      n - Hd.length - 1 := by omega
  rw [hidx]
  generalize n - Hd.length - 1 = j
  have hH : dollarSignByte ∉ (base64Encode hash).take j :=
    fun hmem => base64Encode_no_dollar hash (List.mem_of_mem_take hmem)
  rw [decode_fields _ _ _ _ _ _ _ _ (hsp _ hH) rfl rfl hV,
    decodeParams_wellformed _ _ _ m1 m2 t1 t2 p1 p2, m3, t3, p3]
  have e1 : decodeBase64Field (base64Encode salt) = some (.ok salt) :=
    (decodeBase64Field_ok _ _).2 (base64Decode_encode salt)
  simp only [ArgonMaxMemory, ArgonMaxIterations, maxUint32] at hm ht ⊢
  rw [if_neg (by omega), if_neg (by omega), if_neg (by omega), if_neg (by omega),
    if_neg (by omega), if_neg (by omega)]
  simp only [e1]

/-! ## `validateConfig` -/

theorem validateConfigLengths_eq (c : Config) :
    validateConfigLengths c =
      (some { c with
          SaltLength := if c.SaltLength = 0 then ArgonSaltLength else c.SaltLength
          KeyLength := if c.KeyLength = 0 then ArgonKeyLength else c.KeyLength }, none) := by
  unfold validateConfigLengths
  by_cases hs : c.SaltLength = 0 <;> by_cases hk : c.KeyLength = 0 <;> simp [hs, hk]

theorem validateConfigIterations_eq (c : Config) :
    validateConfigIterations c =
      if c.Iterations = 0 then
        (some { c with
            MaxIterations := if c.MaxIterations = 0 then ArgonMaxIterations else c.MaxIterations
            Iterations := ArgonIterations
            SaltLength := if c.SaltLength = 0 then ArgonSaltLength else c.SaltLength
            KeyLength := if c.KeyLength = 0 then ArgonKeyLength else c.KeyLength }, none)
      else if c.Iterations >
          (if c.MaxIterations = 0 then ArgonMaxIterations else c.MaxIterations) then
        (some { c with
            MaxIterations := if c.MaxIterations = 0 then ArgonMaxIterations else c.MaxIterations },
          some ConfigError.ErrConfigIterationsExceedsMax)
      else
        (some { c with
            MaxIterations := if c.MaxIterations = 0 then ArgonMaxIterations else c.MaxIterations
            SaltLength := if c.SaltLength = 0 then ArgonSaltLength else c.SaltLength
            KeyLength := if c.KeyLength = 0 then ArgonKeyLength else c.KeyLength }, none) := by
  unfold validateConfigIterations
  simp only [validateConfigLengths_eq]
  by_cases hx : c.MaxIterations = 0 <;> by_cases hi : c.Iterations = 0 <;> simp [hx, hi]

theorem validateConfig_some (numCPU : Int) (c : Config) :
    validateConfig numCPU (some c) =
      if (if c.Memory = 0 then ArgonMaxMemory else c.Memory) >
          (if c.MaxMemory = 0 then ArgonMaxMemory else c.MaxMemory) then
        (some { c with
            Parallelism := capParallelism numCPU c.Parallelism
            MaxMemory := if c.MaxMemory = 0 then ArgonMaxMemory else c.MaxMemory
            Memory := if c.Memory = 0 then ArgonMaxMemory else c.Memory },
          some ConfigError.ErrConfigMemoryExceedsMax)
      else
        validateConfigIterations { c with
          Parallelism := capParallelism numCPU c.Parallelism
          MaxMemory := if c.MaxMemory = 0 then ArgonMaxMemory else c.MaxMemory
          Memory := if c.Memory = 0 then ArgonMaxMemory else c.Memory } := by
  unfold validateConfig
  simp only
  by_cases hm : c.Memory = 0 <;> by_cases hx : c.MaxMemory = 0 <;>
    simp [hm, hx, ArgonMaxMemory]

/-- The three outcomes of `validateConfig` on a non-nil configuration. -/
theorem validateConfig_eq (numCPU : Int) (c : Config) :
    validateConfig numCPU (some c) =
      if (if c.Memory = 0 then ArgonMaxMemory else c.Memory) >
          (if c.MaxMemory = 0 then ArgonMaxMemory else c.MaxMemory) then
        (some { c with
            Parallelism := capParallelism numCPU c.Parallelism
            MaxMemory := if c.MaxMemory = 0 then ArgonMaxMemory else c.MaxMemory
            Memory := if c.Memory = 0 then ArgonMaxMemory else c.Memory },
          some ConfigError.ErrConfigMemoryExceedsMax)
      else if c.Iterations ≠ 0 ∧ c.Iterations >
          (if c.MaxIterations = 0 then ArgonMaxIterations else c.MaxIterations) then
        (some { c with
            Parallelism := capParallelism numCPU c.Parallelism
            MaxMemory := if c.MaxMemory = 0 then ArgonMaxMemory else c.MaxMemory
            Memory := if c.Memory = 0 then ArgonMaxMemory else c.Memory
            MaxIterations := if c.MaxIterations = 0 then ArgonMaxIterations else c.MaxIterations },
          some ConfigError.ErrConfigIterationsExceedsMax)
      else (some (normalisedConfig numCPU c), none) := by
  rw [validateConfig_some, validateConfigIterations_eq]
  unfold normalisedConfig
  by_cases hi : c.Iterations = 0
  · simp [hi]
  · simp [hi]

theorem validateConfig_fst (numCPU : Int) (c : Config) :
    ∃ c', (validateConfig numCPU (some c)).1 = some c' ∧
      c'.Parallelism = capParallelism numCPU c.Parallelism := by
  rw [validateConfig_eq]
  by_cases h1 : (if c.Memory = 0 then ArgonMaxMemory else c.Memory) >
      (if c.MaxMemory = 0 then ArgonMaxMemory else c.MaxMemory)
  · rw [if_pos h1]
    exact ⟨_, rfl, rfl⟩
  · rw [if_neg h1]
    by_cases h2 : c.Iterations ≠ 0 ∧ c.Iterations >
        (if c.MaxIterations = 0 then ArgonMaxIterations else c.MaxIterations)
    · rw [if_pos h2]
      exact ⟨_, rfl, rfl⟩
    · rw [if_neg h2]
      exact ⟨_, rfl, rfl⟩

theorem validateConfig_accepted (numCPU : Int) (c c' : Config)
    (h : validateConfig numCPU (some c) = (some c', none)) :
    c' = normalisedConfig numCPU c ∧
      (if c.Memory = 0 then ArgonMaxMemory else c.Memory) ≤
        (if c.MaxMemory = 0 then ArgonMaxMemory else c.MaxMemory) ∧
      (c.Iterations ≠ 0 → c.Iterations ≤
        (if c.MaxIterations = 0 then ArgonMaxIterations else c.MaxIterations)) := by
  rw [validateConfig_eq] at h
  by_cases h1 : (if c.Memory = 0 then ArgonMaxMemory else c.Memory) >
      (if c.MaxMemory = 0 then ArgonMaxMemory else c.MaxMemory)
  · rw [if_pos h1] at h
    cases h
  · rw [if_neg h1] at h
    by_cases h2 : c.Iterations ≠ 0 ∧ c.Iterations >
        (if c.MaxIterations = 0 then ArgonMaxIterations else c.MaxIterations)
    · rw [if_pos h2] at h
      cases h
    · rw [if_neg h2] at h
      simp only [Prod.mk.injEq, Option.some.injEq, and_true] at h
      refine ⟨h.symm, not_lt.1 h1, fun hne => ?_⟩
      exact not_lt.1 (fun hgt => h2 ⟨hne, hgt⟩)

theorem capParallelism_nonzero (numCPU : Int) (p : Nat) (hn : 1 ≤ numCPU) (hp : p ≠ 0) :
    (capParallelism numCPU p : Int) = min (min (p : Int) numCPU) 255 ∧
      1 ≤ capParallelism numCPU p ∧ capParallelism numCPU p ≤ p ∧
      (capParallelism numCPU p : Int) ≤ numCPU := by
  unfold capParallelism uint8MaxValue
  simp only [hp, if_false]
  split_ifs with h1 h2 h2 <;> omega

theorem validateConfig_memory_error (numCPU : Int) (c : Config) :
    (validateConfig numCPU (some c)).2 = some ConfigError.ErrConfigMemoryExceedsMax ↔
      (if c.Memory = 0 then ArgonMaxMemory else c.Memory) >
        (if c.MaxMemory = 0 then ArgonMaxMemory else c.MaxMemory) := by
  rw [validateConfig_eq]
  by_cases h1 : (if c.Memory = 0 then ArgonMaxMemory else c.Memory) >
      (if c.MaxMemory = 0 then ArgonMaxMemory else c.MaxMemory)
  · rw [if_pos h1]
    exact ⟨fun _ => h1, fun _ => rfl⟩
  · rw [if_neg h1]
    by_cases h2 : c.Iterations ≠ 0 ∧ c.Iterations >
        (if c.MaxIterations = 0 then ArgonMaxIterations else c.MaxIterations)
    · rw [if_pos h2]
      exact ⟨fun h => (by cases h), fun h => absurd h h1⟩
    · rw [if_neg h2]
      exact ⟨fun h => (by cases h), fun h => absurd h h1⟩

/-! ## Hashing with a configuration -/

/-- What a successful `HashWithConfig` returns: the encoding of the key derived with the
fields of the configuration as they stand, and of the salt that was drawn; the call of the
primitive has returned, so Iterations, Parallelism and KeyLength are positive. -/
theorem HashWithConfig_ok (idKey : IDKey) (reader : RandReader) (P h : List Byte) (c : Config)
    (hh : HashWithConfig idKey reader P (some c) = some (h, none)) :
    ∃ salt, reader c.SaltLength = some salt ∧ salt ≠ [] ∧ P ≠ [] ∧
      1 ≤ c.Iterations ∧ 1 ≤ c.Parallelism ∧ c.KeyLength ≠ 0 ∧
      h = encodeArgonHashAsBytes
        (idKey P salt c.Iterations c.Memory c.Parallelism c.KeyLength) salt c.Memory
        c.Iterations c.Parallelism := by
  unfold HashWithConfig at hh
  rw [if_neg (by simp)] at hh
  by_cases hP : P = []
  · rw [if_pos hP] at hh
    cases hh
  · rw [if_neg hP] at hh
    unfold generateHashFromInputCustom generateSalt generateRandomBytes at hh
    cases hr : reader c.SaltLength with
    | none =>
      simp only [hr] at hh
      cases hh
    | some salt =>
      simp only [hr, sliceBytes, Option.getD_some] at hh
      cases hg : generateArgonHash idKey P salt c.Iterations c.Memory c.Parallelism
          c.KeyLength with
      | none =>
        simp only [hg] at hh
        cases hh
      | some o =>
        cases o with
        | none =>
          simp only [hg] at hh
          cases hh
        | some key =>
          obtain ⟨rfl, -, hs, ht, hp, hk⟩ := generateArgonHash_some _ _ _ _ _ _ _ _ hg
          simp only [hg, encode_length_ne_zero, if_false, Option.getD_some, Option.some.injEq,
            Prod.mk.injEq, and_true] at hh
          exact ⟨salt, rfl, hs, hP, ht, hp, hk, hh.symm⟩

/-! ## Password generation -/

theorem generateRandomPasswordLoop_err (rnd : RandInt) (charset : List Byte)
    (remaining i : Nat) (password : List Byte) (r : List Byte × Option ErrorValue)
    (h : generateRandomPasswordLoop rnd charset remaining i password = some r) :
    r.2 = none ∨ r.2 = some ErrorValue.RandomIndexError := by
  induction remaining generalizing i password with
  | zero =>
    simp only [generateRandomPasswordLoop, Option.some.injEq] at h
    subst h
    exact Or.inl rfl
  | succ k ih =>
    simp only [generateRandomPasswordLoop] at h
    split at h
    · cases h
    · split at h
      · simp only [Option.some.injEq] at h
        subst h
        exact Or.inr rfl
      · split at h
        · cases h
        · exact ih _ _ h

/-! ## Password generation with a source that returns indices within the charset -/

theorem generateRandomPasswordLoop_ok (rnd : RandInt) (charset : List Byte)
    (hr : ∀ i, ∃ k, rnd i charset.length = some k ∧ k < charset.length)
    (remaining i : Nat) (password : List Byte) :
    ∃ picked, generateRandomPasswordLoop rnd charset remaining i password =
        some (password ++ picked, none) ∧
      picked.length = remaining ∧ ∀ b ∈ picked, b ∈ charset := by
  induction remaining generalizing i password with
  | zero => exact ⟨[], by simp [generateRandomPasswordLoop], rfl, by simp⟩
  | succ n ih =>
    obtain ⟨k, hk, hlt⟩ := hr i
    have hne : ¬ charset.length = 0 := by omega
    obtain ⟨ch, hch⟩ : ∃ ch, charset.get? k = some ch :=
      ⟨charset.get ⟨k, hlt⟩, List.get?_eq_get hlt⟩
    obtain ⟨picked, h1, h2, h3⟩ := ih (i + 1) (password ++ [ch])
    refine ⟨ch :: picked, ?_, by simp [h2], ?_⟩
    · simp only [generateRandomPasswordLoop, if_neg hne, hk, hch, h1, List.append_assoc,
        List.singleton_append]
    · intro b hb
      rcases List.mem_cons.1 hb with rfl | hb
      · rw [List.get?_eq_get hlt] at hch
        cases hch
        exact List.get_mem charset k hlt
      · exact h3 b hb

/-! ## The runes of an ASCII string -/

theorem rangeRunes_ascii (s : List Byte) (h : ∀ b ∈ s, b.val < 128) (fuel : Nat)
    (hf : s.length ≤ fuel) : rangeRunes fuel s = s.map (fun b => b.val) := by
  induction s generalizing fuel with
  | nil => cases fuel <;> rfl
  | cons a s ih =>
    cases fuel with
    | zero => simp at hf
    | succ n =>
      have ha : a.val < 0x80 := h a (List.mem_cons_self a s)
      have e : decodeRune (a :: s) = (a.val, 1) := by
        simp only [decodeRune, if_pos ha]
      simp only [rangeRunes, e, List.drop_succ_cons, List.drop_zero, List.map_cons]
      rw [ih (fun b hb => h b (List.mem_cons_of_mem a hb)) n
        (by simp only [List.length_cons] at hf; omega)]

theorem runes_ascii (s : List Byte) (h : ∀ b ∈ s, b.val < 128) :
    runes s = s.map (fun b => b.val) :=
  rangeRunes_ascii s h s.length (Nat.le_refl _)

/-! ## Password validation -/

set_option maxRecDepth 100000

theorem numbers_contains (b : Byte) : numbers.contains b = true ↔ isDigit b := by
  revert b; decide

theorem uppercaseLetters_contains (b : Byte) :
    uppercaseLetters.contains b = true ↔ isUppercase b := by
  revert b; decide

theorem lowercaseLetters_contains (b : Byte) :
    lowercaseLetters.contains b = true ↔ isLowercase b := by
  revert b; decide

theorem isPunct_or_underscore (b : Byte) :
    (isPunct b || b.val == 95) = true ↔ isSpecial b := by
  revert b; decide

theorem stringsContainsAny_iff (s chars : List Byte) (P : Byte → Prop)
    (h : ∀ b, chars.contains b = true ↔ P b) :
    stringsContainsAny s chars = true ↔ ∃ b ∈ s, P b := by
  simp only [stringsContainsAny, List.any_eq_true, h]

theorem specialCharRegexMatchString_iff (s : List Byte) :
    specialCharRegexMatchString s = true ↔ ∃ b ∈ s, isSpecial b := by
  simp only [specialCharRegexMatchString, List.any_eq_true, isPunct_or_underscore]

theorem IsValid_iff (password : List Byte) :
    IsValid password = true ↔
      (passwordMinLength ≤ password.length ∧ password.length ≤ passwordMaxLength) ∧
      (∃ b ∈ password, isLowercase b) ∧ (∃ b ∈ password, isUppercase b) ∧
      (∃ b ∈ password, isDigit b) ∧ (∃ b ∈ password, isSpecial b) := by
  unfold IsValid
  by_cases hl : password.length < passwordMinLength ∨ password.length > passwordMaxLength
  · rw [if_pos hl]
    constructor
    · intro h; cases h
    · rintro ⟨⟨h1, h2⟩, -⟩
      omega
  · rw [if_neg hl]
    simp only [Bool.and_eq_true, stringsContainsAny_iff _ _ _ lowercaseLetters_contains,
      stringsContainsAny_iff _ _ _ uppercaseLetters_contains,
      stringsContainsAny_iff _ _ _ numbers_contains, specialCharRegexMatchString_iff]
    constructor
    · rintro ⟨⟨⟨a, b⟩, c⟩, d⟩
      exact ⟨⟨by omega, by omega⟩, a, b, c, d⟩
    · rintro ⟨-, a, b, c, d⟩
      exact ⟨⟨⟨a, b⟩, c⟩, d⟩

/-! ## The methods of `ConfigError` -/

theorem ConfigError_Unwrap_none (fuel : Nat) (e : ConfigErrorValue) :
    ConfigError.Unwrap fuel e = none := by
  induction fuel with
  | zero => rfl
  | succ n ih =>
    simp only [ConfigError.Unwrap, errorsUnwrap, ErrorObject.receiver, ih]

theorem ConfigError_Is_none (fuel : Nat) (e : ConfigErrorValue) (target : ErrorObject)
    (h : target ≠ ErrorObject.configStruct e) :
    ConfigError.Is fuel e (some target) = none := by
  induction fuel with
  | zero => rfl
  | succ n ih =>
    have hne : ¬ (target.comparable = true ∧ ErrorObject.configStruct e = target) :=
      fun hc => h hc.2.symm
    cases n with
    | zero => simp only [ConfigError.Is, errorsIs, errorsIsLoop]
    | succ k =>
      simp only [ConfigError.Is, errorsIs, errorsIsLoop, if_neg hne, ErrorObject.receiver] at ih ⊢
      simp only [ConfigError.Is, errorsIs, ih]

/-! ## Generated passwords, byte by byte -/

/-- With a non-empty charset, a length > 0 and a random source whose draws are indices
below `len(charset)`, `GeneratePasswordWithCharset` returns without error a password of
exactly `length` bytes, every byte of which is a byte of the charset; when the charset is
made of ASCII characters, every rune of the password is a rune of the charset. -/
theorem GeneratePasswordWithCharset_bytes (rnd : RandInt) (charset : List Byte) (length : Int)
    (hc : charset ≠ []) (hl : length > 0)
    (hr : ∀ i, ∃ k, rnd i charset.length = some k ∧ k < charset.length) :
    ∃ password, GeneratePasswordWithCharset rnd charset length = some (password, none) ∧
      (password.length : Int) = length ∧ (∀ b ∈ password, b ∈ charset) ∧
      ((∀ b ∈ charset, b.val < 128) → ∀ r ∈ runes password, r ∈ runes charset) := by
  obtain ⟨picked, h1, h2, h3⟩ := generateRandomPasswordLoop_ok rnd charset hr length.toNat 0 []
  refine ⟨picked, ?_, ?_, h3, ?_⟩
  · unfold GeneratePasswordWithCharset generateWithCharset generateRandomPassword
    rw [if_neg hc, if_neg (by omega), if_neg (by omega), if_neg (by omega), h1, List.nil_append]
  · rw [h2]
    omega
  · intro hascii r hmem
    rw [runes_ascii picked (fun b hb => hascii b (h3 b hb))] at hmem
    rw [runes_ascii charset hascii]
    obtain ⟨b, hb, rfl⟩ := List.mem_map.1 hmem
    exact List.mem_map.2 ⟨b, h3 b hb, rfl⟩

/-! # The claims -/

set_option maxRecDepth 100000

/-- C1. Round trip: for every salt and digest, every memory up to `ArgonMaxMemory`, every
iterations up to `ArgonMaxIterations` and every `uint8` parallelism (zero included),
decoding the encoding succeeds and returns exactly the five values that were encoded. -/
theorem decode_encode_roundtrip (digest salt : List Byte) (memory iterations parallelism : Nat)
    (hm : memory ≤ ArgonMaxMemory) (ht : iterations ≤ ArgonMaxIterations)
    (hp : parallelism ≤ 255) :
    decodeArgonHashBytes (encodeArgonHashAsBytes digest salt memory iterations parallelism) =
      some ⟨memory, iterations, parallelism, some salt, some digest, none⟩ :=
  decode_encode digest salt memory iterations parallelism hm ht hp

theorem decode_encode_roundtrip_witness :
    (524288 : Nat) ≤ ArgonMaxMemory ∧ (10 : Nat) ≤ ArgonMaxIterations ∧ (0 : Nat) ≤ 255 ∧
    decodeArgonHashBytes (encodeArgonHashAsBytes [104, 97, 115, 104] [115, 97, 108, 116]
      524288 10 0) =
      some ⟨524288, 10, 0, some [115, 97, 108, 116], some [104, 97, 115, 104], none⟩ :=
  ⟨by decide, by decide, by decide,
    decode_encode_roundtrip [104, 97, 115, 104] [115, 97, 108, 116] 524288 10 0
      (by decide) (by decide) (by decide)⟩

/-- C2. Verify after hash on the default path: with a derivation primitive that returns
`keyLen` bytes for a non-empty password and salt, a random source that returns the 16
requested bytes `salt`, and at least one CPU (`runtime.NumCPU()` is at least 1),
`HashPWBytes` of a non-empty password returns without error the hash `h` that encodes the
key derived from the password and `salt` with the default parameters, and `ComparePWBytes`
of the same password and `h` returns `(true, nil)`. -/
theorem verify_after_hash (idKey : IDKey) (reader : RandReader) (numCPU : Int)
    (P salt : List Byte) (hP : P ≠ []) (hcpu : 1 ≤ numCPU)
    (hread : reader ArgonSaltLength = some salt) (hsalt : salt.length = ArgonSaltLength)
    (hkey : ∀ pw s t m p k, pw ≠ [] → s ≠ [] → (idKey pw s t m p k).length = k) :
    ∃ h, HashPWBytes idKey reader numCPU P = some (some h, none) ∧
      h = encodeArgonHashAsBytes
        (idKey P salt ArgonIterations ArgonMemory (getArgonParallelism numCPU) ArgonKeyLength)
        salt ArgonMemory ArgonIterations (getArgonParallelism numCPU) ∧
      ComparePWBytes idKey P (some h) = some (true, none) := by
  have hsne : salt ≠ [] := by
    intro e
    rw [e] at hsalt
    exact absurd hsalt (by decide)
  have hPl : ¬ P.length = 0 := by simpa using hP
  have hpar := getArgonParallelism_pos numCPU hcpu
  have hg := generateArgonHash_ok idKey P salt ArgonIterations ArgonMemory
    (getArgonParallelism numCPU) ArgonKeyLength hP hsne (by decide) hpar (by decide)
  refine ⟨_, ?_, rfl, ?_⟩
  · unfold HashPWBytes generateHashFromInput generateSalt generateRandomBytes
    simp only [hread, sliceBytes, Option.getD_some, hPl, if_false, hg, encode_length_ne_zero]
  · unfold ComparePWBytes
    simp only
    rw [compare_of_decode idKey P _ _ hP
      (decode_encode _ salt ArgonMemory ArgonIterations (getArgonParallelism numCPU)
        (by decide) (by decide) (getArgonParallelism_le numCPU)) rfl]
    have hlen := hkey P salt ArgonIterations ArgonMemory (getArgonParallelism numCPU)
      ArgonKeyLength hP hsne
    simp only [sliceBytes, Option.getD_some, hlen]
    rw [if_neg (by decide)]
    have e : ArgonKeyLength % 2 ^ 32 = ArgonKeyLength := by decide
    simp only [e, hg, (constantTimeCompare_eq_one _ _).2 rfl, decide_True]

theorem verify_after_hash_witness :
    ∃ h, HashPWBytes sampleIDKey sampleReader 8 [112, 119] = some (some h, none) ∧
      h = encodeArgonHashAsBytes
        (sampleIDKey [112, 119] (List.replicate 16 7) ArgonIterations ArgonMemory
          (getArgonParallelism 8) ArgonKeyLength)
        (List.replicate 16 7) ArgonMemory ArgonIterations (getArgonParallelism 8) ∧
      ComparePWBytes sampleIDKey [112, 119] (some h) = some (true, none) :=
  verify_after_hash sampleIDKey sampleReader 8 [112, 119] (List.replicate 16 7) (by decide)
    (by decide) rfl (by decide) (by intro pw s t m p k _ _; simp [sampleIDKey])

/-- C3. For a non-empty password and a non-nil encoded input, `ComparePWBytes` returns
`(true, nil)` exactly when decoding succeeds and the digest derived from the password with
the decoded salt, iterations, memory and parallelism and with output length
`len(decoded digest)` (a `uint32`, so at most 4294967295) is non-nil and equal to the
decoded digest; and when decoding succeeds and the derived digest is non-nil but differs,
it returns `(false, nil)`. Where no digest is derived because the primitive panics on the
decoded values (iterations 0, parallelism 0 or an empty digest, with a non-empty salt),
`ComparePWBytes` does not return. -/
theorem compare_true_iff (idKey : IDKey) (password enc : List Byte) (hpw : password ≠ []) :
    (ComparePWBytes idKey password (some enc) = some (true, none) ↔
      ∃ r, decodeArgonHashBytes enc = some r ∧ r.err = none ∧
        (sliceBytes r.hash).length ≤ maxUint32 ∧
        generateArgonHash idKey password (sliceBytes r.salt) r.iterations r.memory
          r.parallelism (sliceBytes r.hash).length = some (some (sliceBytes r.hash))) ∧
    (∀ r computed, decodeArgonHashBytes enc = some r → r.err = none →
      (sliceBytes r.hash).length ≤ maxUint32 →
      generateArgonHash idKey password (sliceBytes r.salt) r.iterations r.memory
        r.parallelism (sliceBytes r.hash).length = some (some computed) →
      computed ≠ sliceBytes r.hash →
      ComparePWBytes idKey password (some enc) = some (false, none)) ∧
    (∀ r, decodeArgonHashBytes enc = some r → r.err = none →
      (sliceBytes r.hash).length ≤ maxUint32 → sliceBytes r.salt ≠ [] →
      (r.iterations = 0 ∨ r.parallelism = 0 ∨ sliceBytes r.hash = []) →
      ComparePWBytes idKey password (some enc) = none) := by
  have hmod : ∀ n : Nat, n ≤ maxUint32 → n % 2 ^ 32 = n := by
    intro n hn
    unfold maxUint32 at hn
    exact Nat.mod_eq_of_lt (by omega)
  refine ⟨⟨?_, ?_⟩, ?_, ?_⟩
  · intro h
    unfold ComparePWBytes at h
    simp only at h
    cases hdec : decodeArgonHashBytes enc with
    | none =>
      unfold compareArgonPasswordAndHash at h
      rw [if_neg (by simpa using hpw), hdec] at h
      cases h
    | some r =>
      cases herr : r.err with
      | some e =>
        rw [compare_of_decode_error idKey password enc r e hpw hdec herr] at h
        cases h
      | none =>
        rw [compare_of_decode idKey password enc r hpw hdec herr] at h
        split at h
        · cases h
        · rename_i hlen
          have hle : (sliceBytes r.hash).length ≤ maxUint32 := by omega
          rw [hmod _ hle] at h
          refine ⟨r, rfl, herr, hle, ?_⟩
          cases hg : generateArgonHash idKey password (sliceBytes r.salt) r.iterations
              r.memory r.parallelism (sliceBytes r.hash).length with
          | none => rw [hg] at h; cases h
          | some o =>
            cases o with
            | none => rw [hg] at h; cases h
            | some c =>
              rw [hg] at h
              simp only [Option.some.injEq, Prod.mk.injEq, decide_eq_true_eq, and_true] at h
              rw [(constantTimeCompare_eq_one _ _).1 h]
  · rintro ⟨r, hdec, herr, hle, hg⟩
    unfold ComparePWBytes
    simp only
    rw [compare_of_decode idKey password enc r hpw hdec herr, if_neg (by omega), hmod _ hle, hg]
    simp only [(constantTimeCompare_eq_one _ _).2 rfl, decide_True]
  · intro r computed hdec herr hle hg hne
    unfold ComparePWBytes
    simp only
    rw [compare_of_decode idKey password enc r hpw hdec herr, if_neg (by omega), hmod _ hle, hg]
    have : ¬ constantTimeCompare (sliceBytes r.hash) computed = 1 := by
      rw [constantTimeCompare_eq_one]
      exact fun e => hne e.symm
    simp only [this, decide_False]
  · intro r hdec herr hle hs hz
    unfold ComparePWBytes
    simp only
    rw [compare_of_decode idKey password enc r hpw hdec herr, if_neg (by omega), hmod _ hle,
      generateArgonHash_panic idKey password _ _ _ _ _ hpw hs
        (by simpa only [List.length_eq_zero] using hz)]

theorem compare_true_iff_witness :
    ([112, 119] : List Byte) ≠ [] ∧
    ComparePWBytes sampleIDKey [112, 119]
      (some (ascii "$argon2id$v=19$m=65536,t=3,p=4$c2FsdA$AgIC")) = some (true, none) ∧
    ComparePWBytes sampleIDKey [112, 119, 120]
      (some (ascii "$argon2id$v=19$m=65536,t=3,p=4$c2FsdA$AgIC")) = some (false, none) ∧
    ComparePWBytes sampleIDKey [112, 119]
      (some (ascii "$argon2id$v=19$m=65536,t=0,p=4$c2FsdA$AgIC")) = none :=
  ⟨by decide,
    (compare_true_iff sampleIDKey [112, 119] (ascii "$argon2id$v=19$m=65536,t=3,p=4$c2FsdA$AgIC")
      (by decide)).1.2
      ⟨⟨65536, 3, 4, some (ascii "salt"), some [2, 2, 2], none⟩, by decide, rfl, by decide,
        by decide⟩,
    (compare_true_iff sampleIDKey [112, 119, 120]
      (ascii "$argon2id$v=19$m=65536,t=3,p=4$c2FsdA$AgIC") (by decide)).2.1
      ⟨65536, 3, 4, some (ascii "salt"), some [2, 2, 2], none⟩ [3, 3, 3] (by decide) rfl
      (by decide) (by decide) (by decide),
    (compare_true_iff sampleIDKey [112, 119]
      (ascii "$argon2id$v=19$m=65536,t=0,p=4$c2FsdA$AgIC") (by decide)).2.2
      ⟨65536, 0, 4, some (ascii "salt"), some [2, 2, 2], none⟩ (by decide) rfl
      (by decide) (by decide) (by decide)⟩

/-- C4. Whatever the password and the hash argument (nil, empty, malformed or
well-formed), when `ComparePWBytes` returns a non-nil error its boolean is `false`; and
when `decodeArgonHashBytes` fails on the hash with error `e` (the password being
non-empty), `ComparePWBytes` returns `(false, e)`, not `(false, nil)`. -/
theorem compare_failure_is_false (idKey : IDKey) (password : List Byte)
    (hash : Option (List Byte)) :
    (∀ b e, ComparePWBytes idKey password hash = some (b, some e) → b = false) ∧
    (∀ enc r e, hash = some enc → password ≠ [] → decodeArgonHashBytes enc = some r →
      r.err = some e → ComparePWBytes idKey password hash = some (false, some e)) := by
  constructor
  · intro b e h
    unfold ComparePWBytes at h
    cases hash with
    | none => simp only [Option.some.injEq, Prod.mk.injEq] at h; exact h.1.symm
    | some enc => exact compare_error_false idKey password enc b e h
  · intro enc r e hh hpw hdec herr
    subst hh
    unfold ComparePWBytes
    exact compare_of_decode_error idKey password enc r e hpw hdec herr

theorem compare_failure_is_false_witness :
    ComparePWBytes sampleIDKey [112, 119] (some (ascii "not-a-valid-hash")) =
      some (false, some ErrInvalidHashFormat) :=
  (compare_failure_is_false sampleIDKey [112, 119] (some (ascii "not-a-valid-hash"))).2
    (ascii "not-a-valid-hash") (decodeFail ErrInvalidHashFormat) ErrInvalidHashFormat rfl
    (by decide) (by decide) rfl

/-- C5. Denial-of-service bound on success: for every input that `decodeArgonHashBytes`
accepts, the returned memory is at most `ArgonMaxMemory` (524288) and the returned
iterations at most `ArgonMaxIterations` (10). -/
theorem decode_within_limits (s : List Byte) (r : DecodeResult)
    (h : decodeArgonHashBytes s = some r) (herr : r.err = none) :
    r.memory ≤ ArgonMaxMemory ∧ r.iterations ≤ ArgonMaxIterations ∧
      ArgonMaxMemory = 524288 ∧ ArgonMaxIterations = 10 := by
  obtain ⟨f0, f1, f2, f3, f4, f5, V, m, t, p, salt, hash, -, -, -, -, hpar, -, -, rfl⟩ :=
    decode_success s r h herr
  obtain ⟨D1, D2, D3, -, -, -, -, -, -, -, -, -, -, hm, ht, -⟩ := decodeParams_ok f3 m t p hpar
  exact ⟨hm, ht, rfl, rfl⟩

theorem decode_within_limits_witness :
    (65536 : Nat) ≤ ArgonMaxMemory ∧ (3 : Nat) ≤ ArgonMaxIterations ∧
      ArgonMaxMemory = 524288 ∧ ArgonMaxIterations = 10 :=
  decode_within_limits (ascii "$argon2id$v=19$m=65536,t=3,p=4$c2FsdA$aGFzaA")
    ⟨65536, 3, 4, some (ascii "salt"), some (ascii "hash"), none⟩ (by decide) rfl

/-- C6 as stated fails: the encoding `$argon2id$v=19$m=4294967296,t=3,p=4$c2FsdA$aGFzaA` has
six fields, the tag `argon2id`, `v=19`, valid `t` and `p` sub-fields, valid base64 fields
and an `m=` sub-field of ten digits denoting 4294967296 > 524288, and
`decodeArgonHashBytes` fails on it with `ErrIntegerOverflow`, not `ErrInvalidParams`. -/
theorem memory_limit_counterexample :
    (∀ d ∈ ascii "4294967296", isDigit d) ∧
    digitsValue (ascii "4294967296") > ArgonMaxMemory ∧
    decodeArgonHashBytes (ascii "$argon2id$v=19$m=4294967296,t=3,p=4$c2FsdA$aGFzaA") =
      some (decodeFail ErrIntegerOverflow) ∧
    (decodeFail ErrIntegerOverflow).err ≠ some ErrInvalidParams := by
  decide

/-- C6, amended. For every encoding of six fields with the tag `argon2id`, an accepted
version field, and a parameter field `m=` D1 `,t=` D2 `,p=` D3 of three non-empty digit
runs with value(D2) at most 10, value(D3) at most 255 and value(D1) greater than
`ArgonMaxMemory` (524288), `decodeArgonHashBytes` fails: with `ErrInvalidParams` when
value(D1) is at most 4294967295, and with `ErrIntegerOverflow` when it is larger. -/
theorem memory_limit_enforced (s f0 f4 f5 V D1 D2 D3 : List Byte)
    (hsplit : bytesSplit s dollarSignByte =
      [f0, argon2idBytes, vEqualsBytes ++ V,
        mEqualsBytes ++ D1 ++ commaTEqualsBytes ++ D2 ++ commaPEqualsBytes ++ D3, f4, f5])
    (hV : parseUint32FromBytes V = .ok argon2Version)
    (h1 : D1 ≠ []) (hd1 : ∀ d ∈ D1, isDigit d)
    (h2 : D2 ≠ []) (hd2 : ∀ d ∈ D2, isDigit d)
    (h3 : D3 ≠ []) (hd3 : ∀ d ∈ D3, isDigit d)
    (ht : digitsValue D2 ≤ ArgonMaxIterations) (hp : digitsValue D3 ≤ 255)
    (hm : digitsValue D1 > ArgonMaxMemory) :
    (digitsValue D1 ≤ 4294967295 →
      decodeArgonHashBytes s = some (decodeFail ErrInvalidParams)) ∧
    (digitsValue D1 > 4294967295 →
      decodeArgonHashBytes s = some (decodeFail ErrIntegerOverflow)) := by
  rw [decode_fields s _ _ _ _ _ _ V hsplit rfl rfl hV,
    decodeParams_wellformed D1 D2 D3 h1 hd1 h2 hd2 h3 hd3]
  simp only [ArgonMaxMemory, ArgonMaxIterations, maxUint32] at ht hm ⊢
  constructor
  · intro hle
    rw [if_neg (by omega), if_neg (by omega), if_neg (by omega), if_neg (by omega),
      if_pos (by omega)]
  · intro hgt
    rw [if_pos (by omega)]

theorem memory_limit_enforced_witness :
    decodeArgonHashBytes (ascii "$argon2id$v=19$m=524289,t=3,p=4$c2FsdA$aGFzaA") =
      some (decodeFail ErrInvalidParams) :=
  (memory_limit_enforced (ascii "$argon2id$v=19$m=524289,t=3,p=4$c2FsdA$aGFzaA") []
    (ascii "c2FsdA") (ascii "aGFzaA") (ascii "19") (ascii "524289") (ascii "3") (ascii "4")
    (by decide) (by decide) (by decide) (by decide) (by decide) (by decide) (by decide)
    (by decide) (by decide) (by decide) (by decide)).1 (by decide)

/-- C7. `decodeArgonHashBytes` never panics: on every byte sequence each index expression
`parts[1]` .. `parts[5]` and each slice expression (`versionBytes[:2]`, `versionBytes[2:]`,
`paramBytes[2:tPos]`, `paramBytes[tPos+3:pPos]`, `paramBytes[pPos+3:]`, `salt[:n]`,
`hash[:n]`) is within bounds, so the function returns, with a result or with an error. -/
theorem decode_never_panics (s : List Byte) :
    ∃ r, decodeArgonHashBytes s = some r ∧ (r.err = none ∨ ∃ e, r.err = some e) := by
  cases h : decodeArgonHashBytes s with
  | none => exact absurd h (decode_ne_none s)
  | some r =>
    refine ⟨r, rfl, ?_⟩
    cases r.err with
    | none => exact Or.inl rfl
    | some e => exact Or.inr ⟨e, rfl⟩

/-- C8. `parseUint32FromBytes` is an exact, overflow-checked decimal parser: on a
non-empty run of ASCII digits (leading zeros and any length allowed) of value N it
returns `(N, nil)` when N is at most 4294967295 and fails with `ErrIntegerOverflow`
otherwise; whatever the input, a value it returns is the value of the input, never a
wrapped one; it accepts `"0"` and `"4294967295"`, rejects `"4294967296"`, and parses the
minimal decimal rendering of every `uint32` back to that number. -/
theorem parse_exact :
    (∀ b : List Byte, b ≠ [] → (∀ d ∈ b, isDigit d) →
      (digitsValue b ≤ 4294967295 → parseUint32FromBytes b = .ok (digitsValue b)) ∧
      (digitsValue b > 4294967295 → parseUint32FromBytes b = .error ErrIntegerOverflow)) ∧
    (∀ (b : List Byte) (v : Nat), parseUint32FromBytes b = .ok v →
      v = digitsValue b ∧ v ≤ 4294967295) ∧
    parseUint32FromBytes (ascii "0") = .ok 0 ∧
    parseUint32FromBytes (ascii "4294967295") = .ok 4294967295 ∧
    parseUint32FromBytes (ascii "4294967296") = .error ErrIntegerOverflow ∧
    (∀ n : Nat, n ≤ 4294967295 → parseUint32FromBytes (appendUint [] n) = .ok n) := by
  refine ⟨?_, ?_, by decide, by decide, by decide, ?_⟩
  · intro b hne hd
    rw [parseUint32FromBytes_digits b hne hd]
    unfold maxUint32
    constructor
    · intro h; rw [if_pos h]
    · intro h; rw [if_neg (by omega)]
  · intro b v h
    obtain ⟨-, -, h1, h2⟩ := parseUint32FromBytes_ok b v h
    exact ⟨h1, h2⟩
  · intro n hn
    exact parseUint32FromBytes_appendUint n hn

theorem parse_exact_witness :
    parseUint32FromBytes (ascii "0000000000042") = .ok 42 ∧
    parseUint32FromBytes (ascii "99999999999") = .error ErrIntegerOverflow ∧
    parseUint32FromBytes (appendUint [] 4294967295) = .ok 4294967295 :=
  ⟨(parse_exact.1 (ascii "0000000000042") (by decide) (by decide)).1 (by decide),
    (parse_exact.1 (ascii "99999999999") (by decide) (by decide)).2 (by decide),
    parse_exact.2.2.2.2.2 4294967295 (by decide)⟩

/-- C9. Parameter-field grammar: for an input of six fields with the tag `argon2id`, an
accepted version field and salt and digest fields that decode as unpadded base64,
`decodeArgonHashBytes` succeeds if and only if the parameter field is exactly `m=` D1
`,t=` D2 `,p=` D3 with D1, D2, D3 non-empty runs of ASCII digits of values at most 524288,
10 and 255; and then the returned memory, iterations and parallelism are those values. -/
theorem params_grammar (s f0 f3 f4 f5 V salt digest : List Byte)
    (hsplit : bytesSplit s dollarSignByte =
      [f0, argon2idBytes, vEqualsBytes ++ V, f3, f4, f5])
    (hV : parseUint32FromBytes V = .ok argon2Version)
    (h4 : base64Decode f4 = .ok salt) (h5 : base64Decode f5 = .ok digest) :
    ((∃ r, decodeArgonHashBytes s = some r ∧ r.err = none) ↔
      ∃ D1 D2 D3,
        f3 = mEqualsBytes ++ D1 ++ commaTEqualsBytes ++ D2 ++ commaPEqualsBytes ++ D3 ∧
        D1 ≠ [] ∧ (∀ d ∈ D1, isDigit d) ∧ D2 ≠ [] ∧ (∀ d ∈ D2, isDigit d) ∧
        D3 ≠ [] ∧ (∀ d ∈ D3, isDigit d) ∧
        digitsValue D1 ≤ 524288 ∧ digitsValue D2 ≤ 10 ∧ digitsValue D3 ≤ 255) ∧
    (∀ D1 D2 D3,
      f3 = mEqualsBytes ++ D1 ++ commaTEqualsBytes ++ D2 ++ commaPEqualsBytes ++ D3 →
      D1 ≠ [] → (∀ d ∈ D1, isDigit d) → D2 ≠ [] → (∀ d ∈ D2, isDigit d) →
      D3 ≠ [] → (∀ d ∈ D3, isDigit d) →
      digitsValue D1 ≤ 524288 → digitsValue D2 ≤ 10 → digitsValue D3 ≤ 255 →
      decodeArgonHashBytes s =
        some ⟨digitsValue D1, digitsValue D2, digitsValue D3, some salt, some digest, none⟩) := by
  have e4 : decodeBase64Field f4 = some (.ok salt) := (decodeBase64Field_ok _ _).2 h4
  have e5 : decodeBase64Field f5 = some (.ok digest) := (decodeBase64Field_ok _ _).2 h5
  have main : ∀ D1 D2 D3,
      f3 = mEqualsBytes ++ D1 ++ commaTEqualsBytes ++ D2 ++ commaPEqualsBytes ++ D3 →
      D1 ≠ [] → (∀ d ∈ D1, isDigit d) → D2 ≠ [] → (∀ d ∈ D2, isDigit d) →
      D3 ≠ [] → (∀ d ∈ D3, isDigit d) →
      digitsValue D1 ≤ 524288 → digitsValue D2 ≤ 10 → digitsValue D3 ≤ 255 →
      decodeArgonHashBytes s =
        some ⟨digitsValue D1, digitsValue D2, digitsValue D3, some salt, some digest, none⟩ := by
    intro D1 D2 D3 hf n1 d1 n2 d2 n3 d3 b1 b2 b3
    rw [decode_fields s _ _ _ _ _ _ V hsplit rfl rfl hV, hf,
      decodeParams_wellformed D1 D2 D3 n1 d1 n2 d2 n3 d3]
    simp only [ArgonMaxMemory, ArgonMaxIterations, maxUint32]
    rw [if_neg (by omega), if_neg (by omega), if_neg (by omega), if_neg (by omega),
      if_neg (by omega), if_neg (by omega)]
    simp only [e4, e5]
  refine ⟨⟨?_, ?_⟩, main⟩
  · rintro ⟨r, hdec, herr⟩
    obtain ⟨g0, g1, g2, g3, g4, g5, W, m, t, p, sl, hs, hsp, -, -, -, hpar, -, -, -⟩ :=
      decode_success s r hdec herr
    rw [hsplit] at hsp
    simp only [List.cons.injEq, and_true] at hsp
    obtain ⟨-, -, -, rfl, -, -⟩ := hsp
    obtain ⟨D1, D2, D3, hf, n1, d1, n2, d2, n3, d3, rfl, rfl, rfl, b1, b2, b3⟩ :=
      decodeParams_ok f3 m t p hpar
    exact ⟨D1, D2, D3, hf, n1, d1, n2, d2, n3, d3, b1, b2, b3⟩
  · rintro ⟨D1, D2, D3, hf, n1, d1, n2, d2, n3, d3, b1, b2, b3⟩
    exact ⟨_, main D1 D2 D3 hf n1 d1 n2 d2 n3 d3 b1 b2 b3, rfl⟩

theorem params_grammar_witness :
    decodeArgonHashBytes (ascii "$argon2id$v=19$m=0065536,t=10,p=255$c2FsdA$aGFzaA") =
      some ⟨65536, 10, 255, some (ascii "salt"), some (ascii "hash"), none⟩ :=
  (params_grammar (ascii "$argon2id$v=19$m=0065536,t=10,p=255$c2FsdA$aGFzaA") []
    (ascii "m=0065536,t=10,p=255") (ascii "c2FsdA") (ascii "aGFzaA") (ascii "19")
    (ascii "salt") (ascii "hash") (by decide) (by decide) (by decide) (by decide)).2
    (ascii "0065536") (ascii "10") (ascii "255") (by decide) (by decide) (by decide)
    (by decide) (by decide) (by decide) (by decide) (by decide) (by decide) (by decide)

/-- C10 fails on the code: `decodeArgonHashBytes` never looks at the first field. The
input `x$argon2id$v=19$m=65536,t=3,p=4$c2FsdA$aGFzaA`, whose first field is `x` and which
does not begin with `$argon2id$v=`, is accepted, with the same results as the encoding
without the leading `x`. -/
theorem leading_field_unchecked :
    decodeArgonHashBytes (ascii "x$argon2id$v=19$m=65536,t=3,p=4$c2FsdA$aGFzaA") =
      some ⟨65536, 3, 4, some (ascii "salt"), some (ascii "hash"), none⟩ ∧
    (bytesSplit (ascii "x$argon2id$v=19$m=65536,t=3,p=4$c2FsdA$aGFzaA") dollarSignByte).head? =
      some (ascii "x") ∧
    argonAlgoAndVersionPrefixBytes.isPrefixOf
      (ascii "x$argon2id$v=19$m=65536,t=3,p=4$c2FsdA$aGFzaA") = false := by
  decide

/-- C11 as stated fails: `$argon2id$v=19$m=065536,t=3,p=4$c2FsdA$aGFzaA` (a leading zero in
the memory) and `$argon2id$v=19$m=65536,t=3,p=4$c2FsdB$aGFzaA` (stray low bits in the last
character of the salt field) are both accepted, with memory 65536, iterations 3,
parallelism 4, salt `salt` and digest `hash`, and the encoding of these five values is
neither of the two inputs. -/
theorem reencode_counterexample :
    decodeArgonHashBytes (ascii "$argon2id$v=19$m=065536,t=3,p=4$c2FsdA$aGFzaA") =
      some ⟨65536, 3, 4, some (ascii "salt"), some (ascii "hash"), none⟩ ∧
    encodeArgonHashAsBytes (ascii "hash") (ascii "salt") 65536 3 4 ≠
      ascii "$argon2id$v=19$m=065536,t=3,p=4$c2FsdA$aGFzaA" ∧
    decodeArgonHashBytes (ascii "$argon2id$v=19$m=65536,t=3,p=4$c2FsdB$aGFzaA") =
      some ⟨65536, 3, 4, some (ascii "salt"), some (ascii "hash"), none⟩ ∧
    encodeArgonHashAsBytes (ascii "hash") (ascii "salt") 65536 3 4 ≠
      ascii "$argon2id$v=19$m=65536,t=3,p=4$c2FsdB$aGFzaA" := by
  decide

/-- C11, amended. For every byte sequence `s` that `decodeArgonHashBytes` accepts, the
encoding of the five returned values is accepted too and decodes to the same five values;
and it equals `s` byte for byte when `s` is in canonical form: `$argon2id$v=`, the version
and the three parameter numbers as non-empty digit runs without leading zeros, and the
salt and digest fields equal to the unpadded base64 encodings of the decoded salt and
digest. -/
theorem reencode_canonical (s : List Byte) (r : DecodeResult)
    (h : decodeArgonHashBytes s = some r) (herr : r.err = none) :
    decodeArgonHashBytes (encodeArgonHashAsBytes (sliceBytes r.hash) (sliceBytes r.salt)
      r.memory r.iterations r.parallelism) = some r ∧
    (∀ V D1 D2 D3 : List Byte,
      V ≠ [] → (∀ d ∈ V, isDigit d) → noLeadingZero V →
      D1 ≠ [] → (∀ d ∈ D1, isDigit d) → noLeadingZero D1 →
      D2 ≠ [] → (∀ d ∈ D2, isDigit d) → noLeadingZero D2 →
      D3 ≠ [] → (∀ d ∈ D3, isDigit d) → noLeadingZero D3 →
      s = argonAlgoAndVersionPrefixBytes ++ V ++ dollarMEqualsBytes ++ D1 ++
        commaTEqualsBytes ++ D2 ++ commaPEqualsBytes ++ D3 ++ [dollarSignByte] ++
        base64Encode (sliceBytes r.salt) ++ [dollarSignByte] ++
        base64Encode (sliceBytes r.hash) →
      encodeArgonHashAsBytes (sliceBytes r.hash) (sliceBytes r.salt) r.memory r.iterations
        r.parallelism = s) := by
  constructor
  · obtain ⟨f0, f1, f2, f3, f4, f5, V, m, t, p, salt, hash, -, -, -, -, hpar, -, -, rfl⟩ :=
      decode_success s r h herr
    obtain ⟨D1, D2, D3, -, -, -, -, -, -, -, -, -, -, hm, ht, hp⟩ :=
      decodeParams_ok f3 m t p hpar
    exact decode_encode hash salt m t p hm ht hp
  · intro V D1 D2 D3 nV dV zV n1 d1 z1 n2 d2 z2 n3 d3 z3 hs
    exact reencode_of_canonical s r h herr V D1 D2 D3 nV dV zV n1 d1 z1 n2 d2 z2 n3 d3 z3 hs

theorem reencode_canonical_witness :
    decodeArgonHashBytes (encodeArgonHashAsBytes (ascii "hash") (ascii "salt") 65536 3 4) =
      some ⟨65536, 3, 4, some (ascii "salt"), some (ascii "hash"), none⟩ ∧
    encodeArgonHashAsBytes (ascii "hash") (ascii "salt") 65536 3 4 =
      ascii "$argon2id$v=19$m=65536,t=3,p=4$c2FsdA$aGFzaA" :=
  ⟨(reencode_canonical (ascii "$argon2id$v=19$m=065536,t=3,p=4$c2FsdB$aGFzaA")
      ⟨65536, 3, 4, some (ascii "salt"), some (ascii "hash"), none⟩ (by decide) rfl).1,
    (reencode_canonical (ascii "$argon2id$v=19$m=65536,t=3,p=4$c2FsdA$aGFzaA")
      ⟨65536, 3, 4, some (ascii "salt"), some (ascii "hash"), none⟩ (by decide) rfl).2
      (ascii "19") (ascii "65536") (ascii "3") (ascii "4")
      (by decide) (by decide) (by decide) (by decide) (by decide) (by decide)
      (by decide) (by decide) (by decide) (by decide) (by decide) (by decide) (by decide)⟩

/-- C12 as stated fails: the first 42 bytes of the 44-byte encoding
`$argon2id$v=19$m=65536,t=3,p=4$c2FsdA$aGFzaA` are a proper prefix of it, and
`decodeArgonHashBytes` accepts them, with the three bytes of `has` as digest. -/
theorem truncation_counterexample :
    (encodeArgonHashAsBytes (ascii "hash") (ascii "salt") 65536 3 4).length = 44 ∧
    (encodeArgonHashAsBytes (ascii "hash") (ascii "salt") 65536 3 4).take 42 =
      ascii "$argon2id$v=19$m=65536,t=3,p=4$c2FsdA$aGFz" ∧
    decodeArgonHashBytes
      ((encodeArgonHashAsBytes (ascii "hash") (ascii "salt") 65536 3 4).take 42) =
      some ⟨65536, 3, 4, some (ascii "salt"), some (ascii "has"), none⟩ := by
  decide

/-- C12, amended. Let `e` be an encoding with memory at most 524288 and iterations at most
10, and `e'` its proper prefix of length `n`. When `e'` ends before the last `$` of `e`,
`decodeArgonHashBytes e'` fails with `ErrInvalidHashFormat`. When `e'` keeps the last
`$` and `j` characters of the digest field, it fails with a base64 decode error if `j`
is 1 modulo 4, and otherwise it is accepted, with the memory, iterations, parallelism
and salt of `e` and the digest that the kept characters decode to. -/
theorem truncation (digest salt : List Byte) (memory iterations parallelism n : Nat)
    (hm : memory ≤ ArgonMaxMemory) (ht : iterations ≤ ArgonMaxIterations)
    (hp : parallelism ≤ 255)
    (hn : n < (encodeArgonHashAsBytes digest salt memory iterations parallelism).length) :
    (n + (base64Encode digest).length <
        (encodeArgonHashAsBytes digest salt memory iterations parallelism).length →
      decodeArgonHashBytes
        ((encodeArgonHashAsBytes digest salt memory iterations parallelism).take n) =
        some (decodeFail ErrInvalidHashFormat)) ∧
    ((encodeArgonHashAsBytes digest salt memory iterations parallelism).length ≤
        n + (base64Encode digest).length →
      (n + (base64Encode digest).length -
        (encodeArgonHashAsBytes digest salt memory iterations parallelism).length) % 4 = 1 →
      ∃ off, decodeArgonHashBytes
        ((encodeArgonHashAsBytes digest salt memory iterations parallelism).take n) =
        some (decodeFail (Base64DecodeError off))) ∧
    ((encodeArgonHashAsBytes digest salt memory iterations parallelism).length ≤
        n + (base64Encode digest).length →
      (n + (base64Encode digest).length -
        (encodeArgonHashAsBytes digest salt memory iterations parallelism).length) % 4 ≠ 1 →
      ∃ d, decodeArgonHashBytes
        ((encodeArgonHashAsBytes digest salt memory iterations parallelism).take n) =
        some ⟨memory, iterations, parallelism, some salt, some d, none⟩) := by
  have halpha : ∀ j, ∀ c ∈ (base64Encode digest).take j, c ∈ encodeStd :=
    fun j c hc => base64Encode_alphabet digest c (List.mem_of_mem_take hc)
  refine ⟨decode_take_head digest salt memory iterations parallelism n, ?_, ?_⟩
  · intro hle hmod
    rw [decode_take_tail digest salt memory iterations parallelism n hm ht hp hle]
    obtain ⟨i1, -⟩ := decodeBase64Field_alphabet _ (halpha (n + (base64Encode digest).length -
      (encodeArgonHashAsBytes digest salt memory iterations parallelism).length))
    rw [List.length_take, Nat.min_eq_left (by omega)] at i1
    obtain ⟨off, ho⟩ := i1 hmod
    exact ⟨off, by rw [ho]⟩
  · intro hle hmod
    rw [decode_take_tail digest salt memory iterations parallelism n hm ht hp hle]
    obtain ⟨-, i2⟩ := decodeBase64Field_alphabet _ (halpha (n + (base64Encode digest).length -
      (encodeArgonHashAsBytes digest salt memory iterations parallelism).length))
    rw [List.length_take, Nat.min_eq_left (by omega)] at i2
    obtain ⟨d, hd⟩ := i2 hmod
    exact ⟨d, by rw [hd]⟩

theorem truncation_witness :
    decodeArgonHashBytes
      ((encodeArgonHashAsBytes (ascii "hash") (ascii "salt") 65536 3 4).take 37) =
      some (decodeFail ErrInvalidHashFormat) ∧
    (∃ off, decodeArgonHashBytes
      ((encodeArgonHashAsBytes (ascii "hash") (ascii "salt") 65536 3 4).take 43) =
      some (decodeFail (Base64DecodeError off))) :=
  ⟨(truncation (ascii "hash") (ascii "salt") 65536 3 4 37 (by decide) (by decide) (by decide)
      (by decide)).1 (by decide),
    (truncation (ascii "hash") (ascii "salt") 65536 3 4 43 (by decide) (by decide) (by decide)
      (by decide)).2.1 (by decide) (by decide)⟩

/-- C13. For every input whose number of `$` bytes is not exactly 5, so that splitting on
`$` does not give exactly 6 fields, `decodeArgonHashBytes` fails with
`ErrInvalidHashFormat` whatever the other bytes are; and `ComparePWBytes` with a non-empty
password and such a non-nil hash returns `(false, ErrInvalidHashFormat)`. -/
theorem wrong_field_count (idKey : IDKey) (s : List Byte) (h : s.count dollarSignByte ≠ 5) :
    (bytesSplit s dollarSignByte).length ≠ ArgonEncodedPartCount ∧
    decodeArgonHashBytes s = some (decodeFail ErrInvalidHashFormat) ∧
    (∀ password : List Byte, password ≠ [] →
      ComparePWBytes idKey password (some s) = some (false, some ErrInvalidHashFormat)) := by
  have hlen : (bytesSplit s dollarSignByte).length ≠ 6 := by
    rw [bytesSplit_length]
    omega
  have hdec := decode_of_count_ne s hlen
  refine ⟨hlen, hdec, ?_⟩
  intro password hpw
  unfold ComparePWBytes
  exact compare_of_decode_error idKey password s _ ErrInvalidHashFormat hpw hdec rfl

theorem wrong_field_count_witness :
    (ascii "not-a-valid-hash").count dollarSignByte ≠ 5 ∧
    decodeArgonHashBytes (ascii "not-a-valid-hash") = some (decodeFail ErrInvalidHashFormat) ∧
    ComparePWBytes sampleIDKey (ascii "password") (some (ascii "not-a-valid-hash")) =
      some (false, some ErrInvalidHashFormat) :=
  ⟨by decide,
    (wrong_field_count sampleIDKey (ascii "not-a-valid-hash") (by decide)).2.1,
    (wrong_field_count sampleIDKey (ascii "not-a-valid-hash") (by decide)).2.2
      (ascii "password") (by decide)⟩

/-- C14. For every input that splits into exactly 6 fields and whose field 1 is not byte
for byte `argon2id`, `decodeArgonHashBytes` fails with `ErrUnsupportedAlgorithm`,
whatever the remaining fields contain. -/
theorem wrong_algorithm_tag (s f0 f1 f2 f3 f4 f5 : List Byte)
    (hsplit : bytesSplit s dollarSignByte = [f0, f1, f2, f3, f4, f5])
    (htag : f1 ≠ argon2idBytes) :
    decodeArgonHashBytes s = some (decodeFail ErrUnsupportedAlgorithm) :=
  decode_of_tag_ne s f0 f1 f2 f3 f4 f5 hsplit htag

theorem wrong_algorithm_tag_witness :
    decodeArgonHashBytes (ascii "$argon2i$v=19$m=65536,t=3,p=4$c2FsdA$aGFzaA") =
      some (decodeFail ErrUnsupportedAlgorithm) ∧
    decodeArgonHashBytes (ascii "$Argon2id$v=19$m=65536,t=3,p=4$c2FsdA$aGFzaA") =
      some (decodeFail ErrUnsupportedAlgorithm) ∧
    decodeArgonHashBytes (ascii "$$garbage$$$") = some (decodeFail ErrUnsupportedAlgorithm) :=
  ⟨wrong_algorithm_tag (ascii "$argon2i$v=19$m=65536,t=3,p=4$c2FsdA$aGFzaA") [] (ascii "argon2i")
      (ascii "v=19") (ascii "m=65536,t=3,p=4") (ascii "c2FsdA") (ascii "aGFzaA")
      (by decide) (by decide),
    wrong_algorithm_tag (ascii "$Argon2id$v=19$m=65536,t=3,p=4$c2FsdA$aGFzaA") []
      (ascii "Argon2id") (ascii "v=19") (ascii "m=65536,t=3,p=4") (ascii "c2FsdA")
      (ascii "aGFzaA") (by decide) (by decide),
    wrong_algorithm_tag (ascii "$$garbage$$$") [] [] (ascii "garbage") [] [] []
      (by decide) (by decide)⟩

/-- C15 as stated fails: the input `$argon2id$v=4294967296$m=65536,t=3,p=4$c2FsdA$aGFzaA`
has six fields, the tag `argon2id` and a version field `v=` followed by ten digits
denoting 4294967296, a number other than 19, and `decodeArgonHashBytes` fails on it with
`ErrIntegerOverflow`, not `ErrInvalidVersion`. -/
theorem wrong_version_counterexample :
    (∀ d ∈ ascii "4294967296", isDigit d) ∧
    digitsValue (ascii "4294967296") ≠ 19 ∧
    decodeArgonHashBytes (ascii "$argon2id$v=4294967296$m=65536,t=3,p=4$c2FsdA$aGFzaA") =
      some (decodeFail ErrIntegerOverflow) ∧
    (decodeFail ErrIntegerOverflow).err ≠ some ErrInvalidVersion := by
  decide

/-- C15, amended. For every six-field input with the tag `argon2id` whose version field is
`v=` followed by a non-empty run of ASCII digits denoting a number other than 19,
`decodeArgonHashBytes` fails: with `ErrInvalidVersion` when the number is at most
4294967295, and with `ErrIntegerOverflow` when it is larger. -/
theorem wrong_version (s f0 f3 f4 f5 V : List Byte)
    (hsplit : bytesSplit s dollarSignByte =
      [f0, argon2idBytes, vEqualsBytes ++ V, f3, f4, f5])
    (hV : V ≠ []) (hd : ∀ d ∈ V, isDigit d) (hne : digitsValue V ≠ 19) :
    (digitsValue V ≤ 4294967295 →
      decodeArgonHashBytes s = some (decodeFail ErrInvalidVersion)) ∧
    (digitsValue V > 4294967295 →
      decodeArgonHashBytes s = some (decodeFail ErrIntegerOverflow)) := by
  obtain ⟨herr, hok⟩ := decode_of_version s f0 f3 f4 f5 V hsplit hV
  have hp := parseUint32FromBytes_digits V hV hd
  unfold maxUint32 at hp
  constructor
  · intro hle
    rw [if_pos hle] at hp
    exact hok _ hp hne
  · intro hgt
    rw [if_neg (by omega)] at hp
    exact herr _ hp

theorem wrong_version_witness :
    decodeArgonHashBytes (ascii "$argon2id$v=16$m=65536,t=3,p=4$c2FsdA$aGFzaA") =
      some (decodeFail ErrInvalidVersion) ∧
    decodeArgonHashBytes (ascii "$argon2id$v=99999999999$m=65536,t=3,p=4$c2FsdA$aGFzaA") =
      some (decodeFail ErrIntegerOverflow) :=
  ⟨(wrong_version (ascii "$argon2id$v=16$m=65536,t=3,p=4$c2FsdA$aGFzaA") []
      (ascii "m=65536,t=3,p=4") (ascii "c2FsdA") (ascii "aGFzaA") (ascii "16")
      (by decide) (by decide) (by decide) (by decide)).1 (by decide),
    (wrong_version (ascii "$argon2id$v=99999999999$m=65536,t=3,p=4$c2FsdA$aGFzaA") []
      (ascii "m=65536,t=3,p=4") (ascii "c2FsdA") (ascii "aGFzaA") (ascii "99999999999")
      (by decide) (by decide) (by decide) (by decide)).2 (by decide)⟩

/-- C16. No partial results on failure: on every input on which `decodeArgonHashBytes`
returns a non-nil error, the other five results are zero values: memory, iterations and
parallelism are 0, and salt and digest are `nil`. -/
theorem no_partial_results (s : List Byte) (r : DecodeResult) (e : GoError)
    (h : decodeArgonHashBytes s = some r) (herr : r.err = some e) :
    r.memory = 0 ∧ r.iterations = 0 ∧ r.parallelism = 0 ∧ r.salt = none ∧ r.hash = none := by
  have hr := decode_failure s r e h herr
  subst hr
  exact ⟨rfl, rfl, rfl, rfl, rfl⟩

theorem no_partial_results_witness :
    (decodeFail (Base64DecodeError 4)).memory = 0 ∧
    (decodeFail (Base64DecodeError 4)).iterations = 0 ∧
    (decodeFail (Base64DecodeError 4)).parallelism = 0 ∧
    (decodeFail (Base64DecodeError 4)).salt = none ∧
    (decodeFail (Base64DecodeError 4)).hash = none :=
  no_partial_results (ascii "$argon2id$v=19$m=65536,t=3,p=4$c2FsdA$aGFza")
    (decodeFail (Base64DecodeError 4)) (Base64DecodeError 4) (by decide) rfl

/-- C17 as stated fails: `4294967296x` is not empty and contains the byte `x`, which is
not a digit, and `parseUint32FromBytes` fails on it with `ErrIntegerOverflow`, not
`ErrInvalidDigit`: the overflow of the ten digits is met before the `x`. -/
theorem invalid_digit_counterexample :
    ascii "4294967296x" ≠ [] ∧ (∃ b ∈ ascii "4294967296x", ¬ isDigit b) ∧
    parseUint32FromBytes (ascii "4294967296x") = .error ErrIntegerOverflow := by
  decide

/-- C17, amended. `parseUint32FromBytes` fails with `ErrEmptyByteSlice` on the empty
input; on every input that contains a byte outside `'0'..'9'` it fails, with
`ErrInvalidDigit` when the digits before the first such byte denote at most 4294967295
(in particular when there are at most nine of them), and with `ErrIntegerOverflow` when
they denote more. -/
theorem invalid_digit :
    parseUint32FromBytes [] = .error ErrEmptyByteSlice ∧
    (∀ (D rest : List Byte) (x : Byte), (∀ d ∈ D, isDigit d) → ¬ isDigit x →
      (digitsValue D ≤ 4294967295 →
        parseUint32FromBytes (D ++ x :: rest) = .error ErrInvalidDigit) ∧
      (digitsValue D > 4294967295 →
        parseUint32FromBytes (D ++ x :: rest) = .error ErrIntegerOverflow)) := by
  refine ⟨by decide, ?_⟩
  intro D rest x hD hx
  rw [parseUint32FromBytes_nondigit D rest x hD hx]
  unfold maxUint32
  constructor
  · intro h; rw [if_pos h]
  · intro h; rw [if_neg (by omega)]

theorem invalid_digit_witness :
    parseUint32FromBytes (ascii "12a4") = .error ErrInvalidDigit ∧
    parseUint32FromBytes (ascii "-1") = .error ErrInvalidDigit ∧
    parseUint32FromBytes (ascii "99999999999 ") = .error ErrIntegerOverflow :=
  ⟨(invalid_digit.2 (ascii "12") (ascii "4") 97 (by decide) (by decide)).1 (by decide),
    (invalid_digit.2 [] (ascii "1") 45 (by decide) (by decide)).1 (by decide),
    (invalid_digit.2 (ascii "99999999999") [] 32 (by decide) (by decide)).2 (by decide)⟩

/-- C18 fails on the code for an empty iterations run. On `$argon2id$v=19$m=,t=3,p=4$...`
the position check rejects the parameter field (`,t=` at offset 2 < 3) with
`ErrInvalidParams`; on `$argon2id$v=19$m=1,t=,p=4$...` the check passes (`,t=` at offset 3,
`,p=` at offset 6 = 3 + 3), the empty iterations run reaches `parseUint32FromBytes`, and
the function fails with `ErrEmptyByteSlice` instead of `ErrInvalidParams`. -/
theorem empty_digit_run :
    decodeArgonHashBytes (ascii "$argon2id$v=19$m=,t=3,p=4$c2FsdA$aGFzaA") =
      some (decodeFail ErrInvalidParams) ∧
    bytesIndex (ascii "m=1,t=,p=4") commaTEqualsBytes = 3 ∧
    bytesIndex (ascii "m=1,t=,p=4") commaPEqualsBytes = 6 ∧
    decodeParams (ascii "m=1,t=,p=4") = some (.error ErrEmptyByteSlice) ∧
    decodeArgonHashBytes (ascii "$argon2id$v=19$m=1,t=,p=4$c2FsdA$aGFzaA") =
      some (decodeFail ErrEmptyByteSlice) := by
  decide

/-- C19. The concrete scenario: `decodeArgonHashBytes` on the bytes of
`$argon2id$v=19$m=65536,t=3,p=4$c2FsdA$aGFzaA` succeeds and returns memory 65536,
iterations 3, parallelism 4, the 4 bytes of `salt` as salt and the 4 bytes of `hash` as
digest. -/
theorem concrete_scenario :
    decodeArgonHashBytes (ascii "$argon2id$v=19$m=65536,t=3,p=4$c2FsdA$aGFzaA") =
      some ⟨65536, 3, 4, some [115, 97, 108, 116], some [104, 97, 115, 104], none⟩ ∧
    ascii "salt" = [115, 97, 108, 116] ∧ ascii "hash" = [104, 97, 115, 104] := by
  decide

/-- C20. Encoder format: for all inputs `encodeArgonHashAsBytes` is exactly the text
`$argon2id$v=19$m=<memory>,t=<iterations>,p=<parallelism>$<b64(salt)>$<b64(digest)>` of the
specification; the three numbers stand in minimal decimal notation (a non-empty digit run
of that value without a leading zero); the two base64 fields are made of characters of the
standard alphabet, without padding, and decode to the salt and the digest; and the
format-string encoder `encodeArgonHash` produces the same bytes. -/
theorem encoder_format (digest salt : List Byte) (memory iterations parallelism : Nat) :
    encodeArgonHashAsBytes digest salt memory iterations parallelism =
      specEncoding digest salt memory iterations parallelism ∧
    encodeArgonHash digest salt memory iterations parallelism =
      encodeArgonHashAsBytes digest salt memory iterations parallelism ∧
    (∀ n : Nat, specDecimal n ≠ [] ∧ (∀ d ∈ specDecimal n, isDigit d) ∧
      digitsValue (specDecimal n) = n ∧ noLeadingZero (specDecimal n)) ∧
    (∀ bs : List Byte, (∀ c ∈ base64Encode bs, c ∈ encodeStd) ∧
      base64Decode (base64Encode bs) = .ok bs) := by
  refine ⟨(specEncoding_eq digest salt memory iterations parallelism).symm,
    encodeArgonHash_eq digest salt memory iterations parallelism, ?_, ?_⟩
  · intro n
    rw [specDecimal_eq]
    obtain ⟨h1, h2, h3⟩ := appendUint_digits n
    exact ⟨h1, h2, h3, appendUint_noLeadingZero n⟩
  · intro bs
    exact ⟨base64Encode_alphabet bs, base64Decode_encode bs⟩

/-- C21 fails on the code. Whatever the CPU count, `validateConfig` on a `Config` whose
fields are all zero returns `nil` and leaves Iterations 3, SaltLength 16, KeyLength 32,
MaxMemory 524288 and MaxIterations 10, but Memory 524288 (`ArgonMaxMemory`, not
`ArgonMemory` = 65536) and Parallelism 4 (`ArgonMaxParallelism`, which is not the default
parallelism `getArgonParallelism` on a machine with fewer than 4 CPUs, such as 2). -/
theorem zero_config_normalised (numCPU : Int) :
    validateConfig numCPU (some
        { Memory := 0, Iterations := 0, SaltLength := 0, KeyLength := 0, Parallelism := 0,
          MaxMemory := 0, MaxIterations := 0 }) =
      (some { Memory := 524288, Iterations := 3, SaltLength := 16, KeyLength := 32,
              Parallelism := 4, MaxMemory := 524288, MaxIterations := 10 }, none) ∧
    ArgonMemory = 65536 ∧ getArgonParallelism 2 = 2 := by
  refine ⟨?_, by decide, by decide⟩
  rw [validateConfig_eq]
  simp [normalisedConfig, capParallelism, ArgonMaxMemory, ArgonMaxIterations, ArgonIterations,
    ArgonSaltLength, ArgonKeyLength, ArgonMaxParallelism]

/-- C22 fails on the code. For a `Config` with Memory = 0, `validateConfig` first
replaces the zero by `ArgonMaxMemory` (524288) and compares that with the ceiling: with a
non-zero MaxMemory below 524288 it fails with `ErrConfigMemoryExceedsMax`, and whenever
it returns `nil` the Memory it leaves is 524288, not `ArgonMemory` (65536). -/
theorem zero_memory_not_defaulted (numCPU : Int) (c : Config) (h : c.Memory = 0) :
    (c.MaxMemory ≠ 0 → c.MaxMemory < ArgonMaxMemory →
      (validateConfig numCPU (some c)).2 = some ConfigError.ErrConfigMemoryExceedsMax) ∧
    (∀ c', validateConfig numCPU (some c) = (some c', none) →
      c'.Memory = ArgonMaxMemory ∧ c'.Memory ≠ ArgonMemory) := by
  constructor
  · intro h0 hlt
    rw [validateConfig_memory_error, if_pos h, if_neg h0]
    exact hlt
  · intro c' hc
    obtain ⟨rfl, -, -⟩ := validateConfig_accepted numCPU c c' hc
    have e : (normalisedConfig numCPU c).Memory = ArgonMaxMemory := by
      simp only [normalisedConfig, h, if_true]
    rw [e]
    exact ⟨rfl, by decide⟩

theorem zero_memory_not_defaulted_witness :
    (validateConfig 8 (some
        { Memory := 0, Iterations := 0, SaltLength := 0, KeyLength := 0, Parallelism := 0,
          MaxMemory := 100000, MaxIterations := 0 })).2 =
      some ConfigError.ErrConfigMemoryExceedsMax :=
  (zero_memory_not_defaulted 8
    { Memory := 0, Iterations := 0, SaltLength := 0, KeyLength := 0, Parallelism := 0,
      MaxMemory := 100000, MaxIterations := 0 } rfl).1 (by decide) (by decide)

/-- C23. For every `Config` with a non-zero Memory, `validateConfig` fails with
`ErrConfigMemoryExceedsMax` exactly when Memory exceeds the effective ceiling: MaxMemory
when that is non-zero, `ArgonMaxMemory` (524288) when MaxMemory is 0. -/
theorem memory_ceiling (numCPU : Int) (c : Config) (h : c.Memory ≠ 0) :
    ((validateConfig numCPU (some c)).2 = some ConfigError.ErrConfigMemoryExceedsMax ↔
      c.Memory > (if c.MaxMemory = 0 then ArgonMaxMemory else c.MaxMemory)) ∧
    ArgonMaxMemory = 524288 := by
  refine ⟨?_, by decide⟩
  rw [validateConfig_memory_error, if_neg h]

theorem memory_ceiling_witness :
    (validateConfig 8 (some
        { Memory := 524289, Iterations := 0, SaltLength := 0, KeyLength := 0, Parallelism := 0,
          MaxMemory := 0, MaxIterations := 0 })).2 =
      some ConfigError.ErrConfigMemoryExceedsMax ∧
    (validateConfig 8 (some
        { Memory := 524288, Iterations := 0, SaltLength := 0, KeyLength := 0, Parallelism := 0,
          MaxMemory := 0, MaxIterations := 0 })).2 ≠
      some ConfigError.ErrConfigMemoryExceedsMax :=
  ⟨(memory_ceiling 8
      { Memory := 524289, Iterations := 0, SaltLength := 0, KeyLength := 0, Parallelism := 0,
        MaxMemory := 0, MaxIterations := 0 } (by decide)).1.2 (by decide),
    fun h => absurd ((memory_ceiling 8
      { Memory := 524288, Iterations := 0, SaltLength := 0, KeyLength := 0, Parallelism := 0,
        MaxMemory := 0, MaxIterations := 0 } (by decide)).1.1 h) (by decide)⟩

/-- C24 fails on the code. `validateConfig` replaces a zero Parallelism by
`ArgonMaxParallelism` (4) whatever the CPU count; on a machine with 1, 2 or 3 CPUs the
default parallelism that `getArgonParallelism` computes is the CPU count, not 4. -/
theorem zero_parallelism_not_default (numCPU : Int) (c : Config) (h : c.Parallelism = 0) :
    (∃ c', (validateConfig numCPU (some c)).1 = some c' ∧ c'.Parallelism = 4) ∧
    (1 ≤ numCPU → numCPU < 4 →
      (getArgonParallelism numCPU : Int) = numCPU ∧ getArgonParallelism numCPU ≠ 4) := by
  constructor
  · obtain ⟨c', h1, h2⟩ := validateConfig_fst numCPU c
    refine ⟨c', h1, ?_⟩
    rw [h2, h]
    rfl
  · intro h1 h4
    unfold getArgonParallelism ArgonMaxParallelism
    rw [if_neg (by omega), if_neg (by decide)]
    omega

theorem zero_parallelism_not_default_witness :
    (∃ c', (validateConfig 2 (some
        { Memory := 0, Iterations := 0, SaltLength := 0, KeyLength := 0, Parallelism := 0,
          MaxMemory := 0, MaxIterations := 0 })).1 = some c' ∧ c'.Parallelism = 4) ∧
    ((getArgonParallelism 2 : Int) = 2 ∧ getArgonParallelism 2 ≠ 4) :=
  ⟨(zero_parallelism_not_default 2
      { Memory := 0, Iterations := 0, SaltLength := 0, KeyLength := 0, Parallelism := 0,
        MaxMemory := 0, MaxIterations := 0 } rfl).1,
    (zero_parallelism_not_default 2
      { Memory := 0, Iterations := 0, SaltLength := 0, KeyLength := 0, Parallelism := 0,
        MaxMemory := 0, MaxIterations := 0 } rfl).2 (by decide) (by decide)⟩

/-- C25. For every detected CPU count `numCPU >= 1` and every non-zero Parallelism `p`,
`validateConfig` sets Parallelism to `min(p, numCPU, 255)`: at least 1, never greater
than `p` and never greater than `numCPU`. -/
theorem nonzero_parallelism_capped (numCPU : Int) (c : Config) (hn : 1 ≤ numCPU)
    (hp : c.Parallelism ≠ 0) :
    ∃ c', (validateConfig numCPU (some c)).1 = some c' ∧
      (c'.Parallelism : Int) = min (min (c.Parallelism : Int) numCPU) 255 ∧
      1 ≤ c'.Parallelism ∧ c'.Parallelism ≤ c.Parallelism ∧
      (c'.Parallelism : Int) ≤ numCPU := by
  obtain ⟨c', h1, h2⟩ := validateConfig_fst numCPU c
  refine ⟨c', h1, ?_⟩
  rw [h2]
  exact capParallelism_nonzero numCPU c.Parallelism hn hp

theorem nonzero_parallelism_capped_witness :
    ∃ c', (validateConfig 2 (some
        { Memory := 0, Iterations := 0, SaltLength := 0, KeyLength := 0, Parallelism := 8,
          MaxMemory := 0, MaxIterations := 0 })).1 = some c' ∧
      (c'.Parallelism : Int) = min (min ((8 : Nat) : Int) 2) 255 ∧
      1 ≤ c'.Parallelism ∧ c'.Parallelism ≤ 8 ∧ (c'.Parallelism : Int) ≤ 2 :=
  nonzero_parallelism_capped 2
    { Memory := 0, Iterations := 0, SaltLength := 0, KeyLength := 0, Parallelism := 8,
      MaxMemory := 0, MaxIterations := 0 } (by decide) (by decide)

/-- C26 as stated fails: `Config{MaxIterations: 2}` is accepted, and afterwards
Iterations is 3 (the default) while MaxIterations is still 2. -/
theorem ceiling_invariant_counterexample :
    ∃ c', validateConfig 8 (some
        { Memory := 0, Iterations := 0, SaltLength := 0, KeyLength := 0, Parallelism := 0,
          MaxMemory := 0, MaxIterations := 2 }) = (some c', none) ∧
      c'.Iterations = 3 ∧ c'.MaxIterations = 2 ∧ ¬ c'.Iterations ≤ c'.MaxIterations :=
  ⟨{ Memory := 524288, Iterations := 3, SaltLength := 16, KeyLength := 32, Parallelism := 4,
     MaxMemory := 524288, MaxIterations := 2 }, by decide, rfl, rfl, by decide⟩

/-- C26, amended. For every `Config` that `validateConfig` accepts, Memory <= MaxMemory
holds afterwards; Iterations <= MaxIterations holds afterwards when the supplied
Iterations is not zero, or the supplied MaxIterations is zero or at least the default
iterations `ArgonIterations` (3). A zero Iterations is replaced by 3 without a
comparison with the ceiling. -/
theorem ceiling_invariant (numCPU : Int) (c c' : Config)
    (h : validateConfig numCPU (some c) = (some c', none)) :
    c'.Memory ≤ c'.MaxMemory ∧
    (c.Iterations ≠ 0 ∨ c.MaxIterations = 0 ∨ ArgonIterations ≤ c.MaxIterations →
      c'.Iterations ≤ c'.MaxIterations) ∧
    (c.Iterations = 0 → c'.Iterations = ArgonIterations) := by
  obtain ⟨rfl, hmem, hit⟩ := validateConfig_accepted numCPU c c' h
  refine ⟨hmem, ?_, ?_⟩
  · intro hcase
    simp only [normalisedConfig]
    by_cases hi : c.Iterations = 0
    · rw [if_pos hi]
      rcases hcase with h1 | h1 | h1
      · exact absurd hi h1
      · rw [if_pos h1]
        decide
      · by_cases hx : c.MaxIterations = 0
        · rw [if_pos hx]
          decide
        · rw [if_neg hx]
          exact h1
    · rw [if_neg hi]
      exact hit hi
  · intro hi
    simp only [normalisedConfig, hi, if_true]

theorem ceiling_invariant_witness :
    (524288 : Nat) ≤ 600000 ∧ (5 : Nat) ≤ 10 :=
  ⟨(ceiling_invariant 8
      { Memory := 0, Iterations := 5, SaltLength := 0, KeyLength := 0, Parallelism := 0,
        MaxMemory := 600000, MaxIterations := 0 }
      { Memory := 524288, Iterations := 5, SaltLength := 16, KeyLength := 32, Parallelism := 4,
        MaxMemory := 600000, MaxIterations := 10 } (by decide)).1,
    (ceiling_invariant 8
      { Memory := 0, Iterations := 5, SaltLength := 0, KeyLength := 0, Parallelism := 0,
        MaxMemory := 600000, MaxIterations := 0 }
      { Memory := 524288, Iterations := 5, SaltLength := 16, KeyLength := 32, Parallelism := 4,
        MaxMemory := 600000, MaxIterations := 10 } (by decide)).2.1 (Or.inl (by decide))⟩

/-- C27 fails on the code. `HashWithConfig` never calls `validateConfig`: with a `Config`
whose fields are all zero it asks the random source for a salt of 0 bytes, and with the
empty salt `generateArgonHash` returns `nil`, so for every non-empty password the result
is `("", ErrInvalidHash)`, not an encoding with the default parameters. -/
theorem hash_with_zero_config (idKey : IDKey) (reader : RandReader) (P : List Byte)
    (hP : P ≠ []) (hread : reader 0 = some []) :
    HashWithConfig idKey reader P (some
        { Memory := 0, Iterations := 0, SaltLength := 0, KeyLength := 0, Parallelism := 0,
          MaxMemory := 0, MaxIterations := 0 }) =
      some ([], some (ErrorValue.plain ErrInvalidHash)) := by
  unfold HashWithConfig
  rw [if_neg (by simp), if_neg hP]
  unfold generateHashFromInputCustom generateSalt generateRandomBytes generateArgonHash
  simp [hread, sliceBytes]

theorem hash_with_zero_config_witness :
    HashWithConfig sampleIDKey sampleReader (ascii "correcthorsebatterystaple") (some
        { Memory := 0, Iterations := 0, SaltLength := 0, KeyLength := 0, Parallelism := 0,
          MaxMemory := 0, MaxIterations := 0 }) =
      some ([], some (ErrorValue.plain ErrInvalidHash)) :=
  hash_with_zero_config sampleIDKey sampleReader (ascii "correcthorsebatterystaple")
    (by decide) rfl

/-- C28 as stated fails: with `Config{Memory: 524289, Iterations: 3, SaltLength: 1,
KeyLength: 1, Parallelism: 1}` (sample derivation function and random source)
`HashWithConfig` returns a hash without error, and `ComparePW` of the same password and
that hash returns `(false, ErrInvalidParams)`: the decoder rejects a memory above its
compiled-in limit 524288. -/
theorem verify_after_custom_hash_counterexample :
    HashWithConfig sampleIDKey sampleReader [112] (some
        { Memory := 524289, Iterations := 3, SaltLength := 1, KeyLength := 1, Parallelism := 1,
          MaxMemory := 0, MaxIterations := 0 }) =
      some (ascii "$argon2id$v=19$m=524289,t=3,p=1$Bw$AQ", none) ∧
    ComparePW sampleIDKey [112] (ascii "$argon2id$v=19$m=524289,t=3,p=1$Bw$AQ") =
      some (false, some ErrInvalidParams) := by
  decide

/-- C28, amended. With a derivation primitive that returns `keyLen` bytes for a non-empty
password and salt: for every non-empty password P and every non-nil config (fields within
their Go types) with Memory at most `ArgonMaxMemory` (524288) and Iterations at most
`ArgonMaxIterations` (10), the limits of the decoder, if `HashWithConfig(P, config)`
returns a hash `h` without error then `h` is the encoding of the key derived from P and the
drawn salt with the fields of the config, and `ComparePW(P, h)` is `(true, nil)`. -/
theorem verify_after_custom_hash (idKey : IDKey) (reader : RandReader) (P h : List Byte)
    (c : Config) (hP : P ≠ []) (hc : c.wellTyped)
    (hm : c.Memory ≤ ArgonMaxMemory) (ht : c.Iterations ≤ ArgonMaxIterations)
    (hkey : ∀ pw s t m p k, pw ≠ [] → s ≠ [] → (idKey pw s t m p k).length = k)
    (hh : HashWithConfig idKey reader P (some c) = some (h, none)) :
    (∃ salt, reader c.SaltLength = some salt ∧
      h = encodeArgonHashAsBytes
        (idKey P salt c.Iterations c.Memory c.Parallelism c.KeyLength) salt c.Memory
        c.Iterations c.Parallelism) ∧
    ComparePW idKey P h = some (true, none) := by
  obtain ⟨salt, hread, hsne, -, hi1, hp1, hk1, rfl⟩ := HashWithConfig_ok idKey reader P h c hh
  obtain ⟨-, -, -, hk, hp, -, -⟩ := hc
  refine ⟨⟨salt, hread, rfl⟩, ?_⟩
  unfold ComparePW ComparePWBytes
  simp only
  rw [compare_of_decode idKey P _ _ hP
    (decode_encode _ salt c.Memory c.Iterations c.Parallelism hm ht hp) rfl]
  have hlen := hkey P salt c.Iterations c.Memory c.Parallelism c.KeyLength hP hsne
  simp only [sliceBytes, Option.getD_some, hlen]
  rw [if_neg (by omega)]
  have e : c.KeyLength % 2 ^ 32 = c.KeyLength := by
    unfold maxUint32 at hk
    exact Nat.mod_eq_of_lt (by omega)
  simp only [e, generateArgonHash_ok idKey P salt c.Iterations c.Memory c.Parallelism
    c.KeyLength hP hsne hi1 hp1 hk1, (constantTimeCompare_eq_one _ _).2 rfl, decide_True]

theorem verify_after_custom_hash_witness :
    HashWithConfig sampleIDKey sampleReader [112] (some
        { Memory := 524288, Iterations := 10, SaltLength := 1, KeyLength := 1, Parallelism := 1,
          MaxMemory := 0, MaxIterations := 0 }) =
      some (ascii "$argon2id$v=19$m=524288,t=10,p=1$Bw$AQ", none) ∧
    ComparePW sampleIDKey [112] (ascii "$argon2id$v=19$m=524288,t=10,p=1$Bw$AQ") =
      some (true, none) :=
  ⟨by decide,
    (verify_after_custom_hash sampleIDKey sampleReader [112]
      (ascii "$argon2id$v=19$m=524288,t=10,p=1$Bw$AQ")
      { Memory := 524288, Iterations := 10, SaltLength := 1, KeyLength := 1, Parallelism := 1,
        MaxMemory := 0, MaxIterations := 0 } (by decide) (by decide) (by decide) (by decide)
      (by intro pw s t m p k _ _; simp [sampleIDKey]) (by decide)).2⟩

/-- C29 as stated fails: with a non-empty password and an empty, non-nil hash
`ComparePWBytes` returns `(false, ErrInvalidHashFormat)`, and so does `ComparePW` with the
empty string as hash; only the `nil` hash gives `ErrNilHash`. -/
theorem empty_hash_counterexample :
    ComparePWBytes sampleIDKey [112] (some []) = some (false, some ErrInvalidHashFormat) ∧
    ComparePW sampleIDKey [112] [] = some (false, some ErrInvalidHashFormat) ∧
    ErrInvalidHashFormat ≠ ErrNilHash := by
  decide

/-- C29, amended. For every non-empty password, `ComparePWBytes` with a `nil` encoded hash
returns `(false, ErrNilHash)`; with an empty (zero-length, non-nil) encoded hash it returns
`(false, ErrInvalidHashFormat)`, and so does `ComparePW` with the empty string as hash. -/
theorem nil_and_empty_hash (idKey : IDKey) (password : List Byte) (hpw : password ≠ []) :
    ComparePWBytes idKey password none = some (false, some ErrNilHash) ∧
    ComparePWBytes idKey password (some []) = some (false, some ErrInvalidHashFormat) ∧
    ComparePW idKey password [] = some (false, some ErrInvalidHashFormat) := by
  have hdec : decodeArgonHashBytes [] = some (decodeFail ErrInvalidHashFormat) := by decide
  have h2 : ComparePWBytes idKey password (some []) =
      some (false, some ErrInvalidHashFormat) := by
    unfold ComparePWBytes
    exact compare_of_decode_error idKey password [] _ ErrInvalidHashFormat hpw hdec rfl
  exact ⟨rfl, h2, h2⟩

theorem nil_and_empty_hash_witness :
    ComparePWBytes sampleIDKey (ascii "password") none = some (false, some ErrNilHash) ∧
    ComparePWBytes sampleIDKey (ascii "password") (some []) =
      some (false, some ErrInvalidHashFormat) ∧
    ComparePW sampleIDKey (ascii "password") [] = some (false, some ErrInvalidHashFormat) :=
  nil_and_empty_hash sampleIDKey (ascii "password") (by decide)

/-- C30. `GeneratePasswordWithCharset` validates its arguments before it draws any
randomness: whatever the random source, it returns `("", ErrInvalidCharset)` when the
charset is empty (whatever the length), `("", ErrNegativeLength)` when the charset is not
empty and the length is negative, and `("", ErrLengthZero)` when the charset is not empty
and the length is 0; with a non-empty charset and a positive length it returns none of
these three errors. -/
theorem generate_argument_checks (rnd : RandInt) (charset : List Byte) (length : Int) :
    (charset = [] → GeneratePasswordWithCharset rnd charset length =
      some ([], some (ErrorValue.plain ErrInvalidCharset))) ∧
    (charset ≠ [] → length < 0 → GeneratePasswordWithCharset rnd charset length =
      some ([], some (ErrorValue.plain ErrNegativeLength))) ∧
    (charset ≠ [] → length = 0 → GeneratePasswordWithCharset rnd charset length =
      some ([], some (ErrorValue.plain ErrLengthZero))) ∧
    (charset ≠ [] → length > 0 → ∀ r, GeneratePasswordWithCharset rnd charset length = some r →
      r.2 ≠ some (ErrorValue.plain ErrInvalidCharset) ∧
      r.2 ≠ some (ErrorValue.plain ErrNegativeLength) ∧
      r.2 ≠ some (ErrorValue.plain ErrLengthZero)) := by
  refine ⟨?_, ?_, ?_, ?_⟩
  · intro hc
    unfold GeneratePasswordWithCharset
    rw [if_pos hc]
  · intro hc hl
    unfold GeneratePasswordWithCharset
    rw [if_neg hc, if_pos hl]
  · intro hc hl
    unfold GeneratePasswordWithCharset
    rw [if_neg hc, if_neg (by omega), if_pos hl]
  · intro hc hl r hr
    unfold GeneratePasswordWithCharset at hr
    rw [if_neg hc, if_neg (by omega), if_neg (by omega)] at hr
    unfold generateWithCharset generateRandomPassword at hr
    rw [if_neg (by omega)] at hr
    rcases generateRandomPasswordLoop_err rnd charset _ _ _ r hr with h | h <;>
      rw [h] <;> simp

theorem generate_argument_checks_witness :
    GeneratePasswordWithCharset sampleRandInt [] 12 =
      some ([], some (ErrorValue.plain ErrInvalidCharset)) ∧
    GeneratePasswordWithCharset sampleRandInt (ascii "abc") (-1) =
      some ([], some (ErrorValue.plain ErrNegativeLength)) ∧
    GeneratePasswordWithCharset sampleRandInt (ascii "abc") 0 =
      some ([], some (ErrorValue.plain ErrLengthZero)) ∧
    GeneratePasswordWithCharset sampleRandInt (ascii "abc") 4 =
      some (ascii "abca", none) :=
  ⟨(generate_argument_checks sampleRandInt [] 12).1 rfl,
    (generate_argument_checks sampleRandInt (ascii "abc") (-1)).2.1 (by decide) (by decide),
    (generate_argument_checks sampleRandInt (ascii "abc") 0).2.2.1 (by decide) rfl,
    by decide⟩

/-- C31 fails on the code: `generateRandomPassword` picks bytes of the charset, not
characters. With the charset "é", the two bytes 0xC3 0xA9, a length of 1 and a random
source whose draw is the index 0, `GeneratePasswordWithCharset` returns the one-byte string
0xC3 without error; its only rune under `range` is U+FFFD, which `containsRune` does not
find in the charset (whose only rune is U+00E9). -/
theorem generated_password_runes_counterexample :
    (∀ i, ∃ k, sampleRandInt i ([195, 169] : List Byte).length = some k ∧
      k < ([195, 169] : List Byte).length) ∧
    GeneratePasswordWithCharset sampleRandInt [195, 169] 1 = some ([195], none) ∧
    runes [195] = [RuneError] ∧ runes [195, 169] = [233] ∧
    containsRune [195, 169] RuneError = false ∧
    ¬ (∀ r ∈ runes [195], r ∈ runes [195, 169]) :=
  ⟨fun i => ⟨i % 2, rfl, Nat.mod_lt i (by decide)⟩, by decide, by decide, by decide,
    by decide, by decide⟩

/-- C32 as stated fails: a password of 130 bytes with a digit, an uppercase letter, a
lowercase letter and a special character meets the documented requirements, and `IsValid`
returns false for it, because its length exceeds `passwordMaxLength` (129). -/
theorem is_valid_counterexample :
    documentedRequirements (ascii "Aa1!" ++ List.replicate 126 97) ∧
    IsValid (ascii "Aa1!" ++ List.replicate 126 97) = false :=
  ⟨by decide, by decide⟩

/-- C32, amended. For every password whose length is not 8, `IsValid` returns true exactly
when the length is over 8 and at most 129 and the password contains at least one digit, one
uppercase letter, one lowercase letter and one special character (an ASCII punctuation
character, the underscore among them). -/
theorem is_valid_requirements (password : List Byte) (h8 : password.length ≠ 8) :
    IsValid password = true ↔ documentedRequirements password ∧ password.length ≤ 129 := by
  rw [IsValid_iff]
  unfold documentedRequirements passwordMinLength passwordMaxLength
  constructor
  · rintro ⟨⟨h1, h2⟩, a, b, c, d⟩
    exact ⟨⟨by omega, c, b, a, d⟩, h2⟩
  · rintro ⟨⟨h1, c, b, a, d⟩, h2⟩
    exact ⟨⟨by omega, h2⟩, a, b, c, d⟩

theorem is_valid_requirements_witness :
    (ascii "Tr0ub4dor&3").length ≠ 8 ∧
    (IsValid (ascii "Tr0ub4dor&3") = true ↔
      documentedRequirements (ascii "Tr0ub4dor&3") ∧ (ascii "Tr0ub4dor&3").length ≤ 129) :=
  ⟨by decide, is_valid_requirements (ascii "Tr0ub4dor&3") (by decide)⟩

/-- C33. `IsConfigError` returns false for every error value: for `nil`, for each of the
four config errors of the package, and for every other error. -/
theorem is_config_error_false :
    (∀ err : Option ErrorObject, IsConfigError err = false) ∧
    IsConfigError none = false ∧
    IsConfigError (some (ErrorObject.configPointer ConfigError.ErrConfigNil)) = false ∧
    IsConfigError (some (ErrorObject.configPointer ConfigError.ErrConfigNegativeValue)) =
      false ∧
    IsConfigError (some (ErrorObject.configPointer ConfigError.ErrConfigMemoryExceedsMax)) =
      false ∧
    IsConfigError (some (ErrorObject.configPointer ConfigError.ErrConfigIterationsExceedsMax)) =
      false :=
  ⟨fun _ => rfl, rfl, rfl, rfl, rfl, rfl⟩

/-- C35 fails on the code. For each of the four config errors `p` of the package, whatever
the depth of calls allowed: `ConfigError.Unwrap` on `p` does not return (it calls
`errors.Unwrap` on its receiver, which calls the method again); `ConfigError.Is` on `p` does
not return for any target other than a struct value equal to the receiver, the target `p`
itself included; and `errors.Is(p, target)` does not return for any target other than `p`
and that struct value. Only `errors.Is(p, p)` returns, with true, on the comparison that
precedes the call of the method. -/
theorem config_error_methods_never_return (fuel : Nat) (p : ConfigError) :
    ConfigError.Unwrap fuel p.deref = none ∧
    (∀ target : ErrorObject, target ≠ ErrorObject.configStruct p.deref →
      ConfigError.Is fuel p.deref (some target) = none) ∧
    (∀ target : ErrorObject, target ≠ ErrorObject.configPointer p →
      target ≠ ErrorObject.configStruct p.deref →
      errorsIsCall fuel (some (ErrorObject.configPointer p)) (some target) = none) ∧
    errorsIsCall (fuel + 1) (some (ErrorObject.configPointer p))
      (some (ErrorObject.configPointer p)) = some true := by
  refine ⟨ConfigError_Unwrap_none fuel _, fun target h => ConfigError_Is_none fuel _ target h,
    ?_, ?_⟩
  · intro target h1 h2
    cases fuel with
    | zero => rfl
    | succ n =>
      have hne : ¬ (target.comparable = true ∧ ErrorObject.configPointer p = target) :=
        fun hc => h1 hc.2.symm
      simp only [errorsIsCall, errorsIs, errorsIsLoop, if_neg hne, ErrorObject.receiver,
        ConfigError_Is_none (n + 1) _ target h2]
  · simp [errorsIsCall, errorsIs, errorsIsLoop, ErrorObject.comparable]

theorem config_error_methods_never_return_witness :
    ConfigError.Unwrap 6 ConfigError.ErrConfigNil.deref = none ∧
    ConfigError.Is 6 ConfigError.ErrConfigNil.deref
      (some (ErrorObject.configPointer ConfigError.ErrConfigNil)) = none ∧
    errorsIsCall 6 (some (ErrorObject.configPointer ConfigError.ErrConfigNil))
      (some (ErrorObject.configPointer ConfigError.ErrConfigMemoryExceedsMax)) = none ∧
    errorsIsCall 6 (some (ErrorObject.configPointer ConfigError.ErrConfigNil))
      (some (ErrorObject.other 0 true)) = none :=
  ⟨(config_error_methods_never_return 6 ConfigError.ErrConfigNil).1,
    (config_error_methods_never_return 6 ConfigError.ErrConfigNil).2.1 _ (by decide),
    (config_error_methods_never_return 6 ConfigError.ErrConfigNil).2.2.1 _ (by decide)
      (by decide),
    (config_error_methods_never_return 6 ConfigError.ErrConfigNil).2.2.1 _ (by decide)
      (by decide)⟩

/-- C36 fails on the code: `decodeArgonHashBytes` accepts a hash whose parameter field says
`t=0`, one that says `p=0`, and one whose digest field is empty, and returns iterations 0,
parallelism 0 and a digest of length 0; so does the decoding of every encoding that
`encodeArgonHashAsBytes` makes of such values. -/
theorem decode_accepts_degenerate_values :
    decodeArgonHashBytes (ascii "$argon2id$v=19$m=65536,t=0,p=4$c2FsdA$aGFzaA") =
      some ⟨65536, 0, 4, some (ascii "salt"), some (ascii "hash"), none⟩ ∧
    decodeArgonHashBytes (ascii "$argon2id$v=19$m=65536,t=3,p=0$c2FsdA$aGFzaA") =
      some ⟨65536, 3, 0, some (ascii "salt"), some (ascii "hash"), none⟩ ∧
    decodeArgonHashBytes (ascii "$argon2id$v=19$m=65536,t=3,p=4$c2FsdA$") =
      some ⟨65536, 3, 4, some (ascii "salt"), some [], none⟩ ∧
    (∀ salt : List Byte, decodeArgonHashBytes (encodeArgonHashAsBytes [] salt 65536 0 0) =
      some ⟨65536, 0, 0, some salt, some [], none⟩) :=
  ⟨by decide, by decide, by decide,
    fun salt => decode_encode [] salt 65536 0 0 (by decide) (by decide) (by decide)⟩

end Argon2Password
